import Mathlib

/-!
# Verification of the paperoni merge-engine core

Shallow embedding, in Lean 4, of the core of the paperoni repository:

* `paperoni/tools.py` — identity tagging (`tag_uuid` / `get_uuid_tag`) and the
  union-find `EquivalenceGroups` structure;
* `paperoni/db/database.py` — the `Database` class: `acquire` / `_acquire`
  (recursive graph acquisition with a per-`Database` identity cache),
  `import_all`, `_accumulate_history_files` and `replay`.

Python byte strings are modelled as `List Nat`, Python `None`-able values as
`Option`, Python dicts as insertion-ordered association lists, and the SQL
tables touched by `_acquire` as functions from the row key to the stored
payload (for upserts via `Session.merge`) or to `Bool` (for
`INSERT ... ON CONFLICT DO NOTHING` set-semantics association tables).

The entity model (`paperoni/sources/model.py`) and the SQL schema
(`paperoni/db/schema.py`) are not part of the given sources; entities are
modelled from the spec as records carrying exactly the fields
`Database._acquire` reads, and `hashid` is modelled from the spec as a
deterministic content fingerprint of each kind's identifying fields
(a tagged byte encoding; `None` for `AuthorQuery`, which the spec names as
the kind without an independent identity).
-/

set_option maxRecDepth 10000
set_option maxHeartbeats 1000000

namespace Paperoni

/-! ## tools.py: `tag_uuid`, `get_uuid_tag`

`_uuid_tags = ["transient", "canonical"]`; `tag_uuid` sets or clears the top
bit of the first byte, `get_uuid_tag` reads it back by indexing `_uuid_tags`
with `(uuid[0] & 128) >> 7`.  An empty byte string makes `nums[0]` raise, so
both functions return `Option` and give `none` there. -/

inductive UuidTag where
  | transient
  | canonical
  deriving DecidableEq, Repr

/-- The list `_uuid_tags`; `list.index(status)` is `List.indexOf`. -/
def uuidTags : List UuidTag := [UuidTag.transient, UuidTag.canonical]

/-- `tag_uuid(uuid, status)` from tools.py: `bit = _uuid_tags.index(status)`;
if the bit is set, `nums[0] |= 128`, otherwise `nums[0] &= 127`. -/
def tag_uuid (uuid : List Nat) (status : UuidTag) : Option (List Nat) :=
  match uuid with
  | [] => none
  | b :: rest =>
      if uuidTags.indexOf status ≠ 0 then some ((b ||| 128) :: rest)
      else some ((b &&& 127) :: rest)

/-- `get_uuid_tag(uuid)` from tools.py: `_uuid_tags[(uuid[0] & 128) >> 7]`. -/
def get_uuid_tag (uuid : List Nat) : Option UuidTag :=
  match uuid with
  | [] => none
  | b :: _ => uuidTags[(b &&& 128) >>> 7]?

/-- `is_canonical_uuid(uuid)` from tools.py: `bool(uuid[0] & 128)`. -/
def is_canonical_uuid (uuid : List Nat) : Option Bool :=
  match uuid with
  | [] => none
  | b :: _ => some (b &&& 128 ≠ 0)

theorem indexOf_transient : uuidTags.indexOf UuidTag.transient = 0 := by decide

theorem indexOf_canonical : uuidTags.indexOf UuidTag.canonical = 1 := by decide

/-- The byte-level facts behind the tag round trip, checked over every byte. -/
theorem byte_tag_facts : ∀ b < 256,
    (b &&& 127) &&& 128 = 0 ∧ (b ||| 128) &&& 128 = 128 ∧
    (b &&& 127) % 128 = b % 128 ∧ (b ||| 128) % 128 = b % 128 ∧
    b &&& 127 < 256 ∧ b ||| 128 < 256 := by decide

/-- C7. For every byte string with at least one byte, all of whose bytes are
bytes (`< 256`), and every status, `get_uuid_tag (tag_uuid u s) = s`, and
`tag_uuid u s` differs from `u` at most in the top bit of the first byte:
the tail is unchanged and the first byte keeps its lower seven bits. -/
theorem tag_uuid_roundtrip (b : Nat) (rest : List Nat) (s : UuidTag)
    (hb : b < 256) :
    (tag_uuid (b :: rest) s).bind get_uuid_tag = some s ∧
    ∃ b2, tag_uuid (b :: rest) s = some (b2 :: rest) ∧
      b2 % 128 = b % 128 ∧ b2 < 256 := by
  obtain ⟨h0, h1, h2, h3, h4, h5⟩ := byte_tag_facts b hb
  cases s with
  | transient =>
      have ht : tag_uuid (b :: rest) UuidTag.transient
          = some ((b &&& 127) :: rest) := by
        simp [tag_uuid, indexOf_transient]
      refine ⟨?_, b &&& 127, ht, h2, h4⟩
      rw [ht]
      show get_uuid_tag ((b &&& 127) :: rest) = some UuidTag.transient
      simp [get_uuid_tag, h0, uuidTags]
  | canonical =>
      have ht : tag_uuid (b :: rest) UuidTag.canonical
          = some ((b ||| 128) :: rest) := by
        simp [tag_uuid, indexOf_canonical]
      refine ⟨?_, b ||| 128, ht, h3, h5⟩
      rw [ht]
      show get_uuid_tag ((b ||| 128) :: rest) = some UuidTag.canonical
      simp [get_uuid_tag, h1, uuidTags]

/-- Witness for `tag_uuid_roundtrip` at the byte string `[37, 200]`. -/
theorem tag_uuid_roundtrip_witness :
    (37 : Nat) < 256 ∧
    ((tag_uuid [37, 200] UuidTag.canonical).bind get_uuid_tag
        = some UuidTag.canonical ∧
      ∃ b2, tag_uuid [37, 200] UuidTag.canonical = some (b2 :: [200]) ∧
        b2 % 128 = 37 % 128 ∧ b2 < 256) :=
  ⟨by norm_num, tag_uuid_roundtrip 37 [200] UuidTag.canonical (by norm_num)⟩

/-! ## Python dicts as insertion-ordered association lists

`EquivalenceGroups` keeps three dicts (`representatives`, `names`,
`classes`).  A Python dict preserves insertion order; updating an existing
key keeps its position, a new key is appended.  Addresses are modelled as
`Nat`; the only falsy address value is `0` (real addresses are nonempty md5
byte strings, which are always truthy — `0` stands for the falsy `b""`). -/

def dget {α : Type} (m : List (Nat × α)) (k : Nat) : Option α :=
  match m with
  | [] => none
  | (k2, v) :: rest => if k2 = k then some v else dget rest k

def dset {α : Type} (m : List (Nat × α)) (k : Nat) (v : α) : List (Nat × α) :=
  match m with
  | [] => [(k, v)]
  | (k2, v2) :: rest =>
      if k2 = k then (k, v) :: rest else (k2, v2) :: dset rest k v

def dkeys {α : Type} (m : List (Nat × α)) : List Nat := m.map Prod.fst

theorem dget_dset_self {α : Type} (m : List (Nat × α)) (k : Nat) (v : α) :
    dget (dset m k v) k = some v := by
  induction m with
  | nil => simp [dget, dset]
  | cons hd tl ih =>
      obtain ⟨k2, v2⟩ := hd
      by_cases h : k2 = k
      · simp [dget, dset, h]
      · simp [dget, dset, h, ih]

theorem dkeys_nil {α : Type} : dkeys ([] : List (Nat × α)) = [] := rfl

theorem dkeys_cons {α : Type} (k2 : Nat) (v2 : α) (tl : List (Nat × α)) :
    dkeys ((k2, v2) :: tl) = k2 :: dkeys tl := rfl

theorem dset_cons_eq {α : Type} (k : Nat) (v v2 : α) (tl : List (Nat × α)) :
    dset ((k, v2) :: tl) k v = (k, v) :: tl := by simp [dset]

theorem dset_cons_ne {α : Type} (k k2 : Nat) (v v2 : α) (tl : List (Nat × α))
    (h : k2 ≠ k) : dset ((k2, v2) :: tl) k v = (k2, v2) :: dset tl k v := by
  simp [dset, h]

theorem dget_dset_ne {α : Type} (m : List (Nat × α)) (k k2 : Nat) (v : α)
    (h : k2 ≠ k) : dget (dset m k v) k2 = dget m k2 := by
  have hne : ¬ (k = k2) := fun hh => h hh.symm
  induction m with
  | nil => simp [dget, dset, hne]
  | cons hd tl ih =>
      obtain ⟨k3, v3⟩ := hd
      by_cases h3 : k3 = k
      · subst h3
        rw [dset_cons_eq]
        simp [dget, hne]
      · rw [dset_cons_ne _ _ _ _ _ h3]
        by_cases h4 : k3 = k2 <;> simp [dget, h4, ih]

theorem mem_dkeys_dset {α : Type} (m : List (Nat × α)) (k x : Nat) (v : α) :
    x ∈ dkeys (dset m k v) ↔ x ∈ dkeys m ∨ x = k := by
  induction m with
  | nil => simp [dkeys, dset]
  | cons hd tl ih =>
      obtain ⟨k2, v2⟩ := hd
      by_cases h : k2 = k
      · subst h
        rw [dset_cons_eq, dkeys_cons, dkeys_cons]
        simp only [List.mem_cons]
        tauto
      · rw [dset_cons_ne _ _ _ _ _ h, dkeys_cons, dkeys_cons]
        simp only [List.mem_cons]
        tauto

theorem dkeys_dset_of_mem {α : Type} (m : List (Nat × α)) (k : Nat) (v : α)
    (h : k ∈ dkeys m) : dkeys (dset m k v) = dkeys m := by
  induction m with
  | nil => simp [dkeys] at h
  | cons hd tl ih =>
      obtain ⟨k2, v2⟩ := hd
      by_cases h2 : k2 = k
      · subst h2
        rw [dset_cons_eq, dkeys_cons, dkeys_cons]
      · have hk : k ∈ dkeys tl := by
          rw [dkeys_cons] at h
          rcases List.mem_cons.mp h with h | h
          · exact absurd h.symm h2
          · exact h
        rw [dset_cons_ne _ _ _ _ _ h2, dkeys_cons, dkeys_cons, ih hk]

theorem dget_isSome_iff_mem {α : Type} (m : List (Nat × α)) (k : Nat) :
    (dget m k).isSome ↔ k ∈ dkeys m := by
  induction m with
  | nil => simp [dget, dkeys]
  | cons hd tl ih =>
      obtain ⟨k2, v2⟩ := hd
      rw [dkeys_cons]
      by_cases h : k2 = k
      · subst h
        simp [dget]
      · have h2 : ¬ (k = k2) := fun hh => h hh.symm
        simp [dget, h, h2, ih]

theorem dget_none_of_not_mem {α : Type} (m : List (Nat × α)) (k : Nat)
    (h : k ∉ dkeys m) : dget m k = none := by
  rcases h2 : dget m k with _ | v
  · rfl
  · exact absurd ((dget_isSome_iff_mem m k).mp (by simp [h2])) h

theorem length_dset_of_mem {α : Type} (m : List (Nat × α)) (k : Nat) (v : α)
    (h : k ∈ dkeys m) : (dset m k v).length = m.length := by
  induction m with
  | nil => simp [dkeys] at h
  | cons hd tl ih =>
      obtain ⟨k2, v2⟩ := hd
      by_cases h2 : k2 = k
      · subst h2
        rw [dset_cons_eq, List.length_cons, List.length_cons]
      · have hk : k ∈ dkeys tl := by
          rw [dkeys_cons] at h
          rcases List.mem_cons.mp h with h | h
          · exact absurd h.symm h2
          · exact h
        rw [dset_cons_ne _ _ _ _ _ h2]
        simp [ih hk]

theorem nodup_dkeys_dset {α : Type} (m : List (Nat × α)) (k : Nat) (v : α)
    (h : (dkeys m).Nodup) : (dkeys (dset m k v)).Nodup := by
  induction m with
  | nil => simp [dkeys, dset]
  | cons hd tl ih =>
      obtain ⟨k2, v2⟩ := hd
      rw [dkeys_cons, List.nodup_cons] at h
      by_cases h2 : k2 = k
      · subst h2
        rw [dset_cons_eq, dkeys_cons, List.nodup_cons]
        exact ⟨h.1, h.2⟩
      · rw [dset_cons_ne _ _ _ _ _ h2, dkeys_cons, List.nodup_cons]
        refine ⟨?_, ih h.2⟩
        intro hmem
        rcases (mem_dkeys_dset tl k k2 v).mp hmem with hmem | hmem
        · exact h.1 hmem
        · exact h2 hmem

/-! ## tools.py: `EquivalenceGroups`

`representatives` is a dict from address to address.  `follow(a)` is the
path-compressing lookup: `if b := representatives.get(a, None)` treats both
a missing key and a falsy value (`0` in our model) as "no representative".
`equiv(a, b)` unions by pointing `a`, `b` and `b`'s root at `a`'s root.
`groups()` first compresses every key, then buckets keys by their stored
representative, in insertion order.  `__iter__` asserts every group has
more than one member and yields `classes[main](ids=ids)` per group.

The recursion in `follow` terminates because the parent graph is acyclic;
the model makes this explicit with a fuel argument `m.length + 1`, which is
proved sufficient below (`followC_spec`). -/

/-- Dict lookup with Python truthiness: a stored falsy value (`0`) behaves
like a missing key inside `if b := self.representatives.get(a, None)`. -/
def pyGet (m : List (Nat × Nat)) (a : Nat) : Option Nat :=
  match dget m a with
  | none => none
  | some b => if b = 0 then none else some b

/-- `follow(a)`: path-compressed root lookup, with explicit fuel. -/
def followC : Nat → List (Nat × Nat) → Nat → List (Nat × Nat) × Nat
  | 0, m, a => (m, a)
  | f + 1, m, a =>
      match pyGet m a with
      | none => (m, a)
      | some b =>
          if a = b then (m, a)
          else
            let p := followC f m b
            (dset p.1 a p.2, p.2)

/-- Enough fuel for any `follow` on `m` (proved sufficient below). -/
def fuelOf (m : List (Nat × Nat)) : Nat := m.length + 1

/-- `equiv(a, b)` from tools.py: `ar = follow(a); br = follow(b);
representatives[a] = ar; representatives[b] = ar; representatives[br] = ar`. -/
def equivStep (m : List (Nat × Nat)) (a b : Nat) : List (Nat × Nat) :=
  let p1 := followC (fuelOf m) m a
  let p2 := followC (fuelOf p1.1) p1.1 b
  dset (dset (dset p2.1 a p1.2) b p1.2) p2.2 p1.2

/-- A sequence of `equiv` calls starting from a fresh `EquivalenceGroups`. -/
def runEquiv (ps : List (Nat × Nat)) : List (Nat × Nat) :=
  ps.foldl (fun m p => equivStep m p.1 p.2) []

/-- The compression loop at the start of `groups()`:
`for k in self.representatives: self.follow(k)`. -/
def compressAll (m : List (Nat × Nat)) : List (Nat × Nat) :=
  (dkeys m).foldl (fun acc k => (followC (fuelOf acc) acc k).1) m

/-- `results[v].add(k)` on a `defaultdict(set)`: buckets keep first-seen
order, and members are added in iteration order. -/
def bucketAdd (acc : List (Nat × List Nat)) (v k : Nat) :
    List (Nat × List Nat) :=
  match acc with
  | [] => [(v, [k])]
  | (v2, ks) :: rest =>
      if v2 = v then (v2, ks ++ [k]) :: rest
      else (v2, ks) :: bucketAdd rest v k

/-- `groups()` from tools.py: compress every key, then bucket each key `k`
under its stored representative `v`. -/
def groupsPairs (m : List (Nat × Nat)) : List (Nat × List Nat) :=
  (compressAll m).foldl (fun acc kv => bucketAdd acc kv.2 kv.1) []

/-- `x` and `y` land in one class of the `groups()` output. -/
def sameGroup (m : List (Nat × Nat)) (x y : Nat) : Prop :=
  ∃ pr ∈ groupsPairs m, x ∈ pr.2 ∧ y ∈ pr.2

/-! ### The chain / root theory of the parent map -/

/-- The parent of `a`: its truthy representative if any, else `a` itself. -/
def parentF (m : List (Nat × Nat)) (a : Nat) : Nat :=
  match pyGet m a with
  | none => a
  | some b => b

def iterP (m : List (Nat × Nat)) (n : Nat) (a : Nat) : Nat :=
  (parentF m)^[n] a

def IsRoot (m : List (Nat × Nat)) (a : Nat) : Prop := parentF m a = a

/-- The chain from `a` reaches the root `r` after finitely many steps. -/
def RootedAt (m : List (Nat × Nat)) (a r : Nat) : Prop :=
  ∃ n, iterP m n a = r ∧ IsRoot m r

def SameRoot (m : List (Nat × Nat)) (x y : Nat) : Prop :=
  ∃ r, RootedAt m x r ∧ RootedAt m y r

/-- Every chain terminates (maintained as an invariant of `equiv`). -/
def RootedAll (m : List (Nat × Nat)) : Prop := ∀ a, ∃ r, RootedAt m a r

/-- All stored representative values are truthy (nonzero); real addresses
are nonempty byte strings. -/
def ValPos (m : List (Nat × Nat)) : Prop :=
  ∀ k v, dget m k = some v → 0 < v

/-- Every stored representative value is itself a key. -/
def ValKey (m : List (Nat × Nat)) : Prop :=
  ∀ k v, dget m k = some v → v ∈ dkeys m

theorem iterP_zero (m : List (Nat × Nat)) (a : Nat) : iterP m 0 a = a := rfl

theorem iterP_succ (m : List (Nat × Nat)) (n : Nat) (a : Nat) :
    iterP m (n + 1) a = iterP m n (parentF m a) :=
  Function.iterate_succ_apply (parentF m) n a

theorem iterP_succ2 (m : List (Nat × Nat)) (n : Nat) (a : Nat) :
    iterP m (n + 1) a = parentF m (iterP m n a) :=
  Function.iterate_succ_apply' (parentF m) n a

theorem iterP_add (m : List (Nat × Nat)) (n n2 : Nat) (a : Nat) :
    iterP m (n + n2) a = iterP m n (iterP m n2 a) :=
  Function.iterate_add_apply (parentF m) n n2 a

theorem iterP_of_isRoot (m : List (Nat × Nat)) (r : Nat) (h : IsRoot m r)
    (n : Nat) : iterP m n r = r :=
  Function.iterate_fixed h n

/-- The root of a chain is unique. -/
theorem rootedAt_unique (m : List (Nat × Nat)) (a r1 r2 : Nat)
    (h1 : RootedAt m a r1) (h2 : RootedAt m a r2) : r1 = r2 := by
  obtain ⟨n1, e1, hr1⟩ := h1
  obtain ⟨n2, e2, hr2⟩ := h2
  rcases Nat.le_total n1 n2 with h | h
  · obtain ⟨d, rfl⟩ := Nat.le.dest h
    rw [Nat.add_comm, iterP_add, e1, iterP_of_isRoot m r1 hr1] at e2
    exact e2
  · obtain ⟨d, rfl⟩ := Nat.le.dest h
    rw [Nat.add_comm, iterP_add, e2, iterP_of_isRoot m r2 hr2] at e1
    exact e1.symm

theorem rootedAt_of_isRoot (m : List (Nat × Nat)) (r : Nat)
    (h : IsRoot m r) : RootedAt m r r := ⟨0, rfl, h⟩

theorem rootedAt_iterP (m : List (Nat × Nat)) (a r : Nat) (n : Nat)
    (h : RootedAt m a r) : RootedAt m (iterP m n a) r := by
  obtain ⟨n0, e, hr⟩ := h
  rcases Nat.le_total n n0 with hle | hle
  · obtain ⟨d, rfl⟩ := Nat.le.dest hle
    exact ⟨d, by rw [← iterP_add, Nat.add_comm, e], hr⟩
  · obtain ⟨d, rfl⟩ := Nat.le.dest hle
    refine ⟨0, ?_, hr⟩
    rw [iterP_zero, Nat.add_comm, iterP_add, e, iterP_of_isRoot m r hr]

theorem rootedAt_parent (m : List (Nat × Nat)) (a r : Nat)
    (h : RootedAt m (parentF m a) r) : RootedAt m a r := by
  obtain ⟨n, e, hr⟩ := h
  exact ⟨n + 1, by rw [iterP_succ]; exact e, hr⟩

/-- A chain step stays inside the keys of the dict. -/
theorem not_isRoot_mem_keys (m : List (Nat × Nat)) (a : Nat)
    (h : ¬ IsRoot m a) : a ∈ dkeys m := by
  rw [← dget_isSome_iff_mem]
  rcases h2 : dget m a with _ | v
  · exact absurd (by simp [IsRoot, parentF, pyGet, h2]) h
  · simp

theorem parentF_eq_of_dget (m : List (Nat × Nat)) (a v : Nat)
    (h : dget m a = some v) (hv : 0 < v) : parentF m a = v := by
  simp [parentF, pyGet, h, Nat.pos_iff_ne_zero.mp hv]

theorem parentF_of_not_mem (m : List (Nat × Nat)) (a : Nat)
    (h : a ∉ dkeys m) : parentF m a = a := by
  simp [parentF, pyGet, dget_none_of_not_mem m a h]

/-- A non-root points to a stored (truthy) value. -/
theorem dget_of_not_isRoot (m : List (Nat × Nat)) (a : Nat)
    (h : ¬ IsRoot m a) : dget m a = some (parentF m a) ∧ 0 < parentF m a := by
  rcases h2 : dget m a with _ | v
  · exact absurd (by simp [IsRoot, parentF, pyGet, h2]) h
  · by_cases hv : v = 0
    · subst hv
      exact absurd (by simp [IsRoot, parentF, pyGet, h2]) h
    · constructor
      · rw [parentF_eq_of_dget m a v h2 (Nat.pos_of_ne_zero hv)]
        try exact h2
      · rw [parentF_eq_of_dget m a v h2 (Nat.pos_of_ne_zero hv)]
        exact Nat.pos_of_ne_zero hv

/-- Fuel adequacy: a rooted chain reaches its root in at most `m.length`
steps (the strictly pre-root chain nodes are distinct keys of `m`). -/
theorem chain_bound (m : List (Nat × Nat)) (a r : Nat) (h : RootedAt m a r) :
    ∃ n ≤ m.length, iterP m n a = r ∧ IsRoot m r := by
  classical
  obtain ⟨N, eN, hr⟩ := h
  have hex : ∃ n, IsRoot m (iterP m n a) := ⟨N, by rw [eN]; exact hr⟩
  have hn0 : IsRoot m (iterP m (Nat.find hex) a) := Nat.find_spec hex
  have hmin : ∀ j < Nat.find hex, ¬ IsRoot m (iterP m j a) := fun j hj =>
    Nat.find_min hex hj
  have hn0N : Nat.find hex ≤ N := Nat.find_min' hex (by rw [eN]; exact hr)
  have e0 : iterP m (Nat.find hex) a = r := by
    obtain ⟨d, hd⟩ := Nat.le.dest hn0N
    rw [← hd, Nat.add_comm, iterP_add,
      iterP_of_isRoot m (iterP m (Nat.find hex) a) hn0 d] at eN
    exact eN
  refine ⟨Nat.find hex, ?_, e0, hr⟩
  -- the pre-root chain nodes are pairwise distinct keys
  have hinj : ∀ i < Nat.find hex, ∀ j < Nat.find hex,
      iterP m i a = iterP m j a → i = j := by
    have key : ∀ i j, i < j → j ≤ Nat.find hex →
        iterP m i a = iterP m j a → False := by
      intro i j hij hjn heq
      have : iterP m (Nat.find hex - j + i) a = iterP m (Nat.find hex) a := by
        have h1 : iterP m (Nat.find hex - j + i) a
            = iterP m (Nat.find hex - j) (iterP m i a) := by
          rw [← iterP_add]
        have h2 : iterP m (Nat.find hex - j + j) a
            = iterP m (Nat.find hex - j) (iterP m j a) := by
          rw [← iterP_add]
        rw [h1, heq, ← h2, Nat.sub_add_cancel hjn]
      have hlt : Nat.find hex - j + i < Nat.find hex := by omega
      exact hmin _ hlt (by rw [this]; exact hn0)
    intro i hi j hj heq
    rcases Nat.lt_trichotomy i j with h | h | h
    · exact absurd (key i j h (Nat.le_of_lt hj) heq) id
    · exact h
    · exact absurd (key j i h (Nat.le_of_lt hi) heq.symm) id
  have hnodup : ((List.range (Nat.find hex)).map
      (fun i => iterP m i a)).Nodup := by
    refine List.Nodup.map_on ?_ (List.nodup_range _)
    intro i hi j hj heq
    exact hinj i (List.mem_range.mp hi) j (List.mem_range.mp hj) heq
  have hsub : ((List.range (Nat.find hex)).map
      (fun i => iterP m i a)) ⊆ dkeys m := by
    intro x hx
    obtain ⟨i, hi, rfl⟩ := List.mem_map.mp hx
    exact not_isRoot_mem_keys m _ (hmin i (List.mem_range.mp hi))
  have := List.Subperm.length_le (List.subperm_of_subset hnodup hsub)
  simpa [dkeys] using this

/-- The root of a non-root is a stored value, hence positive. -/
theorem root_pos (m : List (Nat × Nat)) (a r : Nat)
    (h : RootedAt m a r) (ha : ¬ IsRoot m a) : 0 < r := by
  classical
  obtain ⟨N, eN, hr⟩ := h
  have hex : ∃ n, IsRoot m (iterP m n a) := ⟨N, by rw [eN]; exact hr⟩
  have hn0 : IsRoot m (iterP m (Nat.find hex) a) := Nat.find_spec hex
  have e0 : iterP m (Nat.find hex) a = r := by
    have hn0N : Nat.find hex ≤ N := Nat.find_min' hex (by rw [eN]; exact hr)
    obtain ⟨d, hd⟩ := Nat.le.dest hn0N
    rw [← hd, Nat.add_comm, iterP_add,
      iterP_of_isRoot m (iterP m (Nat.find hex) a) hn0 d] at eN
    exact eN
  have hpos : Nat.find hex ≠ 0 := by
    intro h0
    rw [h0] at hn0
    exact ha hn0
  obtain ⟨n1, hn1⟩ := Nat.exists_eq_succ_of_ne_zero hpos
  have hnr : ¬ IsRoot m (iterP m n1 a) := Nat.find_min hex (by omega)
  have : parentF m (iterP m n1 a) = r := by
    rw [← iterP_succ2, show n1 + 1 = Nat.find hex from hn1.symm]
    exact e0
  obtain ⟨hd, hp⟩ := dget_of_not_isRoot m _ hnr
  rw [this] at hp
  exact hp

/-- The root of a truthy (`0 < a`) address is positive. -/
theorem root_pos_of_pos (m : List (Nat × Nat)) (a r : Nat)
    (h : RootedAt m a r) (ha : 0 < a) : 0 < r := by
  by_cases hr : IsRoot m a
  · rw [rootedAt_unique m a r a h (rootedAt_of_isRoot m a hr)]
    exact ha
  · exact root_pos m a r h hr

/-- The root of a key of `m` is again a key of `m` (given `ValKey`). -/
theorem root_mem_keys (m : List (Nat × Nat)) (hvk : ValKey m) (a r : Nat)
    (h : RootedAt m a r) (ha : a ∈ dkeys m) : r ∈ dkeys m := by
  obtain ⟨n, e, hr⟩ := h
  induction n generalizing a with
  | zero => rw [iterP_zero] at e; exact e ▸ ha
  | succ n ih =>
      by_cases hra : IsRoot m a
      · rw [iterP_of_isRoot m a hra] at e
        exact e ▸ ha
      · obtain ⟨hd, hp⟩ := dget_of_not_isRoot m a hra
        have hmem : parentF m a ∈ dkeys m := hvk a (parentF m a) hd
        exact ih (parentF m a) hmem (by rw [← iterP_succ]; exact e)

/-! ### Rerouting: the effect of pointer updates on roots

`m2` agrees with `m1` except that every node in `S` now points at the root
`ar`.  A chain that meets `S` ends at `ar`; a chain that avoids `S` is
unchanged. -/

/-- The chain of `x` in `m` meets the set `S` (a list of nodes). -/
def Hits (m : List (Nat × Nat)) (S : List Nat) (x : Nat) : Prop :=
  ∃ i, iterP m i x ∈ S

theorem iterP_transfer (m1 m2 : List (Nat × Nat)) (S : List Nat)
    (hag : ∀ y, y ∉ S → parentF m2 y = parentF m1 y) (x : Nat) (i : Nat)
    (havoid : ∀ j < i, iterP m1 j x ∉ S) :
    iterP m2 i x = iterP m1 i x := by
  induction i with
  | zero => rfl
  | succ i ih =>
      have h1 : iterP m2 i x = iterP m1 i x :=
        ih (fun j hj => havoid j (Nat.lt_succ_of_lt hj))
      rw [iterP_succ2, iterP_succ2, h1,
        hag (iterP m1 i x) (havoid i (Nat.lt_succ_self i))]

theorem rooted_reroute (m1 m2 : List (Nat × Nat)) (S : List Nat) (ar : Nat)
    (hag : ∀ y, y ∉ S → parentF m2 y = parentF m1 y)
    (hS : ∀ y, y ∈ S → parentF m2 y = ar)
    (har : IsRoot m2 ar) (x s : Nat) (h : RootedAt m1 x s) :
    (Hits m1 S x ∧ RootedAt m2 x ar) ∨
    (¬ Hits m1 S x ∧ RootedAt m2 x s) := by
  classical
  by_cases hh : Hits m1 S x
  · left
    refine ⟨hh, ?_⟩
    obtain ⟨i0, hi0⟩ := hh
    have hex : ∃ i, iterP m1 i x ∈ S := ⟨i0, hi0⟩
    have hsp : iterP m1 (Nat.find hex) x ∈ S := Nat.find_spec hex
    have hmin : ∀ j < Nat.find hex, iterP m1 j x ∉ S := fun j hj =>
      Nat.find_min hex hj
    have htr : iterP m2 (Nat.find hex) x = iterP m1 (Nat.find hex) x :=
      iterP_transfer m1 m2 S hag x (Nat.find hex) hmin
    refine ⟨Nat.find hex + 1, ?_, har⟩
    rw [iterP_succ2, htr, hS _ hsp]
  · right
    refine ⟨hh, ?_⟩
    obtain ⟨n, e, hr⟩ := h
    have havoid : ∀ j, iterP m1 j x ∉ S := by
      intro j hj
      exact hh ⟨j, hj⟩
    have htr : iterP m2 n x = iterP m1 n x :=
      iterP_transfer m1 m2 S hag x n (fun j _ => havoid j)
    refine ⟨n, by rw [htr]; exact e, ?_⟩
    have hs : s ∉ S := by
      intro hmem
      exact hh ⟨n, by rw [e]; exact hmem⟩
    rw [IsRoot, hag s hs]
    exact hr


/-- Case analysis for an entry of `dset`. -/
theorem dget_dset_cases {α : Type} (m : List (Nat × α)) (k k2 : Nat)
    (v v2 : α) (h : dget (dset m k v) k2 = some v2) :
    (k2 = k ∧ v2 = v) ∨ dget m k2 = some v2 := by
  by_cases hk : k2 = k
  · subst hk
    rw [dget_dset_self] at h
    exact Or.inl ⟨rfl, (Option.some_injective _ h).symm⟩
  · rw [dget_dset_ne m k k2 v hk] at h
    exact Or.inr h

theorem parentF_dset_ne (m : List (Nat × Nat)) (k v y : Nat) (h : y ≠ k) :
    parentF (dset m k v) y = parentF m y := by
  simp [parentF, pyGet, dget_dset_ne m k y v h]

theorem parentF_dset_self (m : List (Nat × Nat)) (k v : Nat) (hv : 0 < v) :
    parentF (dset m k v) k = v := by
  simp [parentF, pyGet, dget_dset_self m k v, Nat.pos_iff_ne_zero.mp hv]

/-- Main correctness of `follow` under sufficient fuel: it returns the root
of `a`, preserves every root, only adds pointers from non-roots straight to
their root, and keeps the key set. -/
theorem followC_spec (f : Nat) : ∀ (m : List (Nat × Nat)) (a r n : Nat),
    n ≤ f → iterP m n a = r → IsRoot m r →
    (followC f m a).2 = r ∧
    (∀ x s, RootedAt m x s → RootedAt (followC f m a).1 x s) ∧
    (∀ k v, dget (followC f m a).1 k = some v →
      dget m k = some v ∨ (v = r ∧ RootedAt m k r ∧ ¬ IsRoot m k)) ∧
    dkeys (followC f m a).1 = dkeys m ∧
    (¬ IsRoot m a → dget (followC f m a).1 a = some r) := by
  induction f with
  | zero =>
      intro m a r n hn e hr
      have hn0 : n = 0 := Nat.le_zero.mp hn
      subst hn0
      rw [iterP_zero] at e
      subst e
      exact ⟨rfl, fun x s h => h, fun k v h => Or.inl h, rfl,
        fun hnr => absurd hr hnr⟩
  | succ f ih =>
      intro m a r n hn e hr
      have hra : RootedAt m a r := ⟨n, e, hr⟩
      rcases hpg : pyGet m a with _ | b
      · -- no representative: a is a root
        have haroot : IsRoot m a := by simp [IsRoot, parentF, hpg]
        have hr2 : r = a :=
          rootedAt_unique m a r a hra (rootedAt_of_isRoot m a haroot)
        have hres : followC (f + 1) m a = (m, a) := by
          simp only [followC, hpg]
        rw [hres, hr2]
        exact ⟨rfl, fun x s h => h, fun k v h => Or.inl h, rfl,
          fun hnr => absurd haroot hnr⟩
      · by_cases hab : a = b
        · -- self-loop: a is a root
          subst hab
          have haroot : IsRoot m a := by
            simp [IsRoot, parentF, hpg]
          have hr2 : r = a :=
            rootedAt_unique m a r a hra (rootedAt_of_isRoot m a haroot)
          have hres : followC (f + 1) m a = (m, a) := by
            simp [followC, hpg]
          rw [hres, hr2]
          exact ⟨rfl, fun x s h => h, fun k v h => Or.inl h, rfl,
            fun hnr => absurd haroot hnr⟩
        · -- real step a -> b, recurse on b
          have hpa : parentF m a = b := by simp [parentF, hpg]
          have hanr : ¬ IsRoot m a := by
            rw [IsRoot, hpa]
            exact fun hh => hab hh.symm
          have hn1 : ∃ n2, n = n2 + 1 := by
            rcases n with _ | n2
            · rw [iterP_zero] at e
              subst e
              exact absurd hr hanr
            · exact ⟨n2, rfl⟩
          obtain ⟨n2, rfl⟩ := hn1
          have e2 : iterP m n2 b = r := by
            rw [iterP_succ, hpa] at e
            exact e
          obtain ⟨ih1, ih2, ih3, ih4, ih5⟩ :=
            ih m b r n2 (Nat.lt_succ_iff.mp hn) e2 hr
          have hrpos : 0 < r := root_pos m a r hra hanr
          have hmem : a ∈ dkeys m := not_isRoot_mem_keys m a hanr
          have hmem2 : a ∈ dkeys (followC f m b).1 := by rw [ih4]; exact hmem
          have hresult : followC (f + 1) m a
              = (dset (followC f m b).1 a (followC f m b).2,
                  (followC f m b).2) := by
            simp only [followC, hpg, if_neg hab]
          rw [hresult, ih1]
          have hrner : r ≠ a := by
            intro hh
            subst hh
            exact hanr hr
          have hrootp1 : IsRoot (followC f m b).1 r := by
            obtain ⟨_, _, hh⟩ := ih2 r r (rootedAt_of_isRoot m r hr)
            exact hh
          have har2 : IsRoot (dset (followC f m b).1 a r) r := by
            rw [IsRoot, parentF_dset_ne _ _ _ _ hrner]
            exact hrootp1
      -- roots preserved through the final pointer update
          have hkeep : ∀ x s, RootedAt (followC f m b).1 x s →
              RootedAt (dset (followC f m b).1 a r) x s := by
            intro x s hxs
            have hreroute := rooted_reroute (followC f m b).1
              (dset (followC f m b).1 a r) [a] r
              (fun y hy => parentF_dset_ne _ _ _ _
                (by intro hh; exact hy (by rw [hh]; exact List.mem_singleton_self a)))
              (fun y hy => by
                rw [List.mem_singleton] at hy
                subst hy
                exact parentF_dset_self _ _ _ hrpos)
              har2 x s hxs
            rcases hreroute with ⟨⟨i, hi⟩, hnew⟩ | ⟨_, hold⟩
            · -- the chain met a, so its old root was r already
              rw [List.mem_singleton] at hi
              have : RootedAt (followC f m b).1 a s := by
                rw [← hi]
                exact rootedAt_iterP _ x s i hxs
              have hsr : s = r := by
                have hbr : RootedAt (followC f m b).1 a r :=
                  ih2 a r hra
                exact rootedAt_unique _ a s r this hbr
              rw [hsr]
              exact hnew
            · exact hold
          refine ⟨rfl, ?_, ?_, ?_, ?_⟩
          · intro x s hxs
            exact hkeep x s (ih2 x s hxs)
          · intro k v hkv
            rcases dget_dset_cases _ _ _ _ _ hkv with ⟨rfl, rfl⟩ | hold
            · exact Or.inr ⟨rfl, hra, hanr⟩
            · rcases ih3 _ _ hold with h | h
              · exact Or.inl h
              · exact Or.inr h
          · rw [dkeys_dset_of_mem _ _ _ hmem2, ih4]
          · intro _
            exact dget_dset_self _ _ _


theorem length_eq_of_dkeys_eq {α : Type} (m m2 : List (Nat × α))
    (h : dkeys m2 = dkeys m) : m2.length = m.length := by
  have h1 : (dkeys m2).length = (dkeys m).length := by rw [h]
  simpa [dkeys] using h1

/-- Roots are preserved in both directions when every old root survives and
every node is rooted in the old map. -/
theorem roots_iff_of_preserved (m m2 : List (Nat × Nat))
    (hall : RootedAll m)
    (hp : ∀ x s, RootedAt m x s → RootedAt m2 x s) :
    ∀ x s, RootedAt m2 x s ↔ RootedAt m x s := by
  intro x s
  constructor
  · intro h2
    obtain ⟨s0, hs0⟩ := hall x
    have := hp x s0 hs0
    rw [rootedAt_unique m2 x s s0 h2 this]
    exact hs0
  · exact hp x s

/-- The union-find invariant maintained by `equiv`. -/
def UFInv (m : List (Nat × Nat)) : Prop :=
  RootedAll m ∧ ValPos m ∧ ValKey m ∧ (dkeys m).Nodup

/-- `follow` with fuel `fuelOf m` run under the invariant: returns the root,
changes no root, keeps the key set, and keeps the invariant. -/
theorem followC_full (m : List (Nat × Nat)) (a r : Nat)
    (hinv : UFInv m) (hra : RootedAt m a r) :
    (followC (fuelOf m) m a).2 = r ∧
    (∀ x s, RootedAt (followC (fuelOf m) m a).1 x s ↔ RootedAt m x s) ∧
    dkeys (followC (fuelOf m) m a).1 = dkeys m ∧
    UFInv (followC (fuelOf m) m a).1 ∧
    (∀ k v, dget (followC (fuelOf m) m a).1 k = some v →
      dget m k = some v ∨ (v = r ∧ RootedAt m k r ∧ ¬ IsRoot m k)) ∧
    (¬ IsRoot m a → dget (followC (fuelOf m) m a).1 a = some r) := by
  obtain ⟨hall, hvp, hvk, hnd⟩ := hinv
  obtain ⟨n, hn, e, hr⟩ := chain_bound m a r hra
  obtain ⟨h1, h2, h3, h4, h5⟩ :=
    followC_spec (fuelOf m) m a r n (Nat.le_trans hn (Nat.le_succ _)) e hr
  have hiff := roots_iff_of_preserved m (followC (fuelOf m) m a).1 hall h2
  refine ⟨h1, hiff, h4, ⟨?_, ?_, ?_, ?_⟩, h3, h5⟩
  · intro x
    obtain ⟨s, hs⟩ := hall x
    exact ⟨s, h2 x s hs⟩
  · intro k v hkv
    rcases h3 k v hkv with h | ⟨rfl, hk, hnr⟩
    · exact hvp k v h
    · exact root_pos m k v hk hnr
  · intro k v hkv
    rcases h3 k v hkv with h | ⟨rfl, hk, hnr⟩
    · rw [h4]
      exact hvk k v h
    · rw [h4]
      exact root_mem_keys m hvk k v hk (not_isRoot_mem_keys m k hnr)
  · rw [h4]
    exact hnd


/-- Effect of the three pointer writes at the end of `equiv`:
`representatives[a] = ar; representatives[b] = ar; representatives[br] = ar`.
Classes of `a` and `b` merge into the class rooted at `ar`; every other
class is untouched. -/
theorem triple_dset_spec (m2 : List (Nat × Nat)) (a b ra rb : Nat)
    (hinv2 : UFInv m2)
    (hra : RootedAt m2 a ra) (hrb : RootedAt m2 b rb)
    (hrapos : 0 < ra) :
    UFInv (dset (dset (dset m2 a ra) b ra) rb ra) ∧
    (∀ x s, RootedAt m2 x s →
      RootedAt (dset (dset (dset m2 a ra) b ra) rb ra) x
        (if s = ra ∨ s = rb then ra else s)) ∧
    (∀ x, x ∈ dkeys (dset (dset (dset m2 a ra) b ra) rb ra) ↔
      x ∈ dkeys m2 ∨ x = a ∨ x = b) := by
  obtain ⟨hall2, hvp2, hvk2, hnd2⟩ := hinv2
  have hraroot2 : IsRoot m2 ra := hra.choose_spec.2
  have hrbroot2 : IsRoot m2 rb := hrb.choose_spec.2
  have hga : dget (dset (dset (dset m2 a ra) b ra) rb ra) a = some ra := by
    by_cases h1 : a = rb
    · rw [h1, dget_dset_self]
    · rw [dget_dset_ne _ _ _ _ h1]
      by_cases h2 : a = b
      · rw [h2, dget_dset_self]
      · rw [dget_dset_ne _ _ _ _ h2, dget_dset_self]
  have hgb : dget (dset (dset (dset m2 a ra) b ra) rb ra) b = some ra := by
    by_cases h1 : b = rb
    · rw [h1, dget_dset_self]
    · rw [dget_dset_ne _ _ _ _ h1, dget_dset_self]
  have hgrb : dget (dset (dset (dset m2 a ra) b ra) rb ra) rb = some ra :=
    dget_dset_self _ _ _
  have hparS : ∀ y, y ∈ ([a, b, rb] : List Nat) →
      parentF (dset (dset (dset m2 a ra) b ra) rb ra) y = ra := by
    intro y hy
    have hy2 : y = a ∨ y = b ∨ y = rb := by simpa using hy
    have hgy : dget (dset (dset (dset m2 a ra) b ra) rb ra) y = some ra := by
      rcases hy2 with rfl | rfl | rfl
      · exact hga
      · exact hgb
      · exact hgrb
    simp [parentF, pyGet, hgy, Nat.pos_iff_ne_zero.mp hrapos]
  have hagree : ∀ y, y ∉ ([a, b, rb] : List Nat) →
      parentF (dset (dset (dset m2 a ra) b ra) rb ra) y = parentF m2 y := by
    intro y hy
    have hya : y ≠ a := by intro hh; exact hy (by rw [hh]; simp)
    have hyb : y ≠ b := by intro hh; exact hy (by rw [hh]; simp)
    have hyrb : y ≠ rb := by intro hh; exact hy (by rw [hh]; simp)
    rw [parentF_dset_ne _ _ _ _ hyrb, parentF_dset_ne _ _ _ _ hyb,
      parentF_dset_ne _ _ _ _ hya]
  have hraroot4 : IsRoot (dset (dset (dset m2 a ra) b ra) rb ra) ra := by
    by_cases hmem : ra ∈ ([a, b, rb] : List Nat)
    · exact hparS ra hmem
    · rw [IsRoot, hagree ra hmem]
      exact hraroot2
  have hphi : ∀ x s, RootedAt m2 x s →
      RootedAt (dset (dset (dset m2 a ra) b ra) rb ra) x
        (if s = ra ∨ s = rb then ra else s) := by
    intro x s hxs
    rcases rooted_reroute m2 (dset (dset (dset m2 a ra) b ra) rb ra)
        [a, b, rb] ra hagree hparS hraroot4 x s hxs with
      ⟨⟨i, hi⟩, hnew⟩ | ⟨hnh, hold⟩
    · -- the chain met {a, b, br}; its old root is ra or rb
      have hys : RootedAt m2 (iterP m2 i x) s := rootedAt_iterP m2 x s i hxs
      have hi2 : iterP m2 i x = a ∨ iterP m2 i x = b ∨ iterP m2 i x = rb := by
        simpa using hi
      have hcond : s = ra ∨ s = rb := by
        rcases hi2 with he | he | he
        · rw [he] at hys
          exact Or.inl (rootedAt_unique m2 a s ra hys hra)
        · rw [he] at hys
          exact Or.inr (rootedAt_unique m2 b s rb hys hrb)
        · rw [he] at hys
          exact Or.inr
            (rootedAt_unique m2 rb s rb hys (rootedAt_of_isRoot m2 rb hrbroot2))
      rw [if_pos hcond]
      exact hnew
    · by_cases hcond : s = ra ∨ s = rb
      · rcases hcond with h | h
        · rw [if_pos (Or.inl h)]
          exact h ▸ hold
        · -- the chain ends at rb, so it met the updated set: contradiction
          exfalso
          obtain ⟨n, e, _⟩ := hxs
          exact hnh ⟨n, by rw [e, h]; simp⟩
      · rw [if_neg hcond]
        exact hold
  have hkeys : ∀ x, x ∈ dkeys (dset (dset (dset m2 a ra) b ra) rb ra) ↔
      x ∈ dkeys m2 ∨ x = a ∨ x = b := by
    intro x
    rw [mem_dkeys_dset, mem_dkeys_dset, mem_dkeys_dset]
    constructor
    · intro h
      rcases h with ((h | h) | h) | h
      · exact Or.inl h
      · exact Or.inr (Or.inl h)
      · exact Or.inr (Or.inr h)
      · -- x = rb: the root of b is b itself or an existing key
        by_cases hbm : b ∈ dkeys m2
        · rw [h]
          exact Or.inl (root_mem_keys m2 hvk2 b rb hrb hbm)
        · have hbr : IsRoot m2 b := by
            rw [IsRoot, parentF_of_not_mem m2 b hbm]
          have hrbb : rb = b :=
            rootedAt_unique m2 b rb b hrb (rootedAt_of_isRoot m2 b hbr)
          exact Or.inr (Or.inr (h.trans hrbb))
    · intro h
      rcases h with h | h | h
      · exact Or.inl (Or.inl (Or.inl h))
      · exact Or.inl (Or.inl (Or.inr h))
      · exact Or.inl (Or.inr h)
  have hrakey : ra ∈ dkeys (dset (dset (dset m2 a ra) b ra) rb ra) := by
    rw [hkeys]
    by_cases ham : a ∈ dkeys m2
    · exact Or.inl (root_mem_keys m2 hvk2 a ra hra ham)
    · have : IsRoot m2 a := by
        rw [IsRoot, parentF_of_not_mem m2 a ham]
      have : ra = a :=
        rootedAt_unique m2 a ra a hra (rootedAt_of_isRoot m2 a this)
      exact Or.inr (Or.inl this)
  refine ⟨⟨?_, ?_, ?_, ?_⟩, hphi, hkeys⟩
  · intro x
    obtain ⟨s, hs⟩ := hall2 x
    exact ⟨_, hphi x s hs⟩
  · intro k v h
    rcases dget_dset_cases _ _ _ _ _ h with ⟨rfl, rfl⟩ | h
    · exact hrapos
    · rcases dget_dset_cases _ _ _ _ _ h with ⟨rfl, rfl⟩ | h
      · exact hrapos
      · rcases dget_dset_cases _ _ _ _ _ h with ⟨rfl, rfl⟩ | h
        · exact hrapos
        · exact hvp2 k v h
  · intro k v h
    rcases dget_dset_cases _ _ _ _ _ h with ⟨rfl, rfl⟩ | h
    · exact hrakey
    · rcases dget_dset_cases _ _ _ _ _ h with ⟨rfl, rfl⟩ | h
      · exact hrakey
      · rcases dget_dset_cases _ _ _ _ _ h with ⟨rfl, rfl⟩ | h
        · exact hrakey
        · rw [hkeys v]
          exact Or.inl (hvk2 k v h)
  · exact nodup_dkeys_dset _ _ _ (nodup_dkeys_dset _ _ _
      (nodup_dkeys_dset _ _ _ hnd2))


theorem equivStep_unfold (m : List (Nat × Nat)) (a b : Nat) :
    equivStep m a b =
      dset (dset (dset
        (followC (fuelOf (followC (fuelOf m) m a).1)
          (followC (fuelOf m) m a).1 b).1 a (followC (fuelOf m) m a).2)
        b (followC (fuelOf m) m a).2)
        (followC (fuelOf (followC (fuelOf m) m a).1)
          (followC (fuelOf m) m a).1 b).2 (followC (fuelOf m) m a).2 := rfl

/-- One `equiv(a, b)` call: the classes of `a` and `b` merge (their roots
both become `a`'s root), all other classes are unchanged, the keys gain
exactly `a` and `b`, and the invariant is preserved. -/
theorem equivStep_spec (m : List (Nat × Nat)) (a b ra rb : Nat)
    (hinv : UFInv m) (ha : 0 < a)
    (hra : RootedAt m a ra) (hrb : RootedAt m b rb) :
    UFInv (equivStep m a b) ∧
    (∀ x s, RootedAt m x s →
      RootedAt (equivStep m a b) x (if s = ra ∨ s = rb then ra else s)) ∧
    (∀ x, x ∈ dkeys (equivStep m a b) ↔ x ∈ dkeys m ∨ x = a ∨ x = b) := by
  obtain ⟨e1, iff1, keys1, inv1, edges1, entry1⟩ := followC_full m a ra hinv hra
  obtain ⟨e2, iff2, keys2, inv2, edges2, entry2⟩ :=
    followC_full (followC (fuelOf m) m a).1 b rb inv1 ((iff1 b rb).mpr hrb)
  have hra2 : RootedAt (followC (fuelOf (followC (fuelOf m) m a).1)
      (followC (fuelOf m) m a).1 b).1 a ra :=
    (iff2 a ra).mpr ((iff1 a ra).mpr hra)
  have hrb2 : RootedAt (followC (fuelOf (followC (fuelOf m) m a).1)
      (followC (fuelOf m) m a).1 b).1 b rb :=
    (iff2 b rb).mpr ((iff1 b rb).mpr hrb)
  have hrapos : 0 < ra := root_pos_of_pos m a ra hra ha
  obtain ⟨inv4, phi4, keys4⟩ :=
    triple_dset_spec _ a b ra rb inv2 hra2 hrb2 hrapos
  rw [keys2, keys1] at keys4
  rw [equivStep_unfold, e1, e2]
  refine ⟨inv4, ?_, keys4⟩
  intro x s hxs
  exact phi4 x s ((iff2 x s).mpr ((iff1 x s).mpr hxs))


/-! ### Connectivity through declared pairs (the specification side) -/

/-- One declared pair, in either direction. -/
def PairRel (ps : List (Nat × Nat)) (x y : Nat) : Prop :=
  (x, y) ∈ ps ∨ (y, x) ∈ ps

/-- `x` and `y` are connected by a chain of declared pairs. -/
def Conn (ps : List (Nat × Nat)) (x y : Nat) : Prop :=
  Relation.ReflTransGen (PairRel ps) x y

/-- `x` occurs in some declared pair. -/
def Mentioned (ps : List (Nat × Nat)) (x : Nat) : Prop :=
  ∃ p ∈ ps, x = p.1 ∨ x = p.2

theorem pairRel_symm (ps : List (Nat × Nat)) :
    Symmetric (PairRel ps) := by
  intro x y h
  rcases h with h | h
  · exact Or.inr h
  · exact Or.inl h

theorem conn_refl (ps : List (Nat × Nat)) (x : Nat) : Conn ps x x :=
  Relation.ReflTransGen.refl

theorem conn_symm (ps : List (Nat × Nat)) (x y : Nat) (h : Conn ps x y) :
    Conn ps y x :=
  Relation.ReflTransGen.symmetric (pairRel_symm ps) h

theorem conn_trans (ps : List (Nat × Nat)) (x y z : Nat)
    (h1 : Conn ps x y) (h2 : Conn ps y z) : Conn ps x z :=
  Relation.ReflTransGen.trans h1 h2

theorem conn_single (ps : List (Nat × Nat)) (x y : Nat)
    (h : PairRel ps x y) : Conn ps x y :=
  Relation.ReflTransGen.single h

theorem conn_mono_append (ps : List (Nat × Nat)) (p : Nat × Nat) (x y : Nat)
    (h : Conn ps x y) : Conn (ps ++ [p]) x y := by
  refine Relation.ReflTransGen.mono ?_ h
  intro u v huv
  rcases huv with huv | huv
  · exact Or.inl (List.mem_append_left _ huv)
  · exact Or.inr (List.mem_append_left _ huv)

theorem mentioned_append (ps : List (Nat × Nat)) (a b x : Nat) :
    Mentioned (ps ++ [(a, b)]) x ↔ Mentioned ps x ∨ x = a ∨ x = b := by
  constructor
  · intro h
    obtain ⟨p, hp, hx⟩ := h
    rcases List.mem_append.mp hp with hp | hp
    · exact Or.inl ⟨p, hp, hx⟩
    · rw [List.mem_singleton] at hp
      subst hp
      rcases hx with hx | hx
      · exact Or.inr (Or.inl hx)
      · exact Or.inr (Or.inr hx)
  · intro h
    rcases h with ⟨p, hp, hx⟩ | hx | hx
    · exact ⟨p, List.mem_append_left _ hp, hx⟩
    · exact ⟨(a, b), List.mem_append_right _ (List.mem_singleton_self _),
        Or.inl hx⟩
    · exact ⟨(a, b), List.mem_append_right _ (List.mem_singleton_self _),
        Or.inr hx⟩

theorem mentioned_of_pairRel_left (ps : List (Nat × Nat)) (x y : Nat)
    (h : PairRel ps x y) : Mentioned ps x := by
  rcases h with h | h
  · exact ⟨(x, y), h, Or.inl rfl⟩
  · exact ⟨(y, x), h, Or.inr rfl⟩

theorem conn_eq_of_unmentioned (ps : List (Nat × Nat)) (x y : Nat)
    (hm : ¬ Mentioned ps x) (h : Conn ps x y) : x = y := by
  rcases Relation.ReflTransGen.cases_head h with h | ⟨z, hz, _⟩
  · exact h
  · exact absurd (mentioned_of_pairRel_left ps x z hz) hm

theorem conn_mentioned (ps : List (Nat × Nat)) (x y : Nat)
    (h : Conn ps x y) (hm : Mentioned ps x) : Mentioned ps y := by
  induction h with
  | refl => exact hm
  | tail h1 h2 ih =>
      exact mentioned_of_pairRel_left ps _ _ (pairRel_symm ps h2)

/-- Extending the declared pairs by `(a, b)` extends connectivity in
exactly one way: through the new edge. -/
theorem conn_append_iff (ps : List (Nat × Nat)) (a b x y : Nat) :
    Conn (ps ++ [(a, b)]) x y ↔
      Conn ps x y ∨ (Conn ps x a ∧ Conn ps b y) ∨
        (Conn ps x b ∧ Conn ps a y) := by
  constructor
  · intro h
    induction h with
    | refl => exact Or.inl (conn_refl ps x)
    | tail h1 h2 ih =>
        rename_i u v
        have hstep : PairRel ps u v ∨ (u = a ∧ v = b) ∨ (u = b ∧ v = a) := by
          rcases h2 with h2 | h2
          · rcases List.mem_append.mp h2 with h2 | h2
            · exact Or.inl (Or.inl h2)
            · rw [List.mem_singleton] at h2
              exact Or.inr (Or.inl ⟨congrArg Prod.fst h2, congrArg Prod.snd h2⟩)
          · rcases List.mem_append.mp h2 with h2 | h2
            · exact Or.inl (Or.inr h2)
            · rw [List.mem_singleton] at h2
              exact Or.inr (Or.inr ⟨congrArg Prod.snd h2, congrArg Prod.fst h2⟩)
        rcases hstep with hs | ⟨rfl, rfl⟩ | ⟨rfl, rfl⟩
        · rcases ih with ih | ⟨ih1, ih2⟩ | ⟨ih1, ih2⟩
          · exact Or.inl (conn_trans ps _ _ _ ih (conn_single ps _ _ hs))
          · exact Or.inr (Or.inl ⟨ih1, conn_trans ps _ _ _ ih2
              (conn_single ps _ _ hs)⟩)
          · exact Or.inr (Or.inr ⟨ih1, conn_trans ps _ _ _ ih2
              (conn_single ps _ _ hs)⟩)
        · rcases ih with ih | ⟨ih1, ih2⟩ | ⟨ih1, ih2⟩
          · exact Or.inr (Or.inl ⟨ih, conn_refl ps _⟩)
          · exact Or.inr (Or.inl ⟨ih1, conn_refl ps _⟩)
          · exact Or.inl ih1
        · rcases ih with ih | ⟨ih1, ih2⟩ | ⟨ih1, ih2⟩
          · exact Or.inr (Or.inr ⟨ih, conn_refl ps _⟩)
          · exact Or.inl ih1
          · exact Or.inr (Or.inr ⟨ih1, conn_refl ps _⟩)
  · intro h
    have hab : Conn (ps ++ [(a, b)]) a b :=
      conn_single _ a b (Or.inl (List.mem_append_right _
        (List.mem_singleton_self _)))
    rcases h with h | ⟨h1, h2⟩ | ⟨h1, h2⟩
    · exact conn_mono_append ps (a, b) x y h
    · exact conn_trans _ x a y (conn_mono_append ps (a, b) x a h1)
        (conn_trans _ a b y hab (conn_mono_append ps (a, b) b y h2))
    · exact conn_trans _ x b y (conn_mono_append ps (a, b) x b h1)
        (conn_trans _ b a y (conn_symm _ a b hab)
          (conn_mono_append ps (a, b) a y h2))

/-! ### The `equiv` run invariant -/

/-- Invariant of a `runEquiv` state: well-formed union-find, keys are the
mentioned addresses, and two addresses share a root iff they are connected
by declared pairs. -/
def EGInv (ps : List (Nat × Nat)) (m : List (Nat × Nat)) : Prop :=
  UFInv m ∧
  (∀ x, x ∈ dkeys m ↔ Mentioned ps x) ∧
  (∀ x y, SameRoot m x y ↔ Conn ps x y)

theorem rootedAt_nil (x r : Nat) : RootedAt [] x r ↔ r = x := by
  constructor
  · intro ⟨n, e, hr⟩
    rw [← e]
    have : ∀ k, iterP [] k x = x := by
      intro k
      induction k with
      | zero => rfl
      | succ k ih => rw [iterP_succ2, ih]; simp [parentF, pyGet, dget]
    rw [this n]
  · intro h
    subst h
    exact ⟨0, rfl, by simp [IsRoot, parentF, pyGet, dget]⟩

theorem egInv_nil : EGInv [] [] := by
  refine ⟨⟨?_, ?_, ?_, ?_⟩, ?_, ?_⟩
  · intro x
    exact ⟨x, (rootedAt_nil x x).mpr rfl⟩
  · intro k v h
    simp [dget] at h
  · intro k v h
    simp [dget] at h
  · simp [dkeys]
  · intro x
    simp [dkeys, Mentioned]
  · intro x y
    constructor
    · intro ⟨r, hx, hy⟩
      rw [rootedAt_nil] at hx hy
      rw [← hx, hy]
      exact conn_refl [] y
    · intro h
      have : x = y := by
        refine conn_eq_of_unmentioned [] x y ?_ h
        simp [Mentioned]
      subst this
      exact ⟨x, (rootedAt_nil x x).mpr rfl, (rootedAt_nil x x).mpr rfl⟩

/-- SameRoot is determined by the (unique) roots. -/
theorem sameRoot_iff_roots (m : List (Nat × Nat)) (x y sx sy : Nat)
    (hx : RootedAt m x sx) (hy : RootedAt m y sy) :
    SameRoot m x y ↔ sx = sy := by
  constructor
  · intro ⟨r, hxr, hyr⟩
    rw [rootedAt_unique m x sx r hx hxr, rootedAt_unique m y sy r hy hyr]
  · intro h
    exact ⟨sx, hx, h ▸ hy⟩

/-- The invariant survives one `equiv(a, b)` call. -/
theorem egInv_step (ps : List (Nat × Nat)) (m : List (Nat × Nat))
    (a b : Nat) (hinv : EGInv ps m) (ha : 0 < a) (hb : 0 < b) :
    EGInv (ps ++ [(a, b)]) (equivStep m a b) := by
  obtain ⟨hufi, hkeys, hconn⟩ := hinv
  obtain ⟨ra, hra⟩ := hufi.1 a
  obtain ⟨rb, hrb⟩ := hufi.1 b
  obtain ⟨inv4, phi4, keys4⟩ := equivStep_spec m a b ra rb hufi ha hra hrb
  refine ⟨inv4, ?_, ?_⟩
  · intro x
    rw [keys4 x, mentioned_append, hkeys x]
  · intro x y
    obtain ⟨sx, hsx⟩ := hufi.1 x
    obtain ⟨sy, hsy⟩ := hufi.1 y
    have hx4 := phi4 x sx hsx
    have hy4 := phi4 y sy hsy
    rw [sameRoot_iff_roots (equivStep m a b) x y _ _ hx4 hy4]
    rw [conn_append_iff]
    have hxa : Conn ps x a ↔ sx = ra := by
      rw [← hconn x a]
      exact sameRoot_iff_roots m x a sx ra hsx hra
    have hxb : Conn ps x b ↔ sx = rb := by
      rw [← hconn x b]
      exact sameRoot_iff_roots m x b sx rb hsx hrb
    have hya : Conn ps y a ↔ sy = ra := by
      rw [← hconn y a]
      exact sameRoot_iff_roots m y a sy ra hsy hra
    have hyb : Conn ps y b ↔ sy = rb := by
      rw [← hconn y b]
      exact sameRoot_iff_roots m y b sy rb hsy hrb
    have hxy : Conn ps x y ↔ sx = sy := by
      rw [← hconn x y]
      exact sameRoot_iff_roots m x y sx sy hsx hsy
    have hay : Conn ps a y ↔ sy = ra := by
      constructor
      · intro h
        exact (hya).mp (conn_symm ps a y h)
      · intro h
        exact conn_symm ps y a ((hya).mpr h)
    have hby : Conn ps b y ↔ sy = rb := by
      constructor
      · intro h
        exact (hyb).mp (conn_symm ps b y h)
      · intro h
        exact conn_symm ps y b ((hyb).mpr h)
    rw [hxa, hxb, hxy, hay, hby]
    by_cases hcx : sx = ra ∨ sx = rb <;> by_cases hcy : sy = ra ∨ sy = rb
    · rw [if_pos hcx, if_pos hcy]
      constructor
      · intro _
        rcases hcx with hcx | hcx <;> rcases hcy with hcy | hcy
        · exact Or.inl (hcx.trans hcy.symm)
        · exact Or.inr (Or.inl ⟨hcx, hcy⟩)
        · exact Or.inr (Or.inr ⟨hcx, hcy⟩)
        · exact Or.inl (hcx.trans hcy.symm)
      · intro _
        rfl
    · rw [if_pos hcx, if_neg hcy]
      constructor
      · intro h
        exact absurd (Or.inl h.symm) hcy
      · intro h
        rcases h with h | ⟨h1, h2⟩ | ⟨h1, h2⟩
        · rcases hcx with hcx | hcx
          · exact absurd (Or.inl (h ▸ hcx : sy = ra)) hcy
          · exact absurd (Or.inr (h ▸ hcx : sy = rb)) hcy
        · exact absurd (Or.inr h2) hcy
        · exact absurd (Or.inl h2) hcy
    · rw [if_neg hcx, if_pos hcy]
      constructor
      · intro h
        exact absurd (Or.inl h) hcx
      · intro h
        rcases h with h | ⟨h1, h2⟩ | ⟨h1, h2⟩
        · rcases hcy with hcy | hcy
          · exact absurd (Or.inl (h.symm ▸ hcy : sx = ra)) hcx
          · exact absurd (Or.inr (h.symm ▸ hcy : sx = rb)) hcx
        · exact absurd (Or.inl h1) hcx
        · exact absurd (Or.inr h1) hcx
    · rw [if_neg hcx, if_neg hcy]
      constructor
      · intro h
        exact Or.inl h
      · intro h
        rcases h with h | ⟨h1, h2⟩ | ⟨h1, h2⟩
        · exact h
        · exact absurd (Or.inl h1) hcx
        · exact absurd (Or.inr h1) hcx

/-- The invariant after an arbitrary run of `equiv` calls. -/
theorem runEquiv_inv (ps : List (Nat × Nat))
    (hpos : ∀ p ∈ ps, 0 < p.1 ∧ 0 < p.2) : EGInv ps (runEquiv ps) := by
  induction ps using List.reverseRecOn with
  | nil => exact egInv_nil
  | append_singleton ps p ih =>
      have h1 : runEquiv (ps ++ [p]) = equivStep (runEquiv ps) p.1 p.2 := by
        simp [runEquiv, List.foldl_append]
      rw [h1]
      have hp := hpos p (List.mem_append_right _ (List.mem_singleton_self _))
      have hps : ∀ q ∈ ps, 0 < q.1 ∧ 0 < q.2 := fun q hq =>
        hpos q (List.mem_append_left _ hq)
      have := egInv_step ps (runEquiv ps) p.1 p.2 (ih hps) hp.1 hp.2
      simpa using this


/-! ### `groups()`: compression pass and bucketing -/

theorem isRoot_dget_self (mc : List (Nat × Nat)) (hvp : ValPos mc) (k : Nat)
    (hroot : IsRoot mc k) (hmem : k ∈ dkeys mc) : dget mc k = some k := by
  have hsome : (dget mc k).isSome = true := (dget_isSome_iff_mem mc k).mpr hmem
  rcases h2 : dget mc k with _ | w
  · rw [h2] at hsome
    simp at hsome
  · have hw : 0 < w := hvp k w h2
    have hpf : parentF mc k = w := parentF_eq_of_dget mc k w h2 hw
    rw [IsRoot, hpf] at hroot
    rw [hroot]

/-- A root-pointing entry survives a `follow` call unchanged. -/
theorem followC_stable (mc : List (Nat × Nat)) (k2 r2 : Nat)
    (hinvc : UFInv mc) (hr2 : RootedAt mc k2 r2)
    (k v : Nat) (hkv : dget mc k = some v) (hrv : RootedAt mc k v) :
    dget (followC (fuelOf mc) mc k2).1 k = some v := by
  obtain ⟨e1, iff1, keys1, inv1, edges1, entry1⟩ :=
    followC_full mc k2 r2 hinvc hr2
  have hmem : k ∈ dkeys mc := (dget_isSome_iff_mem mc k).mp (by simp [hkv])
  have hmem2 : k ∈ dkeys (followC (fuelOf mc) mc k2).1 := by
    rw [keys1]
    exact hmem
  have hsome : (dget (followC (fuelOf mc) mc k2).1 k).isSome = true :=
    (dget_isSome_iff_mem _ _).mpr hmem2
  rcases hg : dget (followC (fuelOf mc) mc k2).1 k with _ | v2
  · rw [hg] at hsome
    simp at hsome
  · rcases edges1 k v2 hg with h | ⟨he, hk, hnr⟩
    · rw [h] at hkv
      exact hkv
    · rw [he, rootedAt_unique mc k r2 v hk hrv]

/-- After `follow(k2)`, the entry of `k2` points directly at its root. -/
theorem followC_entry_root (mc : List (Nat × Nat)) (hinvc : UFInv mc)
    (k2 r2 : Nat) (hr2 : RootedAt mc k2 r2) (hkm : k2 ∈ dkeys mc) :
    dget (followC (fuelOf mc) mc k2).1 k2 = some r2 := by
  obtain ⟨e1, iff1, keys1, inv1, edges1, entry1⟩ :=
    followC_full mc k2 r2 hinvc hr2
  by_cases hroot : IsRoot mc k2
  · have hkk : dget mc k2 = some k2 :=
      isRoot_dget_self mc hinvc.2.1 k2 hroot hkm
    have hk2r : r2 = k2 :=
      rootedAt_unique mc k2 r2 k2 hr2 (rootedAt_of_isRoot mc k2 hroot)
    rw [hk2r]
    exact followC_stable mc k2 r2 hinvc hr2 k2 k2 hkk
      (rootedAt_of_isRoot mc k2 hroot)
  · exact entry1 hroot

/-- The compression loop of `groups()`, over an explicit list of keys. -/
def compressFold (ks : List Nat) (mc : List (Nat × Nat)) :
    List (Nat × Nat) :=
  ks.foldl (fun acc k => (followC (fuelOf acc) acc k).1) mc

theorem compressAll_eq (m : List (Nat × Nat)) :
    compressAll m = compressFold (dkeys m) m := rfl

theorem compressFold_cons (k : Nat) (ks : List Nat)
    (mc : List (Nat × Nat)) :
    compressFold (k :: ks) mc
      = compressFold ks (followC (fuelOf mc) mc k).1 := rfl

/-- Invariants and effect of the compression loop: roots and keys are
unchanged, root-pointing entries survive, and every processed key ends up
pointing directly at its root. -/
theorem compress_go (m : List (Nat × Nat)) :
    ∀ (ks : List Nat) (mc : List (Nat × Nat)),
      UFInv mc →
      (∀ x s, RootedAt mc x s ↔ RootedAt m x s) →
      dkeys mc = dkeys m →
      (UFInv (compressFold ks mc) ∧
        (∀ x s, RootedAt (compressFold ks mc) x s ↔ RootedAt m x s) ∧
        dkeys (compressFold ks mc) = dkeys m) ∧
      (∀ k v, dget mc k = some v → RootedAt mc k v →
        dget (compressFold ks mc) k = some v) ∧
      (∀ k, k ∈ ks → k ∈ dkeys m → ∀ r, RootedAt m k r →
        dget (compressFold ks mc) k = some r) := by
  intro ks
  induction ks with
  | nil =>
      intro mc hinvc hiffc hkeysc
      refine ⟨⟨hinvc, hiffc, hkeysc⟩, ?_, ?_⟩
      · intro k v h _
        exact h
      · intro k hk
        cases hk
  | cons k2 ks ih =>
      intro mc hinvc hiffc hkeysc
      obtain ⟨r2, hr2⟩ := hinvc.1 k2
      obtain ⟨e1, iff1, keys1, inv1, edges1, entry1⟩ :=
        followC_full mc k2 r2 hinvc hr2
      have hiffc2 : ∀ x s,
          RootedAt (followC (fuelOf mc) mc k2).1 x s ↔ RootedAt m x s := by
        intro x s
        rw [iff1, hiffc]
      have hkeysc2 : dkeys (followC (fuelOf mc) mc k2).1 = dkeys m := by
        rw [keys1, hkeysc]
      obtain ⟨ihA, ihB, ihC⟩ :=
        ih (followC (fuelOf mc) mc k2).1 inv1 hiffc2 hkeysc2
      rw [compressFold_cons]
      refine ⟨ihA, ?_, ?_⟩
      · intro k v hkv hrv
        have h1 : dget (followC (fuelOf mc) mc k2).1 k = some v :=
          followC_stable mc k2 r2 hinvc hr2 k v hkv hrv
        have h2 : RootedAt (followC (fuelOf mc) mc k2).1 k v :=
          (iff1 k v).mpr hrv
        exact ihB k v h1 h2
      · intro k hk hkm r hr
        rcases List.mem_cons.mp hk with he | hk
        · -- the head key: after its follow call it points at its root
          have hrmc : RootedAt mc k r := (hiffc k r).mpr hr
          have hkmc : k2 ∈ dkeys mc := by
            rw [hkeysc, ← he]
            exact hkm
          have hr2r : r2 = r := by
            refine rootedAt_unique mc k2 r2 r hr2 ?_
            rw [← he]
            exact hrmc
          have h1 : dget (followC (fuelOf mc) mc k2).1 k = some r := by
            rw [he, ← hr2r]
            exact followC_entry_root mc hinvc k2 r2 hr2 hkmc
          exact ihB k r h1 ((iff1 k r).mpr hrmc)
        · exact ihC k hk hkm r hr

/-- After the compression loop of `groups()`, the dict maps every key to
exactly its root. -/
theorem compressAll_spec (m : List (Nat × Nat)) (hinv : UFInv m) :
    (∀ k, k ∈ dkeys m → ∀ r, RootedAt m k r →
      dget (compressAll m) k = some r) ∧
    (∀ k v, dget (compressAll m) k = some v →
      k ∈ dkeys m ∧ RootedAt m k v) ∧
    dkeys (compressAll m) = dkeys m ∧
    (dkeys (compressAll m)).Nodup := by
  obtain ⟨⟨invF, iffF, keysF⟩, stabF, procF⟩ :=
    compress_go m (dkeys m) m hinv (fun x s => Iff.rfl) rfl
  rw [← compressAll_eq] at invF iffF keysF stabF procF
  refine ⟨?_, ?_, keysF, ?_⟩
  · intro k hk r hr
    exact procF k hk hk r hr
  · intro k v hkv
    have hk : k ∈ dkeys m := by
      rw [← keysF]
      exact (dget_isSome_iff_mem _ _).mp (by simp [hkv])
    obtain ⟨r, hr⟩ := hinv.1 k
    have := procF k hk hk r hr
    rw [this] at hkv
    have : v = r := by
      injection hkv.symm
    exact ⟨hk, this ▸ hr⟩
  · rw [keysF]
    exact hinv.2.2.2

/-- On a dict with distinct keys, list membership of a pair is `dget`. -/
theorem mem_iff_dget {α : Type} (mc : List (Nat × α)) (k : Nat) (v : α)
    (hnd : (dkeys mc).Nodup) : (k, v) ∈ mc ↔ dget mc k = some v := by
  induction mc with
  | nil => simp [dget]
  | cons hd tl ih =>
      obtain ⟨k2, v2⟩ := hd
      rw [dkeys_cons, List.nodup_cons] at hnd
      by_cases h : k2 = k
      · subst h
        rw [List.mem_cons,
          show dget ((k2, v2) :: tl) k2 = some v2 from by simp [dget]]
        constructor
        · intro hh
          rcases hh with hh | hh
          · have hv : v = v2 := ((Prod.mk.injEq _ _ _ _).mp hh).2
            rw [hv]
          · have : k2 ∈ dkeys tl := List.mem_map_of_mem Prod.fst hh
            exact absurd this hnd.1
        · intro hh
          have hv : v2 = v := Option.some.inj hh
          exact Or.inl (by rw [← hv])
      · rw [List.mem_cons,
          show dget ((k2, v2) :: tl) k = dget tl k from by simp [dget, h],
          ← ih hnd.2]
        constructor
        · intro hh
          rcases hh with hh | hh
          · exact absurd ((Prod.mk.injEq _ _ _ _).mp hh).1.symm h
          · exact hh
        · exact Or.inr


def bucketFold (L : List (Nat × Nat)) (acc : List (Nat × List Nat)) :
    List (Nat × List Nat) :=
  L.foldl (fun acc kv => bucketAdd acc kv.2 kv.1) acc

theorem groupsPairs_eq (m : List (Nat × Nat)) :
    groupsPairs m = bucketFold (compressAll m) [] := rfl

theorem bucketAdd_cons_eq (v k : Nat) (ks2 : List Nat)
    (tl : List (Nat × List Nat)) :
    bucketAdd ((v, ks2) :: tl) v k = (v, ks2 ++ [k]) :: tl := by
  simp [bucketAdd]

theorem bucketAdd_cons_ne (v v2 k : Nat) (ks2 : List Nat)
    (tl : List (Nat × List Nat)) (h : v2 ≠ v) :
    bucketAdd ((v2, ks2) :: tl) v k = (v2, ks2) :: bucketAdd tl v k := by
  simp [bucketAdd, h]

theorem bucketAdd_nil (v k : Nat) :
    bucketAdd [] v k = [(v, [k])] := rfl

theorem bucketAdd_mem (acc : List (Nat × List Nat)) (v k r x : Nat) :
    (∃ ks, (r, ks) ∈ bucketAdd acc v k ∧ x ∈ ks) ↔
      (∃ ks, (r, ks) ∈ acc ∧ x ∈ ks) ∨ (r = v ∧ x = k) := by
  induction acc with
  | nil =>
      rw [bucketAdd_nil]
      constructor
      · intro ⟨ks, hks, hx⟩
        rw [List.mem_singleton] at hks
        have h1 : r = v := ((Prod.mk.injEq _ _ _ _).mp hks).1
        have h2 : ks = [k] := ((Prod.mk.injEq _ _ _ _).mp hks).2
        rw [h2] at hx
        exact Or.inr ⟨h1, List.mem_singleton.mp hx⟩
      · intro h
        rcases h with ⟨ks, hks, hx⟩ | ⟨rfl, rfl⟩
        · simp at hks
        · exact ⟨[x], List.mem_singleton_self _, List.mem_singleton_self x⟩
  | cons hd tl ih =>
      obtain ⟨v2, ks2⟩ := hd
      by_cases hv : v2 = v
      · subst hv
        rw [bucketAdd_cons_eq]
        constructor
        · intro ⟨ks, hks, hx⟩
          rcases List.mem_cons.mp hks with hks | hks
          · have h1 : r = v2 := ((Prod.mk.injEq _ _ _ _).mp hks).1
            have h2 : ks = ks2 ++ [k] := ((Prod.mk.injEq _ _ _ _).mp hks).2
            rw [h2] at hx
            rcases List.mem_append.mp hx with hx | hx
            · refine Or.inl ⟨ks2, ?_, hx⟩
              rw [h1]
              exact List.mem_cons_self _ _
            · exact Or.inr ⟨h1, List.mem_singleton.mp hx⟩
          · exact Or.inl ⟨ks, List.mem_cons_of_mem _ hks, hx⟩
        · intro h
          rcases h with ⟨ks, hks, hx⟩ | ⟨rfl, rfl⟩
          · rcases List.mem_cons.mp hks with hks | hks
            · have h1 : r = v2 := ((Prod.mk.injEq _ _ _ _).mp hks).1
              have h2 : ks = ks2 := ((Prod.mk.injEq _ _ _ _).mp hks).2
              refine ⟨ks2 ++ [k], ?_, List.mem_append_left _ (h2 ▸ hx)⟩
              rw [h1]
              exact List.mem_cons_self _ _
            · exact ⟨ks, List.mem_cons_of_mem _ hks, hx⟩
          · exact ⟨ks2 ++ [x], List.mem_cons_self _ _,
              List.mem_append_right _ (List.mem_singleton_self x)⟩
      · rw [bucketAdd_cons_ne _ _ _ _ _ hv]
        constructor
        · intro ⟨ks, hks, hx⟩
          rcases List.mem_cons.mp hks with hks | hks
          · exact Or.inl ⟨ks, hks ▸ List.mem_cons_self _ _, hx⟩
          · rcases ih.mp ⟨ks, hks, hx⟩ with ⟨ks3, hks3, hx3⟩ | h
            · exact Or.inl ⟨ks3, List.mem_cons_of_mem _ hks3, hx3⟩
            · exact Or.inr h
        · intro h
          rcases h with ⟨ks, hks, hx⟩ | h
          · rcases List.mem_cons.mp hks with hks | hks
            · exact ⟨ks, hks ▸ List.mem_cons_self _ _, hx⟩
            · obtain ⟨ks3, hks3, hx3⟩ := ih.mpr (Or.inl ⟨ks, hks, hx⟩)
              exact ⟨ks3, List.mem_cons_of_mem _ hks3, hx3⟩
          · obtain ⟨ks3, hks3, hx3⟩ := ih.mpr (Or.inr h)
            exact ⟨ks3, List.mem_cons_of_mem _ hks3, hx3⟩

theorem bucketAdd_fst_mem (acc : List (Nat × List Nat)) (v k r : Nat) :
    r ∈ (bucketAdd acc v k).map Prod.fst ↔
      r ∈ acc.map Prod.fst ∨ r = v := by
  induction acc with
  | nil =>
      rw [bucketAdd_nil]
      simp
  | cons hd tl ih =>
      obtain ⟨v2, ks2⟩ := hd
      by_cases hv : v2 = v
      · subst hv
        rw [bucketAdd_cons_eq]
        simp only [List.map_cons, List.mem_cons]
        tauto
      · rw [bucketAdd_cons_ne _ _ _ _ _ hv]
        simp only [List.map_cons, List.mem_cons]
        rw [ih]
        tauto

theorem bucketAdd_fst_nodup (acc : List (Nat × List Nat)) (v k : Nat)
    (h : (acc.map Prod.fst).Nodup) :
    ((bucketAdd acc v k).map Prod.fst).Nodup := by
  induction acc with
  | nil =>
      rw [bucketAdd_nil]
      simp
  | cons hd tl ih =>
      obtain ⟨v2, ks2⟩ := hd
      rw [List.map_cons, List.nodup_cons] at h
      by_cases hv : v2 = v
      · subst hv
        rw [bucketAdd_cons_eq]
        rw [List.map_cons, List.nodup_cons]
        exact ⟨h.1, h.2⟩
      · rw [bucketAdd_cons_ne _ _ _ _ _ hv]
        rw [List.map_cons, List.nodup_cons]
        refine ⟨?_, ih h.2⟩
        intro hmem
        rcases (bucketAdd_fst_mem tl v k v2).mp hmem with hmem | hmem
        · exact h.1 hmem
        · exact hv hmem

theorem bucketAdd_ne_nil (acc : List (Nat × List Nat)) (v k : Nat)
    (h : ∀ p ∈ acc, p.2 ≠ []) :
    ∀ p ∈ bucketAdd acc v k, p.2 ≠ [] := by
  induction acc with
  | nil =>
      intro p hp
      rw [bucketAdd_nil, List.mem_singleton] at hp
      subst hp
      simp
  | cons hd tl ih =>
      obtain ⟨v2, ks2⟩ := hd
      by_cases hv : v2 = v
      · subst hv
        intro p hp
        rw [bucketAdd_cons_eq] at hp
        rcases List.mem_cons.mp hp with rfl | hp
        · simp
        · exact h p (List.mem_cons_of_mem _ hp)
      · intro p hp
        rw [bucketAdd_cons_ne _ _ _ _ _ hv] at hp
        rcases List.mem_cons.mp hp with rfl | hp
        · exact h _ (List.mem_cons_self _ _)
        · exact ih (fun q hq => h q (List.mem_cons_of_mem _ hq)) p hp

theorem bucketFold_mem (L : List (Nat × Nat)) :
    ∀ (acc : List (Nat × List Nat)) (r x : Nat),
      (∃ ks, (r, ks) ∈ bucketFold L acc ∧ x ∈ ks) ↔
        (∃ ks, (r, ks) ∈ acc ∧ x ∈ ks) ∨ (x, r) ∈ L := by
  induction L with
  | nil => simp [bucketFold]
  | cons hd tl ih =>
      intro acc r x
      obtain ⟨k, v⟩ := hd
      have h1 : bucketFold ((k, v) :: tl) acc
          = bucketFold tl (bucketAdd acc v k) := rfl
      rw [h1, ih, bucketAdd_mem]
      constructor
      · intro h
        rcases h with (h | ⟨rfl, rfl⟩) | h
        · exact Or.inl h
        · exact Or.inr (List.mem_cons_self _ _)
        · exact Or.inr (List.mem_cons_of_mem _ h)
      · intro h
        rcases h with h | h
        · exact Or.inl (Or.inl h)
        · rcases List.mem_cons.mp h with he | h
          · have h1 : x = k := ((Prod.mk.injEq _ _ _ _).mp he).1
            have h2 : r = v := ((Prod.mk.injEq _ _ _ _).mp he).2
            exact Or.inl (Or.inr ⟨h2, h1⟩)
          · exact Or.inr h

theorem bucketFold_fst_nodup (L : List (Nat × Nat)) :
    ∀ (acc : List (Nat × List Nat)), (acc.map Prod.fst).Nodup →
      ((bucketFold L acc).map Prod.fst).Nodup := by
  induction L with
  | nil =>
      intro acc h
      exact h
  | cons hd tl ih =>
      intro acc h
      exact ih (bucketAdd acc hd.2 hd.1) (bucketAdd_fst_nodup acc hd.2 hd.1 h)

theorem bucketFold_ne_nil (L : List (Nat × Nat)) :
    ∀ (acc : List (Nat × List Nat)), (∀ p ∈ acc, p.2 ≠ []) →
      ∀ p ∈ bucketFold L acc, p.2 ≠ [] := by
  induction L with
  | nil =>
      intro acc h
      exact h
  | cons hd tl ih =>
      intro acc h
      exact ih (bucketAdd acc hd.2 hd.1) (bucketAdd_ne_nil acc hd.2 hd.1 h)

/-- With distinct first components, the member list of a bucket key is
unique. -/
theorem assoc_fst_nodup_unique {β : Type} (l : List (Nat × β))
    (hnd : (l.map Prod.fst).Nodup) (r : Nat) (b1 b2 : β)
    (h1 : (r, b1) ∈ l) (h2 : (r, b2) ∈ l) : b1 = b2 := by
  induction l with
  | nil => cases h1
  | cons hd tl ih =>
      obtain ⟨r2, b⟩ := hd
      rw [List.map_cons, List.nodup_cons] at hnd
      rcases List.mem_cons.mp h1 with he1 | h1
      · rcases List.mem_cons.mp h2 with he2 | h2
        · have e1 : b1 = b := ((Prod.mk.injEq _ _ _ _).mp he1).2
          have e2 : b2 = b := ((Prod.mk.injEq _ _ _ _).mp he2).2
          rw [e1, e2]
        · have hr : r = r2 := ((Prod.mk.injEq _ _ _ _).mp he1).1
          have : r2 ∈ tl.map Prod.fst := by
            rw [← hr]
            exact List.mem_map_of_mem Prod.fst h2
          exact absurd this hnd.1
      · rcases List.mem_cons.mp h2 with he2 | h2
        · have hr : r = r2 := ((Prod.mk.injEq _ _ _ _).mp he2).1
          have : r2 ∈ tl.map Prod.fst := by
            rw [← hr]
            exact List.mem_map_of_mem Prod.fst h1
          exact absurd this hnd.1
        · exact ih hnd.2 h1 h2

/-- `groups()` output characterised: `x` is in the bucket of `r` exactly
when `x` is a key whose root is `r`. -/
theorem groupsPairs_spec (m : List (Nat × Nat)) (hinv : UFInv m) :
    (∀ r x, (∃ ks, (r, ks) ∈ groupsPairs m ∧ x ∈ ks) ↔
      (x ∈ dkeys m ∧ RootedAt m x r)) ∧
    ((groupsPairs m).map Prod.fst).Nodup ∧
    (∀ p ∈ groupsPairs m, p.2 ≠ []) := by
  obtain ⟨hc1, hc2, hc3, hc4⟩ := compressAll_spec m hinv
  refine ⟨?_, ?_, ?_⟩
  · intro r x
    rw [groupsPairs_eq, bucketFold_mem]
    constructor
    · intro h
      rcases h with ⟨ks, hks, _⟩ | h
      · simp at hks
      · exact hc2 x r ((mem_iff_dget _ _ _ hc4).mp h)
    · intro ⟨hx, hr⟩
      refine Or.inr ((mem_iff_dget _ _ _ hc4).mpr ?_)
      exact hc1 x hx r hr
  · rw [groupsPairs_eq]
    exact bucketFold_fst_nodup _ [] (by simp)
  · rw [groupsPairs_eq]
    exact bucketFold_ne_nil _ [] (by simp)


/-- C5. For every sequence of `equiv` declarations over (truthy) addresses,
`groups()` returns exactly the partition induced by the transitive closure
of the declared pairs: two addresses land in one class of the output iff
they are connected by a chain of declared pairs; and declaring `(1, 2)`
then `(2, 3)` yields the single class `{1, 2, 3}`. -/
theorem equiv_groups_transitive_closure :
    (∀ (ps : List (Nat × Nat)) (x y : Nat),
      (∀ p ∈ ps, 0 < p.1 ∧ 0 < p.2) →
      (sameGroup (runEquiv ps) x y ↔
        Conn ps x y ∧ Mentioned ps x ∧ Mentioned ps y)) ∧
    groupsPairs (runEquiv [(1, 2), (2, 3)]) = [(1, [1, 2, 3])] := by
  constructor
  · intro ps x y hpos
    obtain ⟨hufi, hkeys, hconn⟩ := runEquiv_inv ps hpos
    obtain ⟨hgp1, hgp2, hgp3⟩ := groupsPairs_spec (runEquiv ps) hufi
    constructor
    · intro ⟨pr, hpr, hx, hy⟩
      obtain ⟨r, ks⟩ := pr
      have h1 := (hgp1 r x).mp ⟨ks, hpr, hx⟩
      have h2 := (hgp1 r y).mp ⟨ks, hpr, hy⟩
      refine ⟨?_, (hkeys x).mp h1.1, (hkeys y).mp h2.1⟩
      exact (hconn x y).mp ⟨r, h1.2, h2.2⟩
    · intro ⟨hcxy, hmx, hmy⟩
      obtain ⟨r, hxr, hyr⟩ := (hconn x y).mpr hcxy
      obtain ⟨ks1, hks1, hx1⟩ := (hgp1 r x).mpr ⟨(hkeys x).mpr hmx, hxr⟩
      obtain ⟨ks2, hks2, hy2⟩ := (hgp1 r y).mpr ⟨(hkeys y).mpr hmy, hyr⟩
      have hks : ks1 = ks2 := assoc_fst_nodup_unique _ hgp2 r ks1 ks2 hks1 hks2
      exact ⟨(r, ks1), hks1, hx1, hks ▸ hy2⟩
  · decide

/-- Witness for `equiv_groups_transitive_closure` at `ps = [(5, 6)]`. -/
theorem equiv_groups_transitive_closure_witness :
    (∀ p ∈ ([((5 : Nat), (6 : Nat))] : List (Nat × Nat)),
      0 < p.1 ∧ 0 < p.2) ∧
    sameGroup (runEquiv [(5, 6)]) 5 6 :=
  ⟨by decide,
    (equiv_groups_transitive_closure.1 [(5, 6)] 5 6 (by decide)).mpr
      ⟨Relation.ReflTransGen.single (Or.inl (List.mem_singleton_self _)),
        ⟨(5, 6), List.mem_singleton_self _, Or.inl rfl⟩,
        ⟨(5, 6), List.mem_singleton_self _, Or.inr rfl⟩⟩⟩


/-! ### `equiv_all`, `names`/`classes`, and `__iter__` -/

/-- The `EquivalenceGroups` object: `representatives`, `names` (labels,
possibly `None`) and `classes` (the merge-directive constructors, modelled
by an optional tag — `None` when `cls=None` was passed). -/
structure EGroups where
  reps : List (Nat × Nat)
  names : List (Nat × Option String)
  classes : List (Nat × Option String)

def emptyEG : EGroups := ⟨[], [], []⟩

/-- `equiv_all(ids, cls=None, under=None)` from tools.py: `if not ids:
return`; `a, *rest = list(ids)`; `equiv(a, b)` for each `b` in `rest`; then
`names[x] = under` and `classes[x] = cls` for every `x` in `ids`. -/
def equivAll (g : EGroups) (ids : List Nat) (cls under : Option String) :
    EGroups :=
  match ids with
  | [] => g
  | a :: rest =>
      { reps := rest.foldl (fun m b => equivStep m a b) g.reps
        names := (a :: rest).foldl (fun d x => dset d x under) g.names
        classes := (a :: rest).foldl (fun d x => dset d x cls) g.classes }

/-- One recorded `equiv_all` call. -/
structure EqCall where
  ids : List Nat
  cls : Option String
  under : Option String

def runCallsFrom (g : EGroups) (cs : List EqCall) : EGroups :=
  cs.foldl (fun g c => equivAll g c.ids c.cls c.under) g

def runCalls (cs : List EqCall) : EGroups := runCallsFrom emptyEG cs

/-- The pairs handed to `equiv` by one `equiv_all` call. -/
def pairsOfCall (c : EqCall) : List (Nat × Nat) :=
  match c.ids with
  | [] => []
  | a :: rest => rest.map (fun b => (a, b))

def pairsOf (cs : List EqCall) : List (Nat × Nat) :=
  (cs.map pairsOfCall).flatten

/-- `__iter__` from tools.py, over the `groups()` output:
`assert len(ids) > 1`, then `print(... self.names[main])`, then
`yield self.classes[main](ids=ids)`.  An assertion failure or a missing /
`None` entry stops the generator exceptionally (`false` flag); directives
already yielded are kept. -/
def iterGo (g : EGroups) : List (Nat × List Nat) →
    List (String × List Nat) × Bool
  | [] => ([], true)
  | (main, ids) :: rest =>
      if ids.length ≤ 1 then ([], false)
      else
        match dget g.names main with
        | none => ([], false)
        | some _ =>
            match dget g.classes main with
            | none => ([], false)
            | some none => ([], false)
            | some (some c) =>
                let p := iterGo g rest
                ((c, ids) :: p.1, p.2)

def iterDirectives (g : EGroups) : List (String × List Nat) × Bool :=
  iterGo g (groupsPairs g.reps)

theorem runCallsFrom_reps (cs : List EqCall) :
    ∀ g : EGroups, (runCallsFrom g cs).reps
      = (pairsOf cs).foldl (fun m p => equivStep m p.1 p.2) g.reps := by
  induction cs with
  | nil =>
      intro g
      rfl
  | cons c rest ih =>
      intro g
      have h1 : runCallsFrom g (c :: rest)
          = runCallsFrom (equivAll g c.ids c.cls c.under) rest := rfl
      have h2 : pairsOf (c :: rest) = pairsOfCall c ++ pairsOf rest := by
        simp [pairsOf]
      rw [h1, ih, h2, List.foldl_append]
      congr 1
      rcases hc : c.ids with _ | ⟨a, rest2⟩
      · simp [equivAll, pairsOfCall, hc]
      · simp [equivAll, pairsOfCall, hc, List.foldl_map]

theorem runCalls_reps (cs : List EqCall) :
    (runCalls cs).reps = runEquiv (pairsOf cs) :=
  runCallsFrom_reps cs emptyEG

theorem mem_pairsOfCall (c : EqCall) (u v : Nat)
    (h : (u, v) ∈ pairsOfCall c) : u ∈ c.ids ∧ v ∈ c.ids := by
  rcases hc : c.ids with _ | ⟨a, rest⟩
  · rw [pairsOfCall, hc] at h
    cases h
  · rw [pairsOfCall, hc] at h
    obtain ⟨b, hb, he⟩ := List.mem_map.mp h
    have hu : u = a := ((Prod.mk.injEq _ _ _ _).mp he.symm).1
    have hv : v = b := ((Prod.mk.injEq _ _ _ _).mp he.symm).2
    constructor
    · rw [hu]
      exact List.mem_cons_self _ _
    · rw [hv]
      exact List.mem_cons_of_mem _ hb

theorem mem_pairsOf (cs : List EqCall) (u v : Nat)
    (h : (u, v) ∈ pairsOf cs) :
    ∃ c ∈ cs, (u, v) ∈ pairsOfCall c := by
  obtain ⟨l, hl, hm⟩ := List.mem_flatten.mp h
  obtain ⟨c, hc, rfl⟩ := List.mem_map.mp hl
  exact ⟨c, hc, hm⟩

theorem pairsOfCall_ne (c : EqCall) (hnd : c.ids.Nodup) (u v : Nat)
    (h : (u, v) ∈ pairsOfCall c) : u ≠ v := by
  rcases hc : c.ids with _ | ⟨a, rest⟩
  · rw [pairsOfCall, hc] at h
    cases h
  · rw [pairsOfCall, hc] at h
    obtain ⟨b, hb, he⟩ := List.mem_map.mp h
    have hu : u = a := ((Prod.mk.injEq _ _ _ _).mp he.symm).1
    have hv : v = b := ((Prod.mk.injEq _ _ _ _).mp he.symm).2
    rw [hc, List.nodup_cons] at hnd
    intro huv
    rw [hu, hv] at huv
    exact hnd.1 (huv ▸ hb)


theorem dget_foldl_dset {α : Type} (ids : List Nat) :
    ∀ (d : List (Nat × α)) (v : α) (k : Nat),
      dget (ids.foldl (fun d x => dset d x v) d) k
        = if k ∈ ids then some v else dget d k := by
  induction ids with
  | nil =>
      intro d v k
      simp
  | cons x rest ih =>
      intro d v k
      have h1 : (x :: rest).foldl (fun d x => dset d x v) d
          = rest.foldl (fun d x => dset d x v) (dset d x v) := rfl
      rw [h1, ih]
      by_cases hk : k ∈ rest
      · simp [hk]
      · by_cases hkx : k = x
        · subst hkx
          simp [hk, dget_dset_self]
        · simp [hk, hkx, dget_dset_ne d x k v hkx]

theorem runCallsFrom_classes (cs : List EqCall) :
    ∀ (g : EGroups) (k : Nat),
      (∀ c ∈ cs, c.cls.isSome) →
      ((∃ c ∈ cs, k ∈ c.ids) ∨
        (∃ str, dget g.classes k = some (some str))) →
      ∃ str, dget (runCallsFrom g cs).classes k = some (some str) := by
  induction cs with
  | nil =>
      intro g k _ h
      rcases h with ⟨c, hc, _⟩ | h
      · cases hc
      · exact h
  | cons c rest ih =>
      intro g k hcls h
      have hstep : runCallsFrom g (c :: rest)
          = runCallsFrom (equivAll g c.ids c.cls c.under) rest := rfl
      rw [hstep]
      rcases hc : c.ids with _ | ⟨a, rest2⟩
      · have hg : equivAll g [] c.cls c.under = g := rfl
        rw [hg]
        refine ih g k (fun q hq => hcls q (List.mem_cons_of_mem _ hq)) ?_
        rcases h with ⟨c2, hc2, hk2⟩ | h
        · rcases List.mem_cons.mp hc2 with rfl | hc2
          · rw [hc] at hk2
            cases hk2
          · exact Or.inl ⟨c2, hc2, hk2⟩
        · exact Or.inr h
      · have hcl : dget (equivAll g (a :: rest2) c.cls c.under).classes k
            = if k ∈ a :: rest2 then some c.cls else dget g.classes k := by
          show dget ((a :: rest2).foldl (fun d x => dset d x c.cls)
            g.classes) k = _
          rw [dget_foldl_dset]
        refine ih _ k (fun q hq => hcls q (List.mem_cons_of_mem _ hq)) ?_
        by_cases hmem : k ∈ a :: rest2
        · obtain ⟨str, hstr⟩ :=
            Option.isSome_iff_exists.mp (hcls c (List.mem_cons_self _ _))
          refine Or.inr ⟨str, ?_⟩
          rw [hcl, if_pos hmem, hstr]
        · rcases h with ⟨c2, hc2, hk2⟩ | h
          · rcases List.mem_cons.mp hc2 with rfl | hc2
            · rw [hc] at hk2
              exact absurd hk2 hmem
            · exact Or.inl ⟨c2, hc2, hk2⟩
          · refine Or.inr ?_
            rw [hcl, if_neg hmem]
            exact h

theorem runCallsFrom_names (cs : List EqCall) :
    ∀ (g : EGroups) (k : Nat),
      ((∃ c ∈ cs, k ∈ c.ids) ∨ (dget g.names k).isSome) →
      (dget (runCallsFrom g cs).names k).isSome := by
  induction cs with
  | nil =>
      intro g k h
      rcases h with ⟨c, hc, _⟩ | h
      · cases hc
      · exact h
  | cons c rest ih =>
      intro g k h
      have hstep : runCallsFrom g (c :: rest)
          = runCallsFrom (equivAll g c.ids c.cls c.under) rest := rfl
      rw [hstep]
      rcases hc : c.ids with _ | ⟨a, rest2⟩
      · have hg : equivAll g [] c.cls c.under = g := rfl
        rw [hg]
        refine ih g k ?_
        rcases h with ⟨c2, hc2, hk2⟩ | h
        · rcases List.mem_cons.mp hc2 with rfl | hc2
          · rw [hc] at hk2
            cases hk2
          · exact Or.inl ⟨c2, hc2, hk2⟩
        · exact Or.inr h
      · have hnm : dget (equivAll g (a :: rest2) c.cls c.under).names k
            = if k ∈ a :: rest2 then some c.under else dget g.names k := by
          show dget ((a :: rest2).foldl (fun d x => dset d x c.under)
            g.names) k = _
          rw [dget_foldl_dset]
        refine ih _ k ?_
        by_cases hmem : k ∈ a :: rest2
        · refine Or.inr ?_
          rw [hnm, if_pos hmem]
          rfl
        · rcases h with ⟨c2, hc2, hk2⟩ | h
          · rcases List.mem_cons.mp hc2 with rfl | hc2
            · rw [hc] at hk2
              exact absurd hk2 hmem
            · exact Or.inl ⟨c2, hc2, hk2⟩
          · refine Or.inr ?_
            rw [hnm, if_neg hmem]
            exact h

theorem mentioned_pairsOf (cs : List EqCall) (x : Nat)
    (h : Mentioned (pairsOf cs) x) : ∃ c ∈ cs, x ∈ c.ids := by
  obtain ⟨p, hp, hx⟩ := h
  obtain ⟨u, v⟩ := p
  obtain ⟨c, hc, hm⟩ := mem_pairsOf cs u v hp
  obtain ⟨hu, hv⟩ := mem_pairsOfCall c u v hm
  rcases hx with rfl | rfl
  · exact ⟨c, hc, hu⟩
  · exact ⟨c, hc, hv⟩

theorem one_lt_length_of_two_mem (ks : List Nat) (x w : Nat)
    (hx : x ∈ ks) (hw : w ∈ ks) (hne : x ≠ w) : 1 < ks.length := by
  rcases ks with _ | ⟨z, tl⟩
  · cases hx
  · rcases tl with _ | ⟨z2, tl2⟩
    · rw [List.mem_singleton] at hx hw
      exact absurd (hx.trans hw.symm) hne
    · simp only [List.length_cons]
      omega

/-- Any directive actually yielded by `__iter__` covers more than one
address: the `assert len(ids) > 1` guards every `yield`. -/
theorem iterGo_min_length (g : EGroups) :
    ∀ (L : List (Nat × List Nat)) (d : String × List Nat),
      d ∈ (iterGo g L).1 → 1 < d.2.length := by
  intro L
  induction L with
  | nil =>
      intro d hd
      cases hd
  | cons pr rest ih =>
      intro d hd
      obtain ⟨main, ids⟩ := pr
      by_cases hlen : ids.length ≤ 1
      · simp only [iterGo, if_pos hlen] at hd
        cases hd
      · rcases hn : dget g.names main with _ | nv
        · simp only [iterGo, if_neg hlen, hn] at hd
          cases hd
        · rcases hcget : dget g.classes main with _ | cv
          · simp only [iterGo, if_neg hlen, hn, hcget] at hd
            cases hd
          · rcases cv with _ | c
            · simp only [iterGo, if_neg hlen, hn, hcget] at hd
              cases hd
            · simp only [iterGo, if_neg hlen, hn, hcget] at hd
              rcases List.mem_cons.mp hd with rfl | hd
              · simpa using Nat.lt_of_not_le hlen
              · exact ih d hd

/-- When every group passes the assertion and has `names`/`classes`
entries, `__iter__` yields exactly one directive per group. -/
theorem iterGo_success (g : EGroups) :
    ∀ L : List (Nat × List Nat),
      (∀ pr ∈ L, 1 < pr.2.length ∧ (dget g.names pr.1).isSome ∧
        ∃ str, dget g.classes pr.1 = some (some str)) →
      (iterGo g L).2 = true ∧
      List.Forall₂ (fun (d : String × List Nat) (pr : Nat × List Nat) =>
        d.2 = pr.2 ∧ dget g.classes pr.1 = some (some d.1))
        (iterGo g L).1 L := by
  intro L
  induction L with
  | nil =>
      intro _
      exact ⟨rfl, List.Forall₂.nil⟩
  | cons pr rest ih =>
      intro h
      obtain ⟨main, ids⟩ := pr
      obtain ⟨hlen, hnm, str, hcl⟩ := h _ (List.mem_cons_self _ _)
      have hlen2 : ¬ ids.length ≤ 1 := Nat.not_le.mpr hlen
      obtain ⟨nv, hn⟩ := Option.isSome_iff_exists.mp hnm
      obtain ⟨ih1, ih2⟩ := ih (fun q hq => h q (List.mem_cons_of_mem _ hq))
      constructor
      · simp only [iterGo, if_neg hlen2, hn, hcl]
        exact ih1
      · simp only [iterGo, if_neg hlen2, hn, hcl]
        exact List.Forall₂.cons ⟨rfl, hcl⟩ ih2


/-- C8. Iterating an `EquivalenceGroups` yields exactly one merge directive
per equivalence class with more than one address, carrying that class's
members (second conjunct); only classes that pass `assert len(ids) > 1`
are ever yielded (first conjunct); and a class left with a single member
(here from `equiv_all([7, 7])`) makes iteration fail on the assertion
instead of yielding a directive (third conjunct). -/
theorem iter_merge_directives :
    (∀ (g : EGroups) (d : String × List Nat),
      d ∈ (iterDirectives g).1 → 1 < d.2.length) ∧
    (∀ cs : List EqCall,
      (∀ c ∈ cs, c.ids.Nodup ∧ (∀ x ∈ c.ids, 0 < x) ∧ c.cls.isSome) →
      (iterDirectives (runCalls cs)).2 = true ∧
      List.Forall₂ (fun (d : String × List Nat) (pr : Nat × List Nat) =>
          d.2 = pr.2 ∧
          dget (runCalls cs).classes pr.1 = some (some d.1))
        (iterDirectives (runCalls cs)).1
        (groupsPairs (runCalls cs).reps) ∧
      (∀ pr ∈ groupsPairs (runCalls cs).reps, 1 < pr.2.length)) ∧
    ((iterDirectives (runCalls [⟨[7, 7], some "K", none⟩])).1 = [] ∧
      (iterDirectives (runCalls [⟨[7, 7], some "K", none⟩])).2 = false) := by
  refine ⟨?_, ?_, by decide⟩
  · intro g d hd
    exact iterGo_min_length g (groupsPairs g.reps) d hd
  · intro cs hcs
    have hpos : ∀ p ∈ pairsOf cs, 0 < p.1 ∧ 0 < p.2 := by
      intro p hp
      obtain ⟨u, v⟩ := p
      obtain ⟨c, hc, hm⟩ := mem_pairsOf cs u v hp
      obtain ⟨hu, hv⟩ := mem_pairsOfCall c u v hm
      exact ⟨(hcs c hc).2.1 u hu, (hcs c hc).2.1 v hv⟩
    obtain ⟨hufi, hkeys, hconn⟩ := runEquiv_inv (pairsOf cs) hpos
    rw [← runCalls_reps] at hufi hkeys hconn
    obtain ⟨hgp1, hgp2, hgp3⟩ := groupsPairs_spec (runCalls cs).reps hufi
    have hbig : ∀ pr ∈ groupsPairs (runCalls cs).reps, 1 < pr.2.length := by
      intro pr hpr
      obtain ⟨r, ks⟩ := pr
      obtain ⟨x, hx⟩ := List.exists_mem_of_ne_nil ks (hgp3 _ hpr)
      obtain ⟨hxk, hxr⟩ := (hgp1 r x).mp ⟨ks, hpr, hx⟩
      have hxm : Mentioned (pairsOf cs) x := (hkeys x).mp hxk
      obtain ⟨p2, hp2, hx2⟩ := hxm
      obtain ⟨u, v⟩ := p2
      obtain ⟨c, hc, hm⟩ := mem_pairsOf cs u v hp2
      have hne : u ≠ v := pairsOfCall_ne c (hcs c hc).1 u v hm
      have hw : ∃ w, w ≠ x ∧ Conn (pairsOf cs) x w ∧
          Mentioned (pairsOf cs) w := by
        rcases hx2 with he | he
        · refine ⟨v, ?_, ?_, ⟨(u, v), hp2, Or.inr rfl⟩⟩
          · intro hh
            exact hne (he.symm.trans hh.symm)
          · rw [he]
            exact conn_single _ u v (Or.inl hp2)
        · refine ⟨u, ?_, ?_, ⟨(u, v), hp2, Or.inl rfl⟩⟩
          · intro hh
            exact hne (hh.trans he)
          · rw [he]
            exact conn_single _ v u (Or.inr hp2)
      obtain ⟨w, hwx, hcw, hwm⟩ := hw
      obtain ⟨r2, hxr2, hwr2⟩ := (hconn x w).mpr hcw
      have hr2 : r2 = r := rootedAt_unique _ x r2 r hxr2 hxr
      obtain ⟨ks2, hks2, hw2⟩ :=
        (hgp1 r w).mpr ⟨(hkeys w).mpr hwm, hr2 ▸ hwr2⟩
      have hkk : ks2 = ks := assoc_fst_nodup_unique _ hgp2 r ks2 ks hks2 hpr
      exact one_lt_length_of_two_mem ks x w hx (hkk ▸ hw2)
        (fun hh => hwx hh.symm)
    have hcond : ∀ pr ∈ groupsPairs (runCalls cs).reps,
        1 < pr.2.length ∧ (dget (runCalls cs).names pr.1).isSome ∧
        ∃ str, dget (runCalls cs).classes pr.1 = some (some str) := by
      intro pr hpr
      obtain ⟨r, ks⟩ := pr
      obtain ⟨x, hx⟩ := List.exists_mem_of_ne_nil ks (hgp3 _ hpr)
      obtain ⟨hxk, hxr⟩ := (hgp1 r x).mp ⟨ks, hpr, hx⟩
      have hrk : r ∈ dkeys (runCalls cs).reps :=
        root_mem_keys _ hufi.2.2.1 x r hxr hxk
      obtain ⟨c, hc, hrc⟩ := mentioned_pairsOf cs r ((hkeys r).mp hrk)
      refine ⟨hbig _ hpr, ?_, ?_⟩
      · exact runCallsFrom_names cs emptyEG r (Or.inl ⟨c, hc, hrc⟩)
      · exact runCallsFrom_classes cs emptyEG r
          (fun q hq => (hcs q hq).2.2) (Or.inl ⟨c, hc, hrc⟩)
    obtain ⟨h1, h2⟩ := iterGo_success (runCalls cs) _ hcond
    exact ⟨h1, h2, hbig⟩

/-- Witness for `iter_merge_directives` at a single call
`equiv_all([3, 4], cls="K")`: iteration succeeds and yields one directive
`("K", [3, 4])`. -/
theorem iter_merge_directives_witness :
    (∀ c ∈ ([⟨[3, 4], some "K", some "lbl"⟩] : List EqCall),
      c.ids.Nodup ∧ (∀ x ∈ c.ids, 0 < x) ∧ c.cls.isSome) ∧
    (iterDirectives (runCalls [⟨[3, 4], some "K", some "lbl"⟩])).2
      = true :=
  ⟨by decide,
    (iter_merge_directives.2.1 [⟨[3, 4], some "K", some "lbl"⟩]
      (by decide)).1⟩


/-! ## database.py: entity model, hashids, and the SQL state

The entity records carry exactly the fields `Database._acquire` reads
(the `paperoni/sources/model.py` module is not among the given sources).
`hashid` is modelled from the spec (§4.1): a deterministic content
fingerprint over the identifying fields of §3, `None` only for
`AuthorQuery`, the one kind without independent identity; a per-kind tag
byte makes every fingerprint a nonempty byte string, as md5 digests are. -/

abbrev Addr := List Nat

/-- A nullable address; `hashid()` can be `None`. -/
abbrev HID := Option Addr

/-- Python truthiness of `hid` in
`if not (hid := x.hashid()) or hid not in self.cache`. -/
def truthy : HID → Bool
  | none => false
  | some [] => false
  | some (_ :: _) => true

structure LinkT where
  type : String
  link : String
  deriving DecidableEq, Repr

structure InstitutionT where
  name : String
  category : String
  deriving DecidableEq, Repr

structure TopicT where
  name : String
  deriving DecidableEq, Repr

structure VenueT where
  type : String
  name : String
  links : List LinkT
  deriving DecidableEq, Repr

structure ReleaseT where
  venue : VenueT
  date : String
  date_precision : Nat
  volume : Option String
  publisher : Option String
  deriving DecidableEq, Repr

structure RoleT where
  institution : InstitutionT
  role : String
  start_date : String
  end_date : String
  deriving DecidableEq, Repr

structure AuthorT where
  name : String
  affiliations : List InstitutionT
  links : List LinkT
  aliases : List String
  roles : List RoleT
  deriving DecidableEq, Repr

structure PaperT where
  title : String
  abstract : Option String
  citation_count : Option Nat
  authors : List AuthorT
  releases : List ReleaseT
  topics : List TopicT
  links : List LinkT
  scrapers : List String
  deriving DecidableEq, Repr

/-- The entity kinds `Database._acquire` matches on.  `AuthorQuery` is the
internal record built in the `Author` branch. -/
inductive Entity where
  | paper (p : PaperT)
  | author (a : AuthorT)
  | institution (i : InstitutionT)
  | release (r : ReleaseT)
  | topic (t : TopicT)
  | venue (v : VenueT)
  | authorQuery (author_id : HID) (author : AuthorT)
  deriving DecidableEq, Repr

/-- Modelled from the spec: the `squash_text` canonicalisation the
hashids apply to names and titles (its module is not among the given
sources) — case-fold and keep only letters and digits. -/
def canonStr (s : String) : String :=
  String.mk ((s.data.map Char.toLower).filter fun c => c.isAlpha || c.isDigit)

/-- Modelled from the spec: the code-point material a hashid digests. -/
def strBytes (s : String) : List Nat := s.data.map Char.toNat

/-- Modelled from the spec: an optional field's contribution, keeping
`none` apart from every string. -/
def optBytes : Option String → List Nat
  | none => [0]
  | some s => 1 :: strBytes s

/-- Modelled from the spec: `Paper.hashid()` (§4.2; model.py is not
among the given sources) — a per-kind tagged digest of the identity
fields.  The leading tag byte makes every address non-empty (truthy) and
keeps kinds apart. -/
def paperHid (p : PaperT) : Addr := 1 :: strBytes (canonStr p.title)

/-- Modelled from the spec: `Author.hashid()`. -/
def authorHid (a : AuthorT) : Addr := 2 :: strBytes (canonStr a.name)

/-- Modelled from the spec: `Institution.hashid()`. -/
def instHid (i : InstitutionT) : Addr :=
  3 :: strBytes (canonStr i.name) ++ 0 :: strBytes i.category

/-- Modelled from the spec: `Venue.hashid()`. -/
def venueHid (v : VenueT) : Addr :=
  4 :: strBytes v.type ++ 0 :: strBytes (canonStr v.name)

/-- Modelled from the spec: `Release.hashid()`. -/
def releaseHid (r : ReleaseT) : Addr :=
  5 :: venueHid r.venue ++ 0 :: strBytes r.date ++ 0 :: optBytes r.volume
    ++ optBytes r.publisher

/-- Modelled from the spec: `Topic.hashid()`. -/
def topicHid (t : TopicT) : Addr := 6 :: strBytes (canonStr t.name)

/-- Modelled from the spec: `x.hashid()` dispatched by kind —
`AuthorQuery.hashid()` returns `None` (§4.2). -/
def entityHid : Entity → HID
  | .paper p => some (paperHid p)
  | .author a => some (authorHid a)
  | .institution i => some (instHid i)
  | .release r => some (releaseHid r)
  | .topic t => some (topicHid t)
  | .venue v => some (venueHid v)
  | .authorQuery _ _ => none

/-- Modelled from the spec: the `sch.*` row objects `_acquire` returns
and caches (schema.py is not among the given sources); each carries its
primary key and payload columns. -/
inductive SRow where
  | paper (paper_id : HID) (title : String) (abstract : Option String)
      (citation_count : Option Nat)
  | author (author_id : HID) (name : String)
  | institution (institution_id : HID) (name : String) (category : String)
  | release (release_id : HID) (date : String) (date_precision : Nat)
      (volume : Option String) (publisher : Option String) (venue_id : HID)
  | topic (topic_id : HID) (topic : String)
  | venue (venue_id : HID) (type : String) (name : String)
  deriving DecidableEq, Repr

/-- `row.author_id` etc.  On a row of the wrong kind Python would raise an
`AttributeError` (only reachable through a cross-kind hash collision, an
`IdentityCollisionSuspected` emergency outside this model); the model
returns `none` there. -/
def rowAuthorId : Option SRow → HID
  | some (SRow.author k _) => k
  | _ => none

def rowInstId : Option SRow → HID
  | some (SRow.institution k _ _) => k
  | _ => none

def rowReleaseId : Option SRow → HID
  | some (SRow.release k _ _ _ _ _) => k
  | _ => none

def rowTopicId : Option SRow → HID
  | some (SRow.topic k _) => k
  | _ => none

def rowVenueId : Option SRow → HID
  | some (SRow.venue k _ _) => k
  | _ => none

/-- Upsert into a row table (`Session.merge`, keyed by primary key). -/
def mupd {κ ν : Type} [DecidableEq κ] (m : κ → Option ν) (k : κ) (v : ν) :
    κ → Option ν :=
  fun k2 => if k2 = k then some v else m k2

/-- Set-semantics insert (`INSERT ... ON CONFLICT DO NOTHING`). -/
def sins {κ : Type} [DecidableEq κ] (s : κ → Bool) (k : κ) : κ → Bool :=
  fun k2 => if k2 = k then true else s k2

/-- Modelled from the spec: the tables `_acquire` touches (schema.py is
not among the given sources).  Row tables map the primary key to the
payload; association tables are sets.  The primary keys follow §4.3:
entity rows are keyed by address, association rows by the composite of
the parent and child addresses, with the author position an explicit
payload column. -/
structure DB where
  papers : HID → Option (String × Option String × Option Nat)
  authors : HID → Option String
  institutions : HID → Option (String × String)
  releases : HID → Option (String × Nat × Option String × Option String × HID)
  topics : HID → Option String
  venues : HID → Option (String × String)
  paper_author : HID × HID → Option Nat
  paper_author_institution : HID × HID × HID → Bool
  paper_release : HID × HID → Bool
  paper_topic : HID × HID → Bool
  paper_link : HID × String × String → Bool
  paper_scraper : HID × String → Bool
  author_link : HID × String × String → Bool
  author_alias : HID × String → Bool
  author_institution : HID × HID × String × String × String → Bool
  venue_link : HID × String × String → Bool

def emptyDB : DB where
  papers := fun _ => none
  authors := fun _ => none
  institutions := fun _ => none
  releases := fun _ => none
  topics := fun _ => none
  venues := fun _ => none
  paper_author := fun _ => none
  paper_author_institution := fun _ => false
  paper_release := fun _ => false
  paper_topic := fun _ => false
  paper_link := fun _ => false
  paper_scraper := fun _ => false
  author_link := fun _ => false
  author_alias := fun _ => false
  author_institution := fun _ => false
  venue_link := fun _ => false

/-- The mutable state of a `Database` object: the store and the identity
cache `self.cache` (whose stored values may be `None`, as for
`AuthorQuery`). -/
structure St where
  db : DB
  cache : HID → Option (Option SRow)

def emptySt : St := ⟨emptyDB, fun _ => none⟩

/-- Observable events, in program order: one per SQL write, one `ret` per
`acquire` return, transaction begin/commit, history append. -/
inductive Ev where
  | wPaper (k : HID)
  | wAuthor (k : HID)
  | wInst (k : HID)
  | wRelease (k : HID) (venue_id : HID)
  | wTopic (k : HID)
  | wVenue (k : HID)
  | wPaperAuthor (p a : HID) (pos : Nat)
  | wPAI (p a i : HID)
  | wPaperRelease (p r : HID)
  | wPaperTopic (p t : HID)
  | wPaperLink (p : HID) (ty lk : String)
  | wPaperScraper (p : HID) (sc : String)
  | wAuthorLink (a : HID) (ty lk : String)
  | wAuthorAlias (a : HID) (al : String)
  | wAuthorInst (a i : HID) (role : String)
  | wVenueLink (v : HID) (ty lk : String)
  | ret (r : Option SRow)
  | txBegin
  | txCommit
  | hist (x : Entity)
  deriving DecidableEq, Repr

/-- Result of one `acquire` call: new state, returned row, events. -/
structure AcqRes where
  s : St
  row : Option SRow
  evs : List Ev

/-- `self.cache[hid] = self._acquire(x); return self.cache[hid]`. -/
def runAndCache (hid : HID) (body : St → AcqRes) (s : St) : AcqRes :=
  let res := body s
  ⟨⟨res.s.db, mupd res.s.cache hid res.row⟩, res.row,
    res.evs ++ [Ev.ret res.row]⟩

/-- `Database.acquire`: `if not (hid := x.hashid()) or hid not in
self.cache: self.cache[hid] = self._acquire(x); return self.cache[hid]`. -/
def withCache (hid : HID) (body : St → AcqRes) (s : St) : AcqRes :=
  if truthy hid then
    match s.cache hid with
    | some r => ⟨s, r, [Ev.ret r]⟩
    | none => runAndCache hid body s
  else runAndCache hid body s


/-! ### `Database._acquire`, one function per `match` branch

Each function is `acquire` restricted to one entity kind: the cache check,
then the branch body of `_acquire`, in source order.  The `Topic`,
`Institution` and `Venue` branches only merge their own rows (plus venue
links); `Release` acquires its venue first and then merges the release row
carrying `vv.venue_id`; `Author` merges the author row and then acquires
an `AuthorQuery`; `Paper` merges the paper row first and then processes
authors (with positions and affiliations), releases, topics, links and
scrapers. -/

def topicBody (t : TopicT) (s : St) : AcqRes :=
  let tid : HID := some (topicHid t)
  ⟨⟨{ s.db with topics := mupd s.db.topics tid t.name }, s.cache⟩,
    some (SRow.topic tid t.name), [Ev.wTopic tid]⟩

def acquireTopic (t : TopicT) (s : St) : AcqRes :=
  withCache (some (topicHid t)) (topicBody t) s

def instBody (i : InstitutionT) (s : St) : AcqRes :=
  let iid : HID := some (instHid i)
  ⟨⟨{ s.db with
        institutions := mupd s.db.institutions iid (i.name, i.category) },
      s.cache⟩,
    some (SRow.institution iid i.name i.category), [Ev.wInst iid]⟩

def acquireInstitution (i : InstitutionT) (s : St) : AcqRes :=
  withCache (some (instHid i)) (instBody i) s

def vLinkStep (vid : HID) (st : St) (l : LinkT) : St :=
  ⟨{ st.db with
      venue_link := sins st.db.venue_link (vid, l.type, l.link) },
    st.cache⟩

def venueBody (v : VenueT) (s : St) : AcqRes :=
  let vid : HID := some (venueHid v)
  let s1 : St :=
    ⟨{ s.db with venues := mupd s.db.venues vid (v.type, v.name) },
      s.cache⟩
  let s2 : St := v.links.foldl (vLinkStep vid) s1
  ⟨s2, some (SRow.venue vid v.type v.name),
    Ev.wVenue vid ::
      v.links.map (fun l => Ev.wVenueLink vid l.type l.link)⟩

def acquireVenue (v : VenueT) (s : St) : AcqRes :=
  withCache (some (venueHid v)) (venueBody v) s

def releaseBody (r : ReleaseT) (s : St) : AcqRes :=
  let vres := acquireVenue r.venue s
  let rid : HID := some (releaseHid r)
  let vv := rowVenueId vres.row
  ⟨⟨{ vres.s.db with
        releases := mupd vres.s.db.releases rid
          (r.date, r.date_precision, r.volume, r.publisher, vv) },
      vres.s.cache⟩,
    some (SRow.release rid r.date r.date_precision r.volume
      r.publisher vv),
    vres.evs ++ [Ev.wRelease rid vv]⟩

def acquireRelease (r : ReleaseT) (s : St) : AcqRes :=
  withCache (some (releaseHid r)) (releaseBody r) s

def aqLinkStep (aid : HID) (st : St) (l : LinkT) : St :=
  ⟨{ st.db with
      author_link := sins st.db.author_link (aid, l.type, l.link) },
    st.cache⟩

def aqAliasStep (aid : HID) (st : St) (al : String) : St :=
  ⟨{ st.db with author_alias := sins st.db.author_alias (aid, al) },
    st.cache⟩

def aqRoleStep (aid : HID) (acc : St × List Ev) (role : RoleT) :
    St × List Ev :=
  let ires := acquireInstitution role.institution acc.1
  (⟨{ ires.s.db with
        author_institution := sins ires.s.db.author_institution
          (aid, rowInstId ires.row, role.role, role.start_date,
            role.end_date) },
      ires.s.cache⟩,
    acc.2 ++ ires.evs ++
      [Ev.wAuthorInst aid (rowInstId ires.row) role.role])

/-- The `AuthorQuery` branch body: author links, aliases, then roles. -/
def aqBody (aid : HID) (a : AuthorT) (s : St) : AcqRes :=
  let s1 : St := a.links.foldl (aqLinkStep aid) s
  let s2 : St := a.aliases.foldl (aqAliasStep aid) s1
  let s3 := a.roles.foldl (aqRoleStep aid) (s2, [])
  ⟨s3.1, none,
    a.links.map (fun l => Ev.wAuthorLink aid l.type l.link) ++
      a.aliases.map (fun al => Ev.wAuthorAlias aid al) ++ s3.2⟩

def acquireAuthorQuery (aid : HID) (a : AuthorT) (s : St) : AcqRes :=
  withCache none (aqBody aid a) s

def authorBody (a : AuthorT) (s : St) : AcqRes :=
  let aid : HID := some (authorHid a)
  let s1 : St :=
    ⟨{ s.db with authors := mupd s.db.authors aid a.name }, s.cache⟩
  let qres := acquireAuthorQuery aid a s1
  ⟨qres.s, some (SRow.author aid a.name),
    Ev.wAuthor aid :: qres.evs⟩

def acquireAuthor (a : AuthorT) (s : St) : AcqRes :=
  withCache (some (authorHid a)) (authorBody a) s

def pAffStep (pid aaid : HID) (acc2 : St × List Ev) (aff : InstitutionT) :
    St × List Ev :=
  let ires := acquireInstitution aff acc2.1
  (⟨{ ires.s.db with
        paper_author_institution :=
          sins ires.s.db.paper_author_institution
            (pid, aaid, rowInstId ires.row) },
      ires.s.cache⟩,
    acc2.2 ++ ires.evs ++ [Ev.wPAI pid aaid (rowInstId ires.row)])

def pAuthorStep (pid : HID) (acc : St × List Ev × Nat) (author : AuthorT) :
    St × List Ev × Nat :=
  let ares := acquireAuthor author acc.1
  let aaid := rowAuthorId ares.row
  let st1 : St :=
    ⟨{ ares.s.db with
        paper_author := mupd ares.s.db.paper_author (pid, aaid)
          acc.2.2 },
      ares.s.cache⟩
  let affres := author.affiliations.foldl (pAffStep pid aaid) (st1, [])
  (affres.1,
    acc.2.1 ++ ares.evs ++ [Ev.wPaperAuthor pid aaid acc.2.2]
      ++ affres.2,
    acc.2.2 + 1)

def pRelStep (pid : HID) (acc : St × List Ev) (rel : ReleaseT) :
    St × List Ev :=
  let rres := acquireRelease rel acc.1
  (⟨{ rres.s.db with
        paper_release := sins rres.s.db.paper_release
          (pid, rowReleaseId rres.row) },
      rres.s.cache⟩,
    acc.2 ++ rres.evs ++
      [Ev.wPaperRelease pid (rowReleaseId rres.row)])

def pTopStep (pid : HID) (acc : St × List Ev) (t : TopicT) :
    St × List Ev :=
  let tres := acquireTopic t acc.1
  (⟨{ tres.s.db with
        paper_topic := sins tres.s.db.paper_topic
          (pid, rowTopicId tres.row) },
      tres.s.cache⟩,
    acc.2 ++ tres.evs ++
      [Ev.wPaperTopic pid (rowTopicId tres.row)])

def pLinkStep (pid : HID) (st : St) (l : LinkT) : St :=
  ⟨{ st.db with
      paper_link := sins st.db.paper_link (pid, l.type, l.link) },
    st.cache⟩

def pScrStep (pid : HID) (st : St) (sc : String) : St :=
  ⟨{ st.db with paper_scraper := sins st.db.paper_scraper (pid, sc) },
    st.cache⟩

def paperBody (p : PaperT) (s : St) : AcqRes :=
  let pid : HID := some (paperHid p)
  let pval := (p.title, p.abstract, p.citation_count)
  let s1 : St :=
    ⟨{ s.db with papers := mupd s.db.papers pid pval }, s.cache⟩
  let sA := p.authors.foldl (pAuthorStep pid) (s1, [], 0)
  let sR := p.releases.foldl (pRelStep pid) (sA.1, [])
  let sT := p.topics.foldl (pTopStep pid) (sR.1, [])
  let sL : St := p.links.foldl (pLinkStep pid) sT.1
  let sS : St := p.scrapers.foldl (pScrStep pid) sL
  ⟨sS, some (SRow.paper pid p.title p.abstract p.citation_count),
    Ev.wPaper pid :: (sA.2.1 ++ sR.2 ++ sT.2 ++
      p.links.map (fun l => Ev.wPaperLink pid l.type l.link) ++
      p.scrapers.map (fun sc => Ev.wPaperScraper pid sc))⟩

def acquirePaper (p : PaperT) (s : St) : AcqRes :=
  withCache (some (paperHid p)) (paperBody p) s

/-- `Database.acquire` / `_acquire`, dispatched over the entity kind. -/
def acquire : Entity → St → AcqRes
  | Entity.paper p, s => acquirePaper p s
  | Entity.author a, s => acquireAuthor a s
  | Entity.institution i, s => acquireInstitution i s
  | Entity.release r, s => acquireRelease r s
  | Entity.topic t, s => acquireTopic t s
  | Entity.venue v, s => acquireVenue v s
  | Entity.authorQuery aid a, s => acquireAuthorQuery aid a s


/-! ### Cache and upsert lemmas -/

theorem mupd_eq {κ ν : Type} [DecidableEq κ] (m : κ → Option ν) (k : κ)
    (v : ν) : mupd m k v k = some v := by simp [mupd]

theorem mupd_ne {κ ν : Type} [DecidableEq κ] (m : κ → Option ν) (k k2 : κ)
    (v : ν) (h : k2 ≠ k) : mupd m k v k2 = m k2 := by simp [mupd, h]

theorem mupd_mupd {κ ν : Type} [DecidableEq κ] (m : κ → Option ν) (k : κ)
    (v : ν) : mupd (mupd m k v) k v = mupd m k v := by
  funext k2
  by_cases h : k2 = k
  · subst h
    simp [mupd]
  · simp [mupd, h]

theorem mupd_of_eq {κ ν : Type} [DecidableEq κ] (m : κ → Option ν) (k : κ)
    (v : ν) (h : m k = some v) : mupd m k v = m := by
  funext k2
  by_cases h2 : k2 = k
  · subst h2
    simp [mupd, h]
  · simp [mupd, h2]

theorem sins_mem {κ : Type} [DecidableEq κ] (s : κ → Bool) (k : κ) :
    sins s k k = true := by simp [sins]

theorem sins_preserve {κ : Type} [DecidableEq κ] (s : κ → Bool) (k k2 : κ)
    (h : s k2 = true) : sins s k k2 = true := by
  by_cases h2 : k2 = k
  · subst h2
    simp [sins]
  · simp [sins, h2, h]

theorem sins_of_mem {κ : Type} [DecidableEq κ] (s : κ → Bool) (k : κ)
    (h : s k = true) : sins s k = s := by
  funext k2
  by_cases h2 : k2 = k
  · subst h2
    simp [sins, h]
  · simp [sins, h2]

/-- The six addressed kinds have nonempty, hence truthy, hashids. -/
theorem truthy_entityHid (x : Entity) (h : Addr)
    (he : entityHid x = some h) : truthy (some h) = true := by
  cases x with
  | paper p =>
      rw [← Option.some.inj he, paperHid]
      rfl
  | author a =>
      rw [← Option.some.inj he, authorHid]
      rfl
  | institution i =>
      rw [← Option.some.inj he, instHid]
      rfl
  | release r =>
      rw [← Option.some.inj he, releaseHid]
      rfl
  | topic t =>
      rw [← Option.some.inj he, topicHid]
      rfl
  | venue v =>
      rw [← Option.some.inj he, venueHid]
      rfl
  | authorQuery aid a => cases he

theorem withCache_cached (hid : HID) (body : St → AcqRes) (s : St)
    (r : Option SRow) (ht : truthy hid = true) (hc : s.cache hid = some r) :
    withCache hid body s = ⟨s, r, [Ev.ret r]⟩ := by
  rw [withCache, if_pos ht, hc]

theorem withCache_uncached (hid : HID) (body : St → AcqRes) (s : St)
    (ht : truthy hid = true) (hc : s.cache hid = none) :
    withCache hid body s = runAndCache hid body s := by
  rw [withCache, if_pos ht, hc]

theorem withCache_falsy (hid : HID) (body : St → AcqRes) (s : St)
    (ht : truthy hid = false) :
    withCache hid body s = runAndCache hid body s := by
  rw [withCache, if_neg]
  rw [ht]
  simp

/-- C9 part (a), at the level of `acquire`: a truthy, cached address is
answered from the cache — no store write, no cache write, no recursion,
just the cached row. -/
theorem acquire_cached (x : Entity) (h : Addr) (r : Option SRow) (s : St)
    (he : entityHid x = some h) (hc : s.cache (some h) = some r) :
    acquire x s = ⟨s, r, [Ev.ret r]⟩ := by
  have ht : truthy (some h) = true := truthy_entityHid x h he
  cases x with
  | paper p =>
      rw [show h = paperHid p from (Option.some.inj he).symm] at hc ht
      exact withCache_cached _ _ s r ht hc
  | author a =>
      rw [show h = authorHid a from (Option.some.inj he).symm] at hc ht
      exact withCache_cached _ _ s r ht hc
  | institution i =>
      rw [show h = instHid i from (Option.some.inj he).symm] at hc ht
      exact withCache_cached _ _ s r ht hc
  | release rl =>
      rw [show h = releaseHid rl from (Option.some.inj he).symm] at hc ht
      exact withCache_cached _ _ s r ht hc
  | topic t =>
      rw [show h = topicHid t from (Option.some.inj he).symm] at hc ht
      exact withCache_cached _ _ s r ht hc
  | venue v =>
      rw [show h = venueHid v from (Option.some.inj he).symm] at hc ht
      exact withCache_cached _ _ s r ht hc
  | authorQuery aid a => cases he

theorem withCache_caches (hid : HID) (body : St → AcqRes) (s : St)
    (ht : truthy hid = true) :
    (withCache hid body s).s.cache hid = some ((withCache hid body s).row) := by
  rw [withCache, if_pos ht]
  rcases hc : s.cache hid with _ | r
  · show (runAndCache hid body s).s.cache hid = _
    rw [runAndCache]
    exact mupd_eq _ _ _
  · exact hc

/-- After acquiring an addressed entity, its hashid is cached and maps to
the returned row. -/
theorem acquire_caches (x : Entity) (h : Addr) (s : St)
    (he : entityHid x = some h) :
    (acquire x s).s.cache (some h) = some ((acquire x s).row) := by
  have ht : truthy (some h) = true := truthy_entityHid x h he
  cases x with
  | paper p =>
      rw [show h = paperHid p from (Option.some.inj he).symm] at ht ⊢
      exact withCache_caches _ _ s ht
  | author a =>
      rw [show h = authorHid a from (Option.some.inj he).symm] at ht ⊢
      exact withCache_caches _ _ s ht
  | institution i =>
      rw [show h = instHid i from (Option.some.inj he).symm] at ht ⊢
      exact withCache_caches _ _ s ht
  | release rl =>
      rw [show h = releaseHid rl from (Option.some.inj he).symm] at ht ⊢
      exact withCache_caches _ _ s ht
  | topic t =>
      rw [show h = topicHid t from (Option.some.inj he).symm] at ht ⊢
      exact withCache_caches _ _ s ht
  | venue v =>
      rw [show h = venueHid v from (Option.some.inj he).symm] at ht ⊢
      exact withCache_caches _ _ s ht
  | authorQuery aid a => cases he


/-! ### Idempotence machinery: a second acquisition changes nothing -/

theorem runAndCache_s (hid : HID) (body : St → AcqRes) (s : St) :
    (runAndCache hid body s).s
      = ⟨(body s).s.db, mupd (body s).s.cache hid (body s).row⟩ := rfl

theorem runAndCache_row (hid : HID) (body : St → AcqRes) (s : St) :
    (runAndCache hid body s).row = (body s).row := rfl

/-- What the `AuthorQuery` branch may grow and must never lose: cache
entries, author links, aliases and roles. -/
def StExtAQ (s t : St) : Prop :=
  (∀ k v, s.cache k = some v → t.cache k = some v) ∧
  (∀ k, s.db.author_link k = true → t.db.author_link k = true) ∧
  (∀ k, s.db.author_alias k = true → t.db.author_alias k = true) ∧
  (∀ k, s.db.author_institution k = true → t.db.author_institution k = true)

theorem stExtAQ_refl (s : St) : StExtAQ s s :=
  ⟨fun _ _ h => h, fun _ h => h, fun _ h => h, fun _ h => h⟩

theorem stExtAQ_trans {s t u : St} (h1 : StExtAQ s t) (h2 : StExtAQ t u) :
    StExtAQ s u :=
  ⟨fun k v h => h2.1 k v (h1.1 k v h),
    fun k h => h2.2.1 k (h1.2.1 k h),
    fun k h => h2.2.2.1 k (h1.2.2.1 k h),
    fun k h => h2.2.2.2 k (h1.2.2.2 k h)⟩

theorem truthy_instHid (i : InstitutionT) :
    truthy (some (instHid i)) = true := rfl

theorem acquireInstitution_ext (i : InstitutionT) (st : St) :
    StExtAQ st (acquireInstitution i st).s := by
  rw [acquireInstitution]
  rcases hc : st.cache (some (instHid i)) with _ | r
  · rw [withCache_uncached _ _ _ (truthy_instHid i) hc, runAndCache_s]
    refine ⟨?_, fun _ h => h, fun _ h => h, fun _ h => h⟩
    intro k v hkv
    by_cases hk : k = some (instHid i)
    · rw [hk, hc] at hkv
      cases hkv
    · show mupd _ _ _ k = some v
      rw [mupd_ne _ _ _ _ hk]
      exact hkv
  · rw [withCache_cached _ _ _ r (truthy_instHid i) hc]
    exact stExtAQ_refl st

theorem aqLinkStep_ext (aid : HID) (st : St) (l : LinkT) :
    StExtAQ st (aqLinkStep aid st l) :=
  ⟨fun _ _ h => h, fun _ h => sins_preserve _ _ _ h, fun _ h => h,
    fun _ h => h⟩

theorem aqAliasStep_ext (aid : HID) (st : St) (al : String) :
    StExtAQ st (aqAliasStep aid st al) :=
  ⟨fun _ _ h => h, fun _ h => h, fun _ h => sins_preserve _ _ _ h,
    fun _ h => h⟩

theorem aqRoleStep_ext (aid : HID) (acc : St × List Ev) (role : RoleT) :
    StExtAQ acc.1 (aqRoleStep aid acc role).1 := by
  refine stExtAQ_trans (acquireInstitution_ext role.institution acc.1) ?_
  exact ⟨fun _ _ h => h, fun _ h => h, fun _ h => h,
    fun _ h => sins_preserve _ _ _ h⟩

theorem aqLinks_ext (aid : HID) (ls : List LinkT) :
    ∀ st : St, StExtAQ st (ls.foldl (aqLinkStep aid) st) := by
  induction ls with
  | nil => intro st; exact stExtAQ_refl st
  | cons l rest ih =>
      intro st
      exact stExtAQ_trans (aqLinkStep_ext aid st l) (ih (aqLinkStep aid st l))

theorem aqAliases_ext (aid : HID) (ls : List String) :
    ∀ st : St, StExtAQ st (ls.foldl (aqAliasStep aid) st) := by
  induction ls with
  | nil => intro st; exact stExtAQ_refl st
  | cons al rest ih =>
      intro st
      exact stExtAQ_trans (aqAliasStep_ext aid st al)
        (ih (aqAliasStep aid st al))

theorem aqRoles_ext (aid : HID) (roles : List RoleT) :
    ∀ acc : St × List Ev, StExtAQ acc.1 (roles.foldl (aqRoleStep aid) acc).1 := by
  induction roles with
  | nil => intro acc; exact stExtAQ_refl acc.1
  | cons role rest ih =>
      intro acc
      exact stExtAQ_trans (aqRoleStep_ext aid acc role)
        (ih (aqRoleStep aid acc role))

theorem aqLinks_est (aid : HID) (ls : List LinkT) :
    ∀ st : St, ∀ l ∈ ls,
      (ls.foldl (aqLinkStep aid) st).db.author_link
        (aid, l.type, l.link) = true := by
  induction ls with
  | nil =>
      intro st l hl
      cases hl
  | cons l2 rest ih =>
      intro st l hl
      rcases List.mem_cons.mp hl with he | hl
      · have h1 : (aqLinkStep aid st l2).db.author_link
            (aid, l2.type, l2.link) = true := sins_mem _ _
        have h2 := (aqLinks_ext aid rest (aqLinkStep aid st l2)).2.1 _ h1
        rw [he]
        exact h2
      · exact ih (aqLinkStep aid st l2) l hl

theorem aqAliases_est (aid : HID) (ls : List String) :
    ∀ st : St, ∀ al ∈ ls,
      (ls.foldl (aqAliasStep aid) st).db.author_alias (aid, al) = true := by
  induction ls with
  | nil =>
      intro st al hl
      cases hl
  | cons al2 rest ih =>
      intro st al hl
      rcases List.mem_cons.mp hl with he | hl
      · have h1 : (aqAliasStep aid st al2).db.author_alias
            (aid, al2) = true := sins_mem _ _
        have h2 := (aqAliases_ext aid rest (aqAliasStep aid st al2)).2.2.1 _ h1
        rw [he]
        exact h2
      · exact ih (aqAliasStep aid st al2) al hl

theorem aqRoles_est (aid : HID) (roles : List RoleT) :
    ∀ acc : St × List Ev, ∀ role ∈ roles, ∃ rr,
      ((roles.foldl (aqRoleStep aid) acc).1).cache
        (some (instHid role.institution)) = some rr ∧
      ((roles.foldl (aqRoleStep aid) acc).1).db.author_institution
        (aid, rowInstId rr, role.role, role.start_date, role.end_date)
        = true := by
  induction roles with
  | nil =>
      intro acc role hmem
      cases hmem
  | cons role2 rest ih =>
      intro acc role hmem
      rcases List.mem_cons.mp hmem with he | hmem
      · have hcache : (aqRoleStep aid acc role2).1.cache
            (some (instHid role2.institution))
            = some ((acquireInstitution role2.institution acc.1).row) :=
          acquire_caches (Entity.institution role2.institution) _ acc.1 rfl
        have htuple : (aqRoleStep aid acc role2).1.db.author_institution
            (aid, rowInstId (acquireInstitution role2.institution acc.1).row,
              role2.role, role2.start_date, role2.end_date) = true :=
          sins_mem _ _
        have hext := aqRoles_ext aid rest (aqRoleStep aid acc role2)
        rw [he]
        exact ⟨(acquireInstitution role2.institution acc.1).row,
          hext.1 _ _ hcache, hext.2.2.2 _ htuple⟩
      · exact ih (aqRoleStep aid acc role2) role hmem

theorem aqLinks_id (aid : HID) (ls : List LinkT) :
    ∀ st : St,
      (∀ l ∈ ls, st.db.author_link (aid, l.type, l.link) = true) →
      ls.foldl (aqLinkStep aid) st = st := by
  induction ls with
  | nil =>
      intro st _
      rfl
  | cons l2 rest ih =>
      intro st h
      have hstep : aqLinkStep aid st l2 = st := by
        rw [aqLinkStep, sins_of_mem _ _ (h l2 (List.mem_cons_self _ _))]
      show rest.foldl (aqLinkStep aid) (aqLinkStep aid st l2) = st
      rw [hstep]
      exact ih st (fun l hl => h l (List.mem_cons_of_mem _ hl))

theorem aqAliases_id (aid : HID) (ls : List String) :
    ∀ st : St,
      (∀ al ∈ ls, st.db.author_alias (aid, al) = true) →
      ls.foldl (aqAliasStep aid) st = st := by
  induction ls with
  | nil =>
      intro st _
      rfl
  | cons al2 rest ih =>
      intro st h
      have hstep : aqAliasStep aid st al2 = st := by
        rw [aqAliasStep, sins_of_mem _ _ (h al2 (List.mem_cons_self _ _))]
      show rest.foldl (aqAliasStep aid) (aqAliasStep aid st al2) = st
      rw [hstep]
      exact ih st (fun al hl => h al (List.mem_cons_of_mem _ hl))

theorem aqRoleStep_eq (aid : HID) (st : St) (evs : List Ev)
    (role : RoleT) :
    aqRoleStep aid (st, evs) role
      = (⟨{ (acquireInstitution role.institution st).s.db with
              author_institution := sins
                (acquireInstitution role.institution st).s.db.author_institution
                (aid, rowInstId (acquireInstitution role.institution st).row,
                  role.role, role.start_date, role.end_date) },
            (acquireInstitution role.institution st).s.cache⟩,
          evs ++ (acquireInstitution role.institution st).evs ++
            [Ev.wAuthorInst aid
              (rowInstId (acquireInstitution role.institution st).row)
              role.role]) := rfl

theorem aqRoles_id (aid : HID) (roles : List RoleT) :
    ∀ (st : St) (evs : List Ev),
      (∀ role ∈ roles, ∃ rr,
        st.cache (some (instHid role.institution)) = some rr ∧
        st.db.author_institution (aid, rowInstId rr, role.role,
          role.start_date, role.end_date) = true) →
      (roles.foldl (aqRoleStep aid) (st, evs)).1 = st := by
  induction roles with
  | nil =>
      intro st evs _
      rfl
  | cons role2 rest ih =>
      intro st evs h
      obtain ⟨rr, hc, ht⟩ := h role2 (List.mem_cons_self _ _)
      have hires : acquireInstitution role2.institution st
          = ⟨st, rr, [Ev.ret rr]⟩ :=
        acquire_cached (Entity.institution role2.institution)
          (instHid role2.institution) rr st rfl hc
      rcases hpair : aqRoleStep aid (st, evs) role2 with ⟨pst, pevs⟩
      have hstep1 : pst = st := by
        have h1 : (aqRoleStep aid (st, evs) role2).1 = st := by
          rw [aqRoleStep_eq, hires]
          show (⟨{ st.db with
                  author_institution := sins st.db.author_institution
                    (aid, rowInstId rr, role2.role, role2.start_date,
                      role2.end_date) },
                st.cache⟩ : St) = st
          rw [sins_of_mem _ _ ht]
        rw [hpair] at h1
        exact h1
      show (rest.foldl (aqRoleStep aid) (aqRoleStep aid (st, evs) role2)).1
        = st
      rw [hpair, hstep1]
      exact ih st pevs (fun role hl => h role (List.mem_cons_of_mem _ hl))

theorem aqBody_row (aid : HID) (a : AuthorT) (s : St) :
    (aqBody aid a s).row = none := rfl

theorem aqBody_state (aid : HID) (a : AuthorT) (s : St) :
    (aqBody aid a s).s
      = (a.roles.foldl (aqRoleStep aid)
          (a.aliases.foldl (aqAliasStep aid)
            (a.links.foldl (aqLinkStep aid) s), [])).1 := rfl

theorem acquireAQ_state (aid : HID) (a : AuthorT) (s : St) :
    (acquireAuthorQuery aid a s).s
      = ⟨(aqBody aid a s).s.db, mupd (aqBody aid a s).s.cache none none⟩ := by
  rw [acquireAuthorQuery, withCache_falsy none (aqBody aid a) s rfl,
    runAndCache_s, aqBody_row]

theorem acquireAQ_row (aid : HID) (a : AuthorT) (s : St) :
    (acquireAuthorQuery aid a s).row = none := by
  rw [acquireAuthorQuery, withCache_falsy none (aqBody aid a) s rfl,
    runAndCache_row, aqBody_row]

/-- On a state that already contains everything the `AuthorQuery` branch
would write, re-running it is a strict no-op on store and cache. -/
theorem acquireAQ_fix (aid : HID) (a : AuthorT) (s1 : St)
    (c1 : ∀ l ∈ a.links, s1.db.author_link (aid, l.type, l.link) = true)
    (c2 : ∀ al ∈ a.aliases, s1.db.author_alias (aid, al) = true)
    (c3 : ∀ role ∈ a.roles, ∃ rr,
      s1.cache (some (instHid role.institution)) = some rr ∧
      s1.db.author_institution (aid, rowInstId rr, role.role,
        role.start_date, role.end_date) = true)
    (cnone : s1.cache none = some none) :
    (acquireAuthorQuery aid a s1).s = s1 ∧
    (acquireAuthorQuery aid a s1).row = none := by
  have hlinks : a.links.foldl (aqLinkStep aid) s1 = s1 :=
    aqLinks_id aid a.links s1 c1
  have haliases : a.aliases.foldl (aqAliasStep aid) s1 = s1 :=
    aqAliases_id aid a.aliases s1 c2
  have hroles : (a.roles.foldl (aqRoleStep aid) (s1, [])).1 = s1 :=
    aqRoles_id aid a.roles s1 [] c3
  have hbody : (aqBody aid a s1).s = s1 := by
    rw [aqBody_state, hlinks, haliases, hroles]
  refine ⟨?_, acquireAQ_row aid a s1⟩
  rw [acquireAQ_state, hbody, mupd_of_eq _ _ _ cnone]

/-- The facts established by one run of the `AuthorQuery` branch. -/
theorem aqBody_facts (aid : HID) (a : AuthorT) (s : St) :
    (∀ l ∈ a.links,
      (aqBody aid a s).s.db.author_link (aid, l.type, l.link) = true) ∧
    (∀ al ∈ a.aliases,
      (aqBody aid a s).s.db.author_alias (aid, al) = true) ∧
    (∀ role ∈ a.roles, ∃ rr,
      (aqBody aid a s).s.cache (some (instHid role.institution)) = some rr ∧
      (aqBody aid a s).s.db.author_institution (aid, rowInstId rr,
        role.role, role.start_date, role.end_date) = true) := by
  rw [aqBody_state]
  refine ⟨?_, ?_, ?_⟩
  · intro l hl
    have h1 := aqLinks_est aid a.links s l hl
    have h2 := (aqAliases_ext aid a.aliases
      (a.links.foldl (aqLinkStep aid) s)).2.1 _ h1
    exact (aqRoles_ext aid a.roles _).2.1 _ h2
  · intro al hl
    have h1 := aqAliases_est aid a.aliases
      (a.links.foldl (aqLinkStep aid) s) al hl
    exact (aqRoles_ext aid a.roles _).2.2.1 _ h1
  · intro role hl
    exact aqRoles_est aid a.roles _ role hl

/-- A second run of the `AuthorQuery` branch on the state left by a first
run changes neither the store nor the cache. -/
theorem acquireAQ_idem (aid : HID) (a : AuthorT) (s : St) :
    (acquireAuthorQuery aid a ((acquireAuthorQuery aid a s).s)).s
      = (acquireAuthorQuery aid a s).s ∧
    (acquireAuthorQuery aid a ((acquireAuthorQuery aid a s).s)).row
      = (acquireAuthorQuery aid a s).row := by
  obtain ⟨f1, f2, f3⟩ := aqBody_facts aid a s
  have hs1 := acquireAQ_state aid a s
  have hfix := acquireAQ_fix aid a ((acquireAuthorQuery aid a s).s) ?_ ?_ ?_ ?_
  · exact ⟨hfix.1, by rw [hfix.2, acquireAQ_row]⟩
  · intro l hl
    rw [hs1]
    exact f1 l hl
  · intro al hl
    rw [hs1]
    exact f2 al hl
  · intro role hl
    obtain ⟨rr, hc, ht⟩ := f3 role hl
    refine ⟨rr, ?_, ?_⟩
    · rw [hs1]
      show mupd (aqBody aid a s).s.cache none none
        (some (instHid role.institution)) = some rr
      rw [mupd_ne (aqBody aid a s).s.cache none
        (some (instHid role.institution)) none (by simp)]
      exact hc
    · rw [hs1]
      exact ht
  · rw [hs1]
    show mupd (aqBody aid a s).s.cache none none none = some none
    exact mupd_eq _ _ _


/-- C1: acquiring the same entity tree twice yields the same persisted
row set and association-edge set as acquiring it once — the second
acquisition leaves the database (and the whole cache state, and the
returned row) exactly as the first left them. -/
theorem acquire_idempotent (x : Entity) (s : St) :
    (acquire x ((acquire x s).s)).s.db = (acquire x s).s.db ∧
    (acquire x ((acquire x s).s)).s = (acquire x s).s ∧
    (acquire x ((acquire x s).s)).row = (acquire x s).row := by
  have hmain : (acquire x ((acquire x s).s)).s = (acquire x s).s ∧
      (acquire x ((acquire x s).s)).row = (acquire x s).row := by
    rcases hx : entityHid x with _ | h
    · cases x with
      | paper p => exact absurd hx (by simp [entityHid])
      | author a => exact absurd hx (by simp [entityHid])
      | institution i => exact absurd hx (by simp [entityHid])
      | release r => exact absurd hx (by simp [entityHid])
      | topic t => exact absurd hx (by simp [entityHid])
      | venue v => exact absurd hx (by simp [entityHid])
      | authorQuery aid a => exact acquireAQ_idem aid a s
    · have hc := acquire_caches x h s hx
      have h2 := acquire_cached x h ((acquire x s).row) ((acquire x s).s)
        hx hc
      rw [h2]
      exact ⟨rfl, rfl⟩
  exact ⟨congrArg St.db hmain.1, hmain.1, hmain.2⟩

/-- C9: with a truthy (non-`None`) address already resolved in the cache,
`acquire` returns the cached row immediately and runs no persistence
logic (the state is untouched); with a `None` address (`AuthorQuery`),
the body is always re-executed on the incoming state — the result is the
body's, never a row served from the cache entry at `None`. -/
theorem acquire_cache_semantics :
    (∀ (x : Entity) (h : Addr) (r : Option SRow) (s : St),
      entityHid x = some h → s.cache (some h) = some r →
      acquire x s = ⟨s, r, [Ev.ret r]⟩) ∧
    (∀ (aid : HID) (a : AuthorT) (s : St),
      acquire (Entity.authorQuery aid a) s
        = ⟨⟨(aqBody aid a s).s.db, mupd (aqBody aid a s).s.cache none none⟩,
            none, (aqBody aid a s).evs ++ [Ev.ret none]⟩) := by
  refine ⟨acquire_cached, ?_⟩
  intro aid a s
  show acquireAuthorQuery aid a s = _
  rw [acquireAuthorQuery, withCache_falsy none (aqBody aid a) s rfl]
  show (⟨⟨(aqBody aid a s).s.db,
      mupd (aqBody aid a s).s.cache none (aqBody aid a s).row⟩,
    (aqBody aid a s).row,
    (aqBody aid a s).evs ++ [Ev.ret (aqBody aid a s).row]⟩ : AcqRes) = _
  rw [aqBody_row]

/-- C9 witness: a topic whose address is pre-resolved in the cache is
answered from the cache with no state change, and an `AuthorQuery`
re-executes its body even though the cache holds an entry at `None`. -/
theorem acquire_cache_semantics_witness :
    acquire (Entity.topic ⟨"T"⟩)
        ⟨emptyDB, mupd (mupd emptySt.cache none
            (some (SRow.topic (some (topicHid ⟨"T"⟩)) "stale")))
          (some (topicHid ⟨"T"⟩))
          (some (SRow.topic (some (topicHid ⟨"T"⟩)) "T"))⟩
      = ⟨⟨emptyDB, mupd (mupd emptySt.cache none
            (some (SRow.topic (some (topicHid ⟨"T"⟩)) "stale")))
          (some (topicHid ⟨"T"⟩))
          (some (SRow.topic (some (topicHid ⟨"T"⟩)) "T"))⟩,
          some (SRow.topic (some (topicHid ⟨"T"⟩)) "T"),
          [Ev.ret (some (SRow.topic (some (topicHid ⟨"T"⟩)) "T"))]⟩ ∧
    (acquire (Entity.authorQuery (some [2]) ⟨"A", [], [], [], []⟩)
        ⟨emptyDB, mupd emptySt.cache none
          (some (SRow.topic (some (topicHid ⟨"T"⟩)) "stale"))⟩).row
      = none := by
  refine ⟨acquire_cache_semantics.1 (Entity.topic ⟨"T"⟩)
    (topicHid ⟨"T"⟩)
    (some (SRow.topic (some (topicHid ⟨"T"⟩)) "T")) _ rfl (by decide), ?_⟩
  rw [acquire_cache_semantics.2 (some [2]) ⟨"A", [], [], [], []⟩ _]


/-! ### Monotonicity: `acquire` never discards cache entries or rows -/

/-- State growth across an `acquire`: truthy cache entries and row-table
rows are never removed (association sets only grow, but only the row
tables matter for dangling references). -/
structure Grows (s t : St) : Prop where
  cache : ∀ h r, s.cache (some h) = some r → t.cache (some h) = some r
  papers : ∀ k, (s.db.papers k).isSome = true → (t.db.papers k).isSome = true
  authors : ∀ k,
    (s.db.authors k).isSome = true → (t.db.authors k).isSome = true
  institutions : ∀ k,
    (s.db.institutions k).isSome = true → (t.db.institutions k).isSome = true
  releases : ∀ k,
    (s.db.releases k).isSome = true → (t.db.releases k).isSome = true
  topics : ∀ k, (s.db.topics k).isSome = true → (t.db.topics k).isSome = true
  venues : ∀ k, (s.db.venues k).isSome = true → (t.db.venues k).isSome = true

theorem grows_refl (s : St) : Grows s s :=
  ⟨fun _ _ h => h, fun _ h => h, fun _ h => h, fun _ h => h, fun _ h => h,
    fun _ h => h, fun _ h => h⟩

theorem grows_trans {s t u : St} (h1 : Grows s t) (h2 : Grows t u) :
    Grows s u :=
  ⟨fun k r h => h2.cache k r (h1.cache k r h),
    fun k h => h2.papers k (h1.papers k h),
    fun k h => h2.authors k (h1.authors k h),
    fun k h => h2.institutions k (h1.institutions k h),
    fun k h => h2.releases k (h1.releases k h),
    fun k h => h2.topics k (h1.topics k h),
    fun k h => h2.venues k (h1.venues k h)⟩

theorem mupd_isSome_mono {κ ν : Type} [DecidableEq κ]
    (m : κ → Option ν) (k k2 : κ) (v : ν)
    (h : (m k2).isSome = true) : (mupd m k v k2).isSome = true := by
  by_cases h2 : k2 = k
  · subst h2
    rw [mupd_eq]
    rfl
  · rw [mupd_ne _ _ _ _ h2]
    exact h

theorem foldl_grows {α γ : Type} (π : γ → St) (f : γ → α → γ)
    (hf : ∀ acc x, Grows (π acc) (π (f acc x))) :
    ∀ (ls : List α) (acc : γ), Grows (π acc) (π (ls.foldl f acc)) := by
  intro ls
  induction ls with
  | nil => intro acc; exact grows_refl _
  | cons x rest ih =>
      intro acc
      exact grows_trans (hf acc x) (ih (f acc x))

theorem withCache_grows (hid : HID) (body : St → AcqRes)
    (hhid : truthy hid = true ∨ hid = none)
    (hbody : ∀ s, Grows s (body s).s) (s : St) :
    Grows s (withCache hid body s).s := by
  rcases hhid with ht | hnone
  · rcases hc : s.cache hid with _ | r0
    · rw [withCache_uncached hid body s ht hc, runAndCache_s]
      refine ⟨?_, (hbody s).papers, (hbody s).authors,
        (hbody s).institutions, (hbody s).releases, (hbody s).topics,
        (hbody s).venues⟩
      intro h r hr
      show mupd (body s).s.cache hid (body s).row (some h) = some r
      by_cases he : some h = hid
      · rw [← he] at hc
        rw [hc] at hr
        cases hr
      · rw [mupd_ne _ _ _ _ he]
        exact (hbody s).cache h r hr
    · rw [withCache_cached hid body s r0 ht hc]
      exact grows_refl s
  · subst hnone
    rw [withCache_falsy none body s rfl, runAndCache_s]
    refine ⟨?_, (hbody s).papers, (hbody s).authors, (hbody s).institutions,
      (hbody s).releases, (hbody s).topics, (hbody s).venues⟩
    intro h r hr
    show mupd (body s).s.cache none (body s).row (some h) = some r
    rw [mupd_ne _ _ _ _ (by simp)]
    exact (hbody s).cache h r hr

theorem trivGrows {s : St} {db2 : DB}
    (hp : db2.papers = s.db.papers) (ha : db2.authors = s.db.authors)
    (hi : db2.institutions = s.db.institutions)
    (hr : db2.releases = s.db.releases) (ht : db2.topics = s.db.topics)
    (hv : db2.venues = s.db.venues) :
    Grows s ⟨db2, s.cache⟩ :=
  ⟨fun _ _ h => h, fun k h => by rw [hp]; exact h,
    fun k h => by rw [ha]; exact h, fun k h => by rw [hi]; exact h,
    fun k h => by rw [hr]; exact h, fun k h => by rw [ht]; exact h,
    fun k h => by rw [hv]; exact h⟩

theorem topicBody_grows (t : TopicT) (s : St) :
    Grows s (topicBody t s).s :=
  ⟨fun _ _ h => h, fun k h => h, fun k h => h, fun k h => h, fun k h => h,
    fun k h => mupd_isSome_mono _ _ _ _ h, fun k h => h⟩

theorem acquireTopic_grows (t : TopicT) (s : St) :
    Grows s (acquireTopic t s).s :=
  withCache_grows _ _
    (Or.inl (truthy_entityHid (Entity.topic t) (topicHid t) rfl))
    (topicBody_grows t) s

theorem instBody_grows (i : InstitutionT) (s : St) :
    Grows s (instBody i s).s :=
  ⟨fun _ _ h => h, fun k h => h, fun k h => h,
    fun k h => mupd_isSome_mono _ _ _ _ h, fun k h => h, fun k h => h,
    fun k h => h⟩

theorem acquireInstitution_grows (i : InstitutionT) (s : St) :
    Grows s (acquireInstitution i s).s :=
  withCache_grows _ _
    (Or.inl (truthy_entityHid (Entity.institution i) (instHid i) rfl))
    (instBody_grows i) s

theorem vLinkStep_grows (vid : HID) (st : St) (l : LinkT) :
    Grows st (vLinkStep vid st l) :=
  ⟨fun _ _ h => h, fun k h => h, fun k h => h, fun k h => h, fun k h => h,
    fun k h => h, fun k h => h⟩

theorem venueBody_grows (v : VenueT) (s : St) :
    Grows s (venueBody v s).s := by
  have g1 : Grows s (⟨{ s.db with
      venues := mupd s.db.venues (some (venueHid v)) (v.type, v.name) },
      s.cache⟩ : St) :=
    ⟨fun _ _ h => h, fun k h => h, fun k h => h, fun k h => h,
      fun k h => h, fun k h => h, fun k h => mupd_isSome_mono _ _ _ _ h⟩
  exact grows_trans g1
    (foldl_grows id (vLinkStep (some (venueHid v)))
      (fun st l => vLinkStep_grows _ st l) v.links _)

theorem acquireVenue_grows (v : VenueT) (s : St) :
    Grows s (acquireVenue v s).s :=
  withCache_grows _ _
    (Or.inl (truthy_entityHid (Entity.venue v) (venueHid v) rfl))
    (venueBody_grows v) s

theorem releaseBody_grows (r : ReleaseT) (s : St) :
    Grows s (releaseBody r s).s := by
  refine grows_trans (acquireVenue_grows r.venue s) ?_
  exact ⟨fun _ _ h => h, fun k h => h, fun k h => h, fun k h => h,
    fun k h => mupd_isSome_mono _ _ _ _ h, fun k h => h, fun k h => h⟩

theorem acquireRelease_grows (r : ReleaseT) (s : St) :
    Grows s (acquireRelease r s).s :=
  withCache_grows _ _
    (Or.inl (truthy_entityHid (Entity.release r) (releaseHid r) rfl))
    (releaseBody_grows r) s

theorem aqRoleStep_grows (aid : HID) (acc : St × List Ev) (role : RoleT) :
    Grows acc.1 (aqRoleStep aid acc role).1 := by
  refine grows_trans (acquireInstitution_grows role.institution acc.1) ?_
  exact ⟨fun _ _ h => h, fun k h => h, fun k h => h, fun k h => h,
    fun k h => h, fun k h => h, fun k h => h⟩

theorem aqBody_grows (aid : HID) (a : AuthorT) (s : St) :
    Grows s (aqBody aid a s).s := by
  rw [aqBody_state]
  have g1 : Grows s (a.links.foldl (aqLinkStep aid) s) :=
    foldl_grows id (aqLinkStep aid)
      (fun st l => ⟨fun _ _ h => h, fun k h => h, fun k h => h,
        fun k h => h, fun k h => h, fun k h => h, fun k h => h⟩)
      a.links s
  have g2 : Grows (a.links.foldl (aqLinkStep aid) s)
      (a.aliases.foldl (aqAliasStep aid)
        (a.links.foldl (aqLinkStep aid) s)) :=
    foldl_grows id (aqAliasStep aid)
      (fun st al => ⟨fun _ _ h => h, fun k h => h, fun k h => h,
        fun k h => h, fun k h => h, fun k h => h, fun k h => h⟩)
      a.aliases _
  have g3 : Grows ((a.aliases.foldl (aqAliasStep aid)
        (a.links.foldl (aqLinkStep aid) s), ([] : List Ev)).1)
      ((a.roles.foldl (aqRoleStep aid)
        (a.aliases.foldl (aqAliasStep aid)
          (a.links.foldl (aqLinkStep aid) s), [])).1) :=
    foldl_grows Prod.fst (aqRoleStep aid)
      (fun acc role => aqRoleStep_grows aid acc role) a.roles _
  exact grows_trans g1 (grows_trans g2 g3)

theorem acquireAuthorQuery_grows (aid : HID) (a : AuthorT) (s : St) :
    Grows s (acquireAuthorQuery aid a s).s :=
  withCache_grows none (aqBody aid a) (Or.inr rfl) (aqBody_grows aid a) s

theorem authorBody_grows (a : AuthorT) (s : St) :
    Grows s (authorBody a s).s := by
  have g1 : Grows s (⟨{ s.db with
      authors := mupd s.db.authors (some (authorHid a)) a.name },
      s.cache⟩ : St) :=
    ⟨fun _ _ h => h, fun k h => h, fun k h => mupd_isSome_mono _ _ _ _ h,
      fun k h => h, fun k h => h, fun k h => h, fun k h => h⟩
  exact grows_trans g1 (acquireAuthorQuery_grows (some (authorHid a)) a _)

theorem acquireAuthor_grows (a : AuthorT) (s : St) :
    Grows s (acquireAuthor a s).s :=
  withCache_grows _ _
    (Or.inl (truthy_entityHid (Entity.author a) (authorHid a) rfl))
    (authorBody_grows a) s

/-- The state of the paper branch after the initial `session.merge(pp)` of
the paper row. -/
def paperS1 (p : PaperT) (s : St) : St :=
  ⟨{ s.db with
      papers := mupd s.db.papers (some (paperHid p))
        (p.title, p.abstract, p.citation_count) },
    s.cache⟩

/-- The state mid-author-step, after the author is acquired and the
`paper_author` row is merged, before affiliations. -/
def paSt1 (pid : HID) (acc : St × List Ev × Nat) (author : AuthorT) : St :=
  ⟨{ (acquireAuthor author acc.1).s.db with
      paper_author := mupd (acquireAuthor author acc.1).s.db.paper_author
        (pid, rowAuthorId (acquireAuthor author acc.1).row) acc.2.2 },
    (acquireAuthor author acc.1).s.cache⟩

theorem pAffStep_grows (pid aaid : HID) (acc2 : St × List Ev)
    (aff : InstitutionT) : Grows acc2.1 (pAffStep pid aaid acc2 aff).1 := by
  refine grows_trans (acquireInstitution_grows aff acc2.1) ?_
  exact ⟨fun _ _ h => h, fun k h => h, fun k h => h, fun k h => h,
    fun k h => h, fun k h => h, fun k h => h⟩

theorem pAuthorStep_grows (pid : HID) (acc : St × List Ev × Nat)
    (author : AuthorT) : Grows acc.1 (pAuthorStep pid acc author).1 := by
  refine grows_trans (acquireAuthor_grows author acc.1) ?_
  refine grows_trans
    (⟨fun _ _ h => h, fun k h => h, fun k h => h, fun k h => h,
      fun k h => h, fun k h => h, fun k h => h⟩ :
      Grows (acquireAuthor author acc.1).s (paSt1 pid acc author)) ?_
  exact foldl_grows Prod.fst (pAffStep pid
      (rowAuthorId (acquireAuthor author acc.1).row))
    (fun acc2 aff => pAffStep_grows _ _ acc2 aff) author.affiliations
    (paSt1 pid acc author, [])

theorem pRelStep_grows (pid : HID) (acc : St × List Ev) (rel : ReleaseT) :
    Grows acc.1 (pRelStep pid acc rel).1 := by
  refine grows_trans (acquireRelease_grows rel acc.1) ?_
  exact ⟨fun _ _ h => h, fun k h => h, fun k h => h, fun k h => h,
    fun k h => h, fun k h => h, fun k h => h⟩

theorem pTopStep_grows (pid : HID) (acc : St × List Ev) (t : TopicT) :
    Grows acc.1 (pTopStep pid acc t).1 := by
  refine grows_trans (acquireTopic_grows t acc.1) ?_
  exact ⟨fun _ _ h => h, fun k h => h, fun k h => h, fun k h => h,
    fun k h => h, fun k h => h, fun k h => h⟩

def paperSA (p : PaperT) (s : St) : St × List Ev × Nat :=
  p.authors.foldl (pAuthorStep (some (paperHid p))) (paperS1 p s, [], 0)

def paperSR (p : PaperT) (s : St) : St × List Ev :=
  p.releases.foldl (pRelStep (some (paperHid p))) ((paperSA p s).1, [])

def paperST (p : PaperT) (s : St) : St × List Ev :=
  p.topics.foldl (pTopStep (some (paperHid p))) ((paperSR p s).1, [])

def paperSL (p : PaperT) (s : St) : St :=
  p.links.foldl (pLinkStep (some (paperHid p))) (paperST p s).1

def paperSS (p : PaperT) (s : St) : St :=
  p.scrapers.foldl (pScrStep (some (paperHid p))) (paperSL p s)

theorem paperBody_state (p : PaperT) (s : St) :
    (paperBody p s).s = paperSS p s := rfl

theorem pLinkStep_grows (pid : HID) (st : St) (l : LinkT) :
    Grows st (pLinkStep pid st l) :=
  ⟨fun _ _ h => h, fun k h => h, fun k h => h, fun k h => h, fun k h => h,
    fun k h => h, fun k h => h⟩

theorem pScrStep_grows (pid : HID) (st : St) (sc : String) :
    Grows st (pScrStep pid st sc) :=
  ⟨fun _ _ h => h, fun k h => h, fun k h => h, fun k h => h, fun k h => h,
    fun k h => h, fun k h => h⟩

theorem paperBody_grows (p : PaperT) (s : St) :
    Grows s (paperBody p s).s := by
  rw [paperBody_state]
  have g1 : Grows s (paperS1 p s) :=
    ⟨fun _ _ h => h, fun k h => mupd_isSome_mono _ _ _ _ h,
      fun k h => h, fun k h => h, fun k h => h, fun k h => h,
      fun k h => h⟩
  have g2 : Grows (paperS1 p s) (paperSA p s).1 :=
    foldl_grows (fun acc : St × List Ev × Nat => acc.1)
      (pAuthorStep (some (paperHid p)))
      (fun acc author => pAuthorStep_grows _ acc author) p.authors
      (paperS1 p s, [], 0)
  have g3 : Grows (paperSA p s).1 (paperSR p s).1 :=
    foldl_grows Prod.fst (pRelStep (some (paperHid p)))
      (fun acc rel => pRelStep_grows _ acc rel) p.releases
      ((paperSA p s).1, [])
  have g4 : Grows (paperSR p s).1 (paperST p s).1 :=
    foldl_grows Prod.fst (pTopStep (some (paperHid p)))
      (fun acc t => pTopStep_grows _ acc t) p.topics
      ((paperSR p s).1, [])
  have g5 : Grows (paperST p s).1 (paperSL p s) :=
    foldl_grows id (pLinkStep (some (paperHid p)))
      (fun st l => pLinkStep_grows _ st l) p.links (paperST p s).1
  have g6 : Grows (paperSL p s) (paperSS p s) :=
    foldl_grows id (pScrStep (some (paperHid p)))
      (fun st sc => pScrStep_grows _ st sc) p.scrapers (paperSL p s)
  exact grows_trans g1 (grows_trans g2 (grows_trans g3
    (grows_trans g4 (grows_trans g5 g6))))

theorem acquirePaper_grows (p : PaperT) (s : St) :
    Grows s (acquirePaper p s).s :=
  withCache_grows _ _
    (Or.inl (truthy_entityHid (Entity.paper p) (paperHid p) rfl))
    (paperBody_grows p) s

theorem acquire_grows (x : Entity) (s : St) : Grows s (acquire x s).s := by
  cases x with
  | paper p => exact acquirePaper_grows p s
  | author a => exact acquireAuthor_grows a s
  | institution i => exact acquireInstitution_grows i s
  | release r => exact acquireRelease_grows r s
  | topic t => exact acquireTopic_grows t s
  | venue v => exact acquireVenue_grows v s
  | authorQuery aid a => exact acquireAuthorQuery_grows aid a s


/-! ### Units of work: `with self:` blocks

`Database.__enter__` opens a session; `Database.__exit__(*args)` runs
`self.session.commit()` unconditionally — including when `*args` carries
an in-flight exception — and only then delegates to `Session.__exit__`.
`self.cache` is created once in `Database.__init__` and is never cleared
by `__enter__`/`__exit__`. -/

def acqListStep (acc : St × List Ev) (x : Entity) : St × List Ev :=
  let r := acquire x acc.1
  (r.s, acc.2 ++ r.evs)

def acquireList (xs : List Entity) (s : St) : St × List Ev :=
  xs.foldl acqListStep (s, [])

/-- One unit of work: `with self: for x in xs: self.acquire(x)`. -/
def runTxn (xs : List Entity) (s : St) : St × List Ev :=
  let r := acquireList xs s
  (r.1, Ev.txBegin :: r.2 ++ [Ev.txCommit])

theorem acqListStep_grows (acc : St × List Ev) (x : Entity) :
    Grows acc.1 (acqListStep acc x).1 :=
  acquire_grows x acc.1

theorem runTxn_grows (xs : List Entity) (s : St) :
    Grows s (runTxn xs s).1 :=
  foldl_grows Prod.fst acqListStep (fun acc x => acqListStep_grows acc x)
    xs (s, [])

/-- C3 counterexample: the identity cache is NOT discarded between two
consecutive units of work.  After a transaction that acquires the topic
"T", the next transaction on the same `Database` object starts with the
topic's address still cached, and its `acquire` of the same topic is
answered from that first-transaction cache entry: the second
transaction's trace holds no `wTopic` store write at all, only the cached
row's return. -/
theorem cache_reused_across_transactions :
    (runTxn [Entity.topic ⟨"T"⟩] emptySt).1.cache (some (topicHid ⟨"T"⟩))
      = some (some (SRow.topic (some (topicHid ⟨"T"⟩)) "T")) ∧
    (runTxn [Entity.topic ⟨"T"⟩]
        (runTxn [Entity.topic ⟨"T"⟩] emptySt).1).2
      = [Ev.txBegin,
          Ev.ret (some (SRow.topic (some (topicHid ⟨"T"⟩)) "T")),
          Ev.txCommit] := by decide

/-- C3 (amended): the identity cache is scoped to the `Database` object,
not to one transaction: no unit of work clears it, so an address
resolved in one transaction is still cached when the next begins, and a
later transaction acquiring an entity with that address answers it from
the cache — state untouched, no store write events. -/
theorem cache_scoped_to_database_object (x : Entity) (xs : List Entity)
    (s : St) (h : Addr) (r : Option SRow)
    (he : entityHid x = some h) (hc : s.cache (some h) = some r) :
    (runTxn xs s).1.cache (some h) = some r ∧
    runTxn [x] s = (s, [Ev.txBegin, Ev.ret r, Ev.txCommit]) := by
  constructor
  · exact (runTxn_grows xs s).cache h r hc
  · have h2 := acquire_cached x h r s he hc
    have hl : acquireList [x] s = (s, [Ev.ret r]) := by
      show ((acquire x s).s, [] ++ (acquire x s).evs) = (s, [Ev.ret r])
      rw [h2]
      rfl
    show ((acquireList [x] s).1,
      Ev.txBegin :: (acquireList [x] s).2 ++ [Ev.txCommit]) = _
    rw [hl]
    rfl

/-- C3 amended-claim witness at a concrete input: the address of topic
"U", cached in the state a previous transaction left, survives an
intervening (empty) transaction and answers the next transaction's
acquire from the cache. -/
theorem cache_scoped_to_database_object_witness :
    (runTxn []
        ⟨emptyDB, mupd emptySt.cache (some (topicHid ⟨"U"⟩))
          (some (SRow.topic (some (topicHid ⟨"U"⟩)) "U"))⟩).1.cache
        (some (topicHid ⟨"U"⟩))
      = some (some (SRow.topic (some (topicHid ⟨"U"⟩)) "U")) ∧
    runTxn [Entity.topic ⟨"U"⟩]
        ⟨emptyDB, mupd emptySt.cache (some (topicHid ⟨"U"⟩))
          (some (SRow.topic (some (topicHid ⟨"U"⟩)) "U"))⟩
      = (⟨emptyDB, mupd emptySt.cache (some (topicHid ⟨"U"⟩))
          (some (SRow.topic (some (topicHid ⟨"U"⟩)) "U"))⟩,
          [Ev.txBegin,
            Ev.ret (some (SRow.topic (some (topicHid ⟨"U"⟩)) "U")),
            Ev.txCommit]) :=
  cache_scoped_to_database_object (Entity.topic ⟨"U"⟩) []
    ⟨emptyDB, mupd emptySt.cache (some (topicHid ⟨"U"⟩))
      (some (SRow.topic (some (topicHid ⟨"U"⟩)) "U"))⟩
    (topicHid ⟨"U"⟩)
    (some (SRow.topic (some (topicHid ⟨"U"⟩)) "U")) rfl (by decide)

/-! ### Replay of a history file

`Database.replay` wraps each file in `with self:` and acquires every
parsed line; a line `json.loads`/`from_dict` cannot parse raises out of
the `with` block, yet `__exit__` still commits.  A line is modelled as
`Option Entity`: `none` is a malformed line. -/

def acquireSeq : List (Option Entity) → St → St × List Ev × Bool
  | [], s => (s, [], true)
  | some e :: rest, s =>
      let r := acquire e s
      let rr := acquireSeq rest r.s
      (rr.1, r.evs ++ rr.2.1, rr.2.2)
  | none :: _, s => (s, [], false)

/-- Replaying one history file: `with self:` around the line loop, and
`Database.__exit__` commits whatever the loop wrote even when a line
raised (the `Bool` is `false` exactly when a line raised). -/
def replayFile (ls : List (Option Entity)) (s : St) :
    St × List Ev × Bool :=
  let r := acquireSeq ls s
  (r.1, Ev.txBegin :: r.2.1 ++ [Ev.txCommit], r.2.2)

/-- C2: a unit of work that fails part-way is NOT rolled back in full.
Replaying a file whose first line acquires the topic "T2" and whose
second line is malformed raises, yet `Database.__exit__` commits: the
trace ends in `txCommit` and the topic row acquired by the earlier line
of the same failed file is committed and observable afterwards. -/
theorem replay_commits_failed_transaction :
    (replayFile [some (Entity.topic ⟨"T2"⟩), none] emptySt).2.2 = false ∧
    (replayFile [some (Entity.topic ⟨"T2"⟩), none] emptySt).2.1
      = [Ev.txBegin, Ev.wTopic (some (topicHid ⟨"T2"⟩)),
          Ev.ret (some (SRow.topic (some (topicHid ⟨"T2"⟩)) "T2")),
          Ev.txCommit] ∧
    (replayFile [some (Entity.topic ⟨"T2"⟩), none] emptySt).1.db.topics
      (some (topicHid ⟨"T2"⟩)) = some "T2" := by decide


/-! ### `Database.import_all`

`import_all` returns immediately on an empty input; otherwise it runs one
`with self:` unit of work acquiring every entity and only then — after
`__exit__` has committed — opens the history file and appends one record
per entity.  A failing acquisition raises out of the `with` block
(committing, per `__exit__`) and the history append is never reached. -/

def isHist : Ev → Bool
  | .hist _ => true
  | _ => false

def import_allF (xs : List (Option Entity)) (s : St) : St × List Ev :=
  if xs = [] then (s, [])
  else
    let r := acquireSeq xs s
    if r.2.2 then
      (r.1, (Ev.txBegin :: r.2.1 ++ [Ev.txCommit]) ++
        xs.filterMap (fun o => o.map Ev.hist))
    else (r.1, Ev.txBegin :: r.2.1 ++ [Ev.txCommit])

theorem runAndCache_evs (hid : HID) (body : St → AcqRes) (s : St) :
    (runAndCache hid body s).evs
      = (body s).evs ++ [Ev.ret (body s).row] := rfl

theorem foldl_evs_all {α γ : Type} (πe : γ → List Ev) (f : γ → α → γ)
    (P : Ev → Prop)
    (hf : ∀ acc x e, e ∈ πe (f acc x) → e ∈ πe acc ∨ P e) :
    ∀ (ls : List α) (acc : γ) (e : Ev),
      e ∈ πe (ls.foldl f acc) → e ∈ πe acc ∨ P e := by
  intro ls
  induction ls with
  | nil => intro acc e he; exact Or.inl he
  | cons x rest ih =>
      intro acc e he
      rcases ih (f acc x) e he with h1 | h2
      · exact hf acc x e h1
      · exact Or.inr h2

theorem noHist_withCache (hid : HID) (body : St → AcqRes) (s : St)
    (hb : ∀ e ∈ (body s).evs, isHist e = false) :
    ∀ e ∈ (withCache hid body s).evs, isHist e = false := by
  intro e he
  rcases ht : truthy hid with _ | _
  · rw [withCache_falsy hid body s ht, runAndCache_evs] at he
    rcases List.mem_append.mp he with h1 | h2
    · exact hb e h1
    · rw [List.mem_singleton.mp h2]
      rfl
  · rcases hc : s.cache hid with _ | r0
    · rw [withCache_uncached hid body s ht hc, runAndCache_evs] at he
      rcases List.mem_append.mp he with h1 | h2
      · exact hb e h1
      · rw [List.mem_singleton.mp h2]
        rfl
    · rw [withCache_cached hid body s r0 ht hc] at he
      rw [List.mem_singleton.mp he]
      rfl

theorem noHist_acquireTopic (t : TopicT) (s : St) :
    ∀ e ∈ (acquireTopic t s).evs, isHist e = false := by
  refine noHist_withCache _ _ s ?_
  intro e he
  rw [List.mem_singleton.mp he]
  rfl

theorem noHist_acquireInstitution (i : InstitutionT) (s : St) :
    ∀ e ∈ (acquireInstitution i s).evs, isHist e = false := by
  refine noHist_withCache _ _ s ?_
  intro e he
  rw [List.mem_singleton.mp he]
  rfl

theorem noHist_acquireVenue (v : VenueT) (s : St) :
    ∀ e ∈ (acquireVenue v s).evs, isHist e = false := by
  refine noHist_withCache _ _ s ?_
  intro e he
  rcases List.mem_cons.mp he with h1 | h2
  · rw [h1]
    rfl
  · rcases List.mem_map.mp h2 with ⟨l, _, hl⟩
    rw [← hl]
    rfl

theorem noHist_acquireRelease (r : ReleaseT) (s : St) :
    ∀ e ∈ (acquireRelease r s).evs, isHist e = false := by
  refine noHist_withCache _ _ s ?_
  intro e he
  rcases List.mem_append.mp he with h1 | h2
  · exact noHist_acquireVenue r.venue s e h1
  · rw [List.mem_singleton.mp h2]
    rfl

theorem noHist_aqBody (aid : HID) (a : AuthorT) (s : St) :
    ∀ e ∈ (aqBody aid a s).evs, isHist e = false := by
  intro e he
  rcases List.mem_append.mp he with h12 | h3
  · rcases List.mem_append.mp h12 with h1 | h2
    · rcases List.mem_map.mp h1 with ⟨l, _, hl⟩
      rw [← hl]
      rfl
    · rcases List.mem_map.mp h2 with ⟨al, _, hl⟩
      rw [← hl]
      rfl
  · have hstep : ∀ (acc : St × List Ev) (role : RoleT) (e2 : Ev),
        e2 ∈ (aqRoleStep aid acc role).2 →
        e2 ∈ acc.2 ∨ isHist e2 = false := by
      intro acc role e2 he2
      rcases List.mem_append.mp he2 with hb | hc
      · rcases List.mem_append.mp hb with hb1 | hb2
        · exact Or.inl hb1
        · exact Or.inr
            (noHist_acquireInstitution role.institution acc.1 e2 hb2)
      · rw [List.mem_singleton.mp hc]
        exact Or.inr rfl
    rcases foldl_evs_all Prod.snd (aqRoleStep aid)
      (fun e2 => isHist e2 = false) hstep a.roles _ e h3 with h1 | h2
    · cases h1
    · exact h2

theorem noHist_acquireAuthorQuery (aid : HID) (a : AuthorT) (s : St) :
    ∀ e ∈ (acquireAuthorQuery aid a s).evs, isHist e = false :=
  noHist_withCache none (aqBody aid a) s (noHist_aqBody aid a s)

theorem noHist_acquireAuthor (a : AuthorT) (s : St) :
    ∀ e ∈ (acquireAuthor a s).evs, isHist e = false := by
  refine noHist_withCache _ _ s ?_
  intro e he
  rcases List.mem_cons.mp he with h1 | h2
  · rw [h1]
    rfl
  · exact noHist_acquireAuthorQuery (some (authorHid a)) a _ e h2


theorem paperBody_evs (p : PaperT) (s : St) :
    (paperBody p s).evs
      = Ev.wPaper (some (paperHid p)) ::
          ((paperSA p s).2.1 ++ (paperSR p s).2 ++ (paperST p s).2 ++
            p.links.map (fun l =>
              Ev.wPaperLink (some (paperHid p)) l.type l.link) ++
            p.scrapers.map (fun sc =>
              Ev.wPaperScraper (some (paperHid p)) sc)) := rfl

theorem noHist_pAffStep (pid aaid : HID) (acc2 : St × List Ev)
    (aff : InstitutionT) :
    ∀ e ∈ (pAffStep pid aaid acc2 aff).2, e ∈ acc2.2 ∨ isHist e = false := by
  intro e he
  rcases List.mem_append.mp he with hb | hc
  · rcases List.mem_append.mp hb with hb1 | hb2
    · exact Or.inl hb1
    · exact Or.inr (noHist_acquireInstitution aff acc2.1 e hb2)
  · rw [List.mem_singleton.mp hc]
    exact Or.inr rfl

theorem noHist_pAuthorStep (pid : HID) (acc : St × List Ev × Nat)
    (author : AuthorT) :
    ∀ e ∈ (pAuthorStep pid acc author).2.1,
      e ∈ acc.2.1 ∨ isHist e = false := by
  intro e he
  rcases List.mem_append.mp he with hb | hc
  · rcases List.mem_append.mp hb with hb1 | hb2
    · rcases List.mem_append.mp hb1 with hb3 | hb4
      · exact Or.inl hb3
      · exact Or.inr (noHist_acquireAuthor author acc.1 e hb4)
    · rw [List.mem_singleton.mp hb2]
      exact Or.inr rfl
  · rcases foldl_evs_all Prod.snd
      (pAffStep pid (rowAuthorId (acquireAuthor author acc.1).row))
      (fun e2 => isHist e2 = false)
      (fun acc2 aff e2 he2 => noHist_pAffStep _ _ acc2 aff e2 he2)
      author.affiliations _ e hc with h1 | h2
    · cases h1
    · exact Or.inr h2

theorem noHist_pRelStep (pid : HID) (acc : St × List Ev) (rel : ReleaseT) :
    ∀ e ∈ (pRelStep pid acc rel).2, e ∈ acc.2 ∨ isHist e = false := by
  intro e he
  rcases List.mem_append.mp he with hb | hc
  · rcases List.mem_append.mp hb with hb1 | hb2
    · exact Or.inl hb1
    · exact Or.inr (noHist_acquireRelease rel acc.1 e hb2)
  · rw [List.mem_singleton.mp hc]
    exact Or.inr rfl

theorem noHist_pTopStep (pid : HID) (acc : St × List Ev) (t : TopicT) :
    ∀ e ∈ (pTopStep pid acc t).2, e ∈ acc.2 ∨ isHist e = false := by
  intro e he
  rcases List.mem_append.mp he with hb | hc
  · rcases List.mem_append.mp hb with hb1 | hb2
    · exact Or.inl hb1
    · exact Or.inr (noHist_acquireTopic t acc.1 e hb2)
  · rw [List.mem_singleton.mp hc]
    exact Or.inr rfl

theorem noHist_paperBody (p : PaperT) (s : St) :
    ∀ e ∈ (paperBody p s).evs, isHist e = false := by
  intro e he
  rw [paperBody_evs] at he
  rcases List.mem_cons.mp he with h0 | htail
  · rw [h0]
    rfl
  rcases List.mem_append.mp htail with h1234 | h5
  on_goal 2 =>
    rcases List.mem_map.mp h5 with ⟨sc, _, hl⟩
    rw [← hl]
    rfl
  rcases List.mem_append.mp h1234 with h123 | h4
  on_goal 2 =>
    rcases List.mem_map.mp h4 with ⟨l, _, hl⟩
    rw [← hl]
    rfl
  rcases List.mem_append.mp h123 with h12 | h3
  on_goal 2 =>
    rcases foldl_evs_all Prod.snd (pTopStep (some (paperHid p)))
      (fun e2 => isHist e2 = false)
      (fun acc t e2 he2 => noHist_pTopStep _ acc t e2 he2)
      p.topics _ e h3 with hx | hx
    · cases hx
    · exact hx
  rcases List.mem_append.mp h12 with h1 | h2
  · rcases foldl_evs_all (fun acc : St × List Ev × Nat => acc.2.1)
      (pAuthorStep (some (paperHid p)))
      (fun e2 => isHist e2 = false)
      (fun acc author e2 he2 => noHist_pAuthorStep _ acc author e2 he2)
      p.authors _ e h1 with hx | hx
    · cases hx
    · exact hx
  · rcases foldl_evs_all Prod.snd (pRelStep (some (paperHid p)))
      (fun e2 => isHist e2 = false)
      (fun acc rel e2 he2 => noHist_pRelStep _ acc rel e2 he2)
      p.releases _ e h2 with hx | hx
    · cases hx
    · exact hx

theorem noHist_acquirePaper (p : PaperT) (s : St) :
    ∀ e ∈ (acquirePaper p s).evs, isHist e = false :=
  noHist_withCache _ _ s (noHist_paperBody p s)

theorem noHist_acquire (x : Entity) (s : St) :
    ∀ e ∈ (acquire x s).evs, isHist e = false := by
  cases x with
  | paper p => exact noHist_acquirePaper p s
  | author a => exact noHist_acquireAuthor a s
  | institution i => exact noHist_acquireInstitution i s
  | release r => exact noHist_acquireRelease r s
  | topic t => exact noHist_acquireTopic t s
  | venue v => exact noHist_acquireVenue v s
  | authorQuery aid a => exact noHist_acquireAuthorQuery aid a s

theorem noHist_acquireSeq (ls : List (Option Entity)) :
    ∀ (s : St), ∀ e ∈ (acquireSeq ls s).2.1, isHist e = false := by
  induction ls with
  | nil =>
      intro s e he
      cases he
  | cons o rest ih =>
      intro s e he
      cases o with
      | some x =>
          rcases List.mem_append.mp he with h1 | h2
          · exact noHist_acquire x s e h1
          · exact ih (acquire x s).s e h2
      | none => cases he

theorem import_allF_ne (xs : List (Option Entity)) (s : St)
    (hne : ¬ xs = []) :
    import_allF xs s
      = (if (acquireSeq xs s).2.2 then
          ((acquireSeq xs s).1,
            (Ev.txBegin :: (acquireSeq xs s).2.1 ++ [Ev.txCommit]) ++
              xs.filterMap (fun o => o.map Ev.hist))
        else ((acquireSeq xs s).1,
          Ev.txBegin :: (acquireSeq xs s).2.1 ++ [Ev.txCommit])) := by
  rw [import_allF, if_neg hne]

theorem mem_pre_of_clean_prefix {A B pre suf : List Ev} {x : Ev}
    (hA : ∀ a ∈ A, isHist a = false) (hx : isHist x = true)
    (hsplit : A ++ B = pre ++ x :: suf) : ∀ a ∈ A, a ∈ pre := by
  rcases List.append_eq_append_iff.mp hsplit with ⟨t, hpre, _⟩ | ⟨t, hA2, hxs⟩
  · intro a ha
    rw [hpre]
    exact List.mem_append_left t ha
  · cases t with
    | nil =>
        intro a ha
        rw [List.append_nil] at hA2
        rw [← hA2]
        exact ha
    | cons y t2 =>
        have hy : y = x := (List.cons.injEq _ _ _ _).mp hxs.symm |>.1
        have hmem : x ∈ A := by
          rw [hA2, ← hy]
          exact List.mem_append_right pre (List.mem_cons_self _ _)
        rw [hA x hmem] at hx
        cases hx

/-- C10: `import_all` of an empty batch is a complete no-op (state
unchanged, no transaction, no writes, no history line); otherwise every
history append in the trace comes strictly after the transaction commit,
and if an acquisition raised (the unit of work did not complete) the
history log is untouched. -/
theorem import_all_semantics :
    (∀ s, import_allF [] s = (s, [])) ∧
    (∀ (xs : List (Option Entity)) (s : St) (pre : List Ev) (e : Entity)
      (suf : List Ev),
      (import_allF xs s).2 = pre ++ Ev.hist e :: suf →
      Ev.txCommit ∈ pre) ∧
    (∀ (xs : List (Option Entity)) (s : St),
      (acquireSeq xs s).2.2 = false →
      ∀ e : Entity, Ev.hist e ∉ (import_allF xs s).2) := by
  refine ⟨fun s => rfl, ?_, ?_⟩
  · intro xs s pre e suf hsplit
    rcases hxs : xs.isEmpty with _ | _
    · have hne : ¬ xs = [] := by
        cases xs with
        | nil => cases hxs
        | cons o rest => exact fun hcon => by cases hcon
      rw [import_allF_ne xs s hne] at hsplit
      have hclean : ∀ a ∈ Ev.txBegin :: (acquireSeq xs s).2.1
          ++ [Ev.txCommit], isHist a = false := by
        intro a ha
        rcases List.mem_cons.mp ha with ha1 | ha2
        · rw [ha1]
          rfl
        · rcases List.mem_append.mp ha2 with ha3 | ha4
          · exact noHist_acquireSeq xs s a ha3
          · rw [List.mem_singleton.mp ha4]
            rfl
      rcases hok : (acquireSeq xs s).2.2 with _ | _
      · rw [hok, if_neg Bool.false_ne_true] at hsplit
        have := mem_pre_of_clean_prefix (B := []) hclean (x := Ev.hist e)
          rfl (by rw [List.append_nil]; exact hsplit) Ev.txCommit
          (List.mem_append_right _ (List.mem_singleton.mpr rfl))
        exact this
      · rw [hok, if_pos rfl] at hsplit
        exact mem_pre_of_clean_prefix hclean (x := Ev.hist e) rfl hsplit
          Ev.txCommit
          (List.mem_append_right _ (List.mem_singleton.mpr rfl))
    · have hnil : xs = [] := by
        cases xs with
        | nil => rfl
        | cons o rest => cases hxs
      rw [hnil] at hsplit
      have : ([] : List Ev) = pre ++ Ev.hist e :: suf := hsplit
      cases pre with
      | nil => cases this
      | cons p ps => cases this
  · intro xs s hfail e hmem
    rcases hxs : xs.isEmpty with _ | _
    · have hne : ¬ xs = [] := by
        cases xs with
        | nil => cases hxs
        | cons o rest => exact fun hcon => by cases hcon
      rw [import_allF_ne xs s hne, hfail, if_neg Bool.false_ne_true]
        at hmem
      rcases List.mem_cons.mp hmem with h1 | h2
      · cases h1
      · rcases List.mem_append.mp h2 with h3 | h4
        · have := noHist_acquireSeq xs s _ h3
          cases this
        · cases List.mem_singleton.mp h4
    · have hnil : xs = [] := by
        cases xs with
        | nil => rfl
        | cons o rest => cases hxs
      rw [hnil] at hmem
      cases hmem

/-- C10 witness: importing one topic appends its history record after
`txCommit`; importing a batch whose only element raises commits the
(empty) unit of work but appends nothing to the history log. -/
theorem import_all_semantics_witness :
    Ev.txCommit ∈ [Ev.txBegin, Ev.wTopic (some (topicHid ⟨"T3"⟩)),
      Ev.ret (some (SRow.topic (some (topicHid ⟨"T3"⟩)) "T3")),
      Ev.txCommit] ∧
    Ev.hist (Entity.topic ⟨"T3"⟩) ∉ (import_allF [none] emptySt).2 :=
  ⟨import_all_semantics.2.1 [some (Entity.topic ⟨"T3"⟩)] emptySt
      [Ev.txBegin, Ev.wTopic (some (topicHid ⟨"T3"⟩)),
        Ev.ret (some (SRow.topic (some (topicHid ⟨"T3"⟩)) "T3")),
        Ev.txCommit]
      (Entity.topic ⟨"T3"⟩) [] (by decide),
    import_all_semantics.2.2 [none] emptySt (by decide)
      (Entity.topic ⟨"T3"⟩)⟩


/-! ### Referential completeness of the store

The claim about child-before-parent ordering is settled in two parts: a
trace part (which row write comes first) and a state invariant — after
any `acquire` from a coherent state, no association row or release row
references a missing row. -/

/-- The row a returned/cached `sch.*` object stands for is present in its
table. -/
def rowRef (db : DB) : SRow → Prop
  | .paper pid _ _ _ => (db.papers pid).isSome = true
  | .author aid _ => (db.authors aid).isSome = true
  | .institution iid _ _ => (db.institutions iid).isSome = true
  | .release rid _ _ _ _ _ => (db.releases rid).isSome = true
  | .topic tid _ => (db.topics tid).isSome = true
  | .venue vid _ _ => (db.venues vid).isSome = true

/-- The hashid tag byte of the kind of a row (`paperHid` starts with 1,
`authorHid` with 2, `instHid` with 3, `venueHid` with 4, `releaseHid`
with 5, `topicHid` with 6). -/
def kindTag : SRow → Nat
  | .paper _ _ _ _ => 1
  | .author _ _ => 2
  | .institution _ _ _ => 3
  | .release _ _ _ _ _ _ => 5
  | .topic _ _ => 6
  | .venue _ _ _ => 4

/-- No association or foreign-key column references a missing row. -/
structure AssocOK (s : St) : Prop where
  pa : ∀ pid aid i, s.db.paper_author (pid, aid) = some i →
    (s.db.papers pid).isSome = true ∧ (s.db.authors aid).isSome = true
  pai : ∀ pid aid iid,
    s.db.paper_author_institution (pid, aid, iid) = true →
    (s.db.papers pid).isSome = true ∧ (s.db.authors aid).isSome = true ∧
    (s.db.institutions iid).isSome = true
  pr : ∀ pid rid, s.db.paper_release (pid, rid) = true →
    (s.db.papers pid).isSome = true ∧ (s.db.releases rid).isSome = true
  pt : ∀ pid tid, s.db.paper_topic (pid, tid) = true →
    (s.db.papers pid).isSome = true ∧ (s.db.topics tid).isSome = true
  rv : ∀ rid d dp vol pub vv,
    s.db.releases rid = some (d, dp, vol, pub, vv) →
    (s.db.venues vv).isSome = true

/-- Coherence of a `Database` state: every truthy cache entry holds a row
of the kind its address says, present in its table, and the store has no
dangling references. -/
structure Complete (s : St) : Prop where
  cacheOK : ∀ h r, s.cache (some h) = some r →
    ∃ row, r = some row ∧ h.head? = some (kindTag row) ∧ rowRef s.db row
  assocOK : AssocOK s

theorem rowRef_grows {s t : St} (g : Grows s t) (row : SRow)
    (h : rowRef s.db row) : rowRef t.db row := by
  cases row with
  | paper pid a b c => exact g.papers pid h
  | author aid a => exact g.authors aid h
  | institution iid a b => exact g.institutions iid h
  | release rid a b c d e => exact g.releases rid h
  | topic tid a => exact g.topics tid h
  | venue vid a b => exact g.venues vid h

theorem foldl_pres_prop {α γ : Type} (P : γ → Prop) (f : γ → α → γ)
    (hf : ∀ acc x, P acc → P (f acc x)) :
    ∀ (ls : List α) (acc : γ), P acc → P (ls.foldl f acc) := by
  intro ls
  induction ls with
  | nil => intro acc h; exact h
  | cons x rest ih => intro acc h; exact ih (f acc x) (hf acc x h)

theorem sins_cases {κ : Type} [DecidableEq κ] (tbl : κ → Bool) (k k2 : κ)
    (h : sins tbl k k2 = true) : k2 = k ∨ tbl k2 = true := by
  by_cases h2 : k2 = k
  · exact Or.inl h2
  · right
    rw [show sins tbl k k2 = if k2 = k then true else tbl k2 from rfl,
      if_neg h2] at h
    exact h

theorem mupd_cases {κ ν : Type} [DecidableEq κ] (m : κ → Option ν)
    (k k2 : κ) (v w : ν) (h : mupd m k v k2 = some w) :
    (k2 = k ∧ w = v) ∨ (¬ k2 = k ∧ m k2 = some w) := by
  by_cases h2 : k2 = k
  · left
    refine ⟨h2, ?_⟩
    rw [h2, mupd_eq] at h
    exact (Option.some.inj h).symm
  · right
    refine ⟨h2, ?_⟩
    rw [mupd_ne _ _ _ _ h2] at h
    exact h

theorem assocOK_db {s t : St} (h : t.db = s.db) (ha : AssocOK s) :
    AssocOK t := by
  refine ⟨?_, ?_, ?_, ?_, ?_⟩ <;> rw [h]
  · exact ha.pa
  · exact ha.pai
  · exact ha.pr
  · exact ha.pt
  · exact ha.rv

/-- Coherence is untouched by a write to a table outside the tracked
ones (links, aliases, scrapers, `author_institution`, `venue_link`). -/
theorem complete_untracked {s t : St} (hcache : t.cache = s.cache)
    (hp : t.db.papers = s.db.papers) (hau : t.db.authors = s.db.authors)
    (hi : t.db.institutions = s.db.institutions)
    (hr : t.db.releases = s.db.releases)
    (htp : t.db.topics = s.db.topics) (hv : t.db.venues = s.db.venues)
    (hpa : t.db.paper_author = s.db.paper_author)
    (hpai : t.db.paper_author_institution
      = s.db.paper_author_institution)
    (hpr : t.db.paper_release = s.db.paper_release)
    (hpt : t.db.paper_topic = s.db.paper_topic)
    (hs : Complete s) : Complete t := by
  have g : Grows s t :=
    ⟨fun h r hh => by rw [hcache]; exact hh,
      fun k hh => by rw [hp]; exact hh, fun k hh => by rw [hau]; exact hh,
      fun k hh => by rw [hi]; exact hh, fun k hh => by rw [hr]; exact hh,
      fun k hh => by rw [htp]; exact hh, fun k hh => by rw [hv]; exact hh⟩
  refine ⟨?_, ?_, ?_, ?_, ?_, ?_⟩
  · intro h r hh
    rw [hcache] at hh
    obtain ⟨row, hrw, htag, href⟩ := hs.cacheOK h r hh
    exact ⟨row, hrw, htag, rowRef_grows g row href⟩
  · intro pid aid i hh
    rw [hpa] at hh
    obtain ⟨h1, h2⟩ := hs.assocOK.pa pid aid i hh
    exact ⟨g.papers pid h1, g.authors aid h2⟩
  · intro pid aid iid hh
    rw [hpai] at hh
    obtain ⟨h1, h2, h3⟩ := hs.assocOK.pai pid aid iid hh
    exact ⟨g.papers pid h1, g.authors aid h2, g.institutions iid h3⟩
  · intro pid rid hh
    rw [hpr] at hh
    obtain ⟨h1, h2⟩ := hs.assocOK.pr pid rid hh
    exact ⟨g.papers pid h1, g.releases rid h2⟩
  · intro pid tid hh
    rw [hpt] at hh
    obtain ⟨h1, h2⟩ := hs.assocOK.pt pid tid hh
    exact ⟨g.papers pid h1, g.topics tid h2⟩
  · intro rid d dp vol pub vv hh
    rw [hr] at hh
    exact g.venues vv (hs.assocOK.rv rid d dp vol pub vv hh)

theorem row_of_tag_one (row : SRow) (h : kindTag row = 1) :
    ∃ pid a b c, row = SRow.paper pid a b c := by
  cases row with
  | paper pid a b c => exact ⟨pid, a, b, c, rfl⟩
  | author aid a => simp [kindTag] at h
  | institution iid a b => simp [kindTag] at h
  | release rid a b c d e => simp [kindTag] at h
  | topic tid a => simp [kindTag] at h
  | venue vid a b => simp [kindTag] at h

theorem row_of_tag_two (row : SRow) (h : kindTag row = 2) :
    ∃ aid a, row = SRow.author aid a := by
  cases row with
  | paper pid a b c => simp [kindTag] at h
  | author aid a => exact ⟨aid, a, rfl⟩
  | institution iid a b => simp [kindTag] at h
  | release rid a b c d e => simp [kindTag] at h
  | topic tid a => simp [kindTag] at h
  | venue vid a b => simp [kindTag] at h

theorem row_of_tag_three (row : SRow) (h : kindTag row = 3) :
    ∃ iid a b, row = SRow.institution iid a b := by
  cases row with
  | paper pid a b c => simp [kindTag] at h
  | author aid a => simp [kindTag] at h
  | institution iid a b => exact ⟨iid, a, b, rfl⟩
  | release rid a b c d e => simp [kindTag] at h
  | topic tid a => simp [kindTag] at h
  | venue vid a b => simp [kindTag] at h

theorem row_of_tag_four (row : SRow) (h : kindTag row = 4) :
    ∃ vid a b, row = SRow.venue vid a b := by
  cases row with
  | paper pid a b c => simp [kindTag] at h
  | author aid a => simp [kindTag] at h
  | institution iid a b => simp [kindTag] at h
  | release rid a b c d e => simp [kindTag] at h
  | topic tid a => simp [kindTag] at h
  | venue vid a b => exact ⟨vid, a, b, rfl⟩

theorem row_of_tag_five (row : SRow) (h : kindTag row = 5) :
    ∃ rid a b c d e, row = SRow.release rid a b c d e := by
  cases row with
  | paper pid a b c => simp [kindTag] at h
  | author aid a => simp [kindTag] at h
  | institution iid a b => simp [kindTag] at h
  | release rid a b c d e => exact ⟨rid, a, b, c, d, e, rfl⟩
  | topic tid a => simp [kindTag] at h
  | venue vid a b => simp [kindTag] at h

theorem row_of_tag_six (row : SRow) (h : kindTag row = 6) :
    ∃ tid a, row = SRow.topic tid a := by
  cases row with
  | paper pid a b c => simp [kindTag] at h
  | author aid a => simp [kindTag] at h
  | institution iid a b => simp [kindTag] at h
  | release rid a b c d e => simp [kindTag] at h
  | topic tid a => exact ⟨tid, a, rfl⟩
  | venue vid a b => simp [kindTag] at h

/-- `Database.acquire` of a truthy-address entity, seen through the
cache: both on a hit (via coherence of the cache) and on a miss (via the
branch body), the returned row has the key's kind and is present. -/
theorem withCache_ok (hid : Addr) (body : St → AcqRes) (s : St)
    (ht : truthy (some hid) = true) (hs : Complete s)
    (hbody : Complete (body s).s ∧
      ∃ row, (body s).row = some row ∧ hid.head? = some (kindTag row) ∧
        rowRef (body s).s.db row) :
    Complete (withCache (some hid) body s).s ∧
    ∃ row, (withCache (some hid) body s).row = some row ∧
      hid.head? = some (kindTag row) ∧
      rowRef (withCache (some hid) body s).s.db row := by
  obtain ⟨hC, row, hrow, htag, href⟩ := hbody
  rcases hc : s.cache (some hid) with _ | r0
  · rw [withCache_uncached _ _ _ ht hc]
    constructor
    · refine ⟨?_, ?_⟩
      · intro h r hr
        have hr2 : mupd (body s).s.cache (some hid) (body s).row (some h)
            = some r := hr
        rcases mupd_cases _ _ _ _ _ hr2 with ⟨he, hv⟩ | ⟨hne, hold⟩
        · refine ⟨row, ?_, ?_, href⟩
          · rw [hv, hrow]
          · rw [Option.some.inj he]
            exact htag
        · exact hC.cacheOK h r hold
      · exact @assocOK_db (body s).s (runAndCache (some hid) body s).s
          rfl hC.assocOK
    · exact ⟨row, hrow, htag, href⟩
  · rw [withCache_cached _ _ _ r0 ht hc]
    obtain ⟨row0, hr0, htag0, href0⟩ := hs.cacheOK hid r0 hc
    exact ⟨hs, row0, hr0, htag0, href0⟩

theorem topicBody_ok (t : TopicT) (s : St) (hs : Complete s) :
    Complete (topicBody t s).s ∧
    ∃ row, (topicBody t s).row = some row ∧
      (topicHid t).head? = some (kindTag row) ∧
      rowRef (topicBody t s).s.db row := by
  have g := topicBody_grows t s
  refine ⟨⟨?_, ?_⟩, SRow.topic (some (topicHid t)) t.name, rfl, rfl, ?_⟩
  · intro h r hr
    obtain ⟨row, hrw, htag, href⟩ := hs.cacheOK h r hr
    exact ⟨row, hrw, htag, rowRef_grows g row href⟩
  · refine ⟨?_, ?_, ?_, ?_, ?_⟩
    · intro pid aid i hh
      obtain ⟨h1, h2⟩ := hs.assocOK.pa pid aid i hh
      exact ⟨g.papers pid h1, g.authors aid h2⟩
    · intro pid aid iid hh
      obtain ⟨h1, h2, h3⟩ := hs.assocOK.pai pid aid iid hh
      exact ⟨g.papers pid h1, g.authors aid h2, g.institutions iid h3⟩
    · intro pid rid hh
      obtain ⟨h1, h2⟩ := hs.assocOK.pr pid rid hh
      exact ⟨g.papers pid h1, g.releases rid h2⟩
    · intro pid tid hh
      obtain ⟨h1, h2⟩ := hs.assocOK.pt pid tid hh
      exact ⟨g.papers pid h1, g.topics tid h2⟩
    · intro rid d dp vol pub vv hh
      exact g.venues vv (hs.assocOK.rv rid d dp vol pub vv hh)
  · show (mupd s.db.topics (some (topicHid t)) t.name
      (some (topicHid t))).isSome = true
    rw [mupd_eq]
    rfl

theorem acquireTopic_ok (t : TopicT) (s : St) (hs : Complete s) :
    Complete (acquireTopic t s).s ∧
    ∃ tid nm, (acquireTopic t s).row = some (SRow.topic tid nm) ∧
      ((acquireTopic t s).s.db.topics tid).isSome = true := by
  obtain ⟨hC, row, hrow, htag, href⟩ := withCache_ok (topicHid t)
    (topicBody t) s
    (truthy_entityHid (Entity.topic t) (topicHid t) rfl) hs
    (topicBody_ok t s hs)
  refine ⟨hC, ?_⟩
  have h6 : (6 : Nat) = kindTag row :=
    Option.some.inj (show some 6 = some (kindTag row) from htag)
  obtain ⟨tid, nm, hrw⟩ := row_of_tag_six row h6.symm
  rw [hrw] at hrow href
  exact ⟨tid, nm, hrow, href⟩


/-- Coherence transport for a step that keeps the cache, the association
tables and the releases payloads, and only grows row tables. -/
theorem complete_of_grows_assoc {s t : St} (g : Grows s t)
    (hcache : t.cache = s.cache)
    (hpa : t.db.paper_author = s.db.paper_author)
    (hpai : t.db.paper_author_institution = s.db.paper_author_institution)
    (hpr : t.db.paper_release = s.db.paper_release)
    (hpt : t.db.paper_topic = s.db.paper_topic)
    (hrel : t.db.releases = s.db.releases)
    (hs : Complete s) : Complete t := by
  refine ⟨?_, ?_, ?_, ?_, ?_, ?_⟩
  · intro h r hh
    rw [hcache] at hh
    obtain ⟨row, hrw, htag, href⟩ := hs.cacheOK h r hh
    exact ⟨row, hrw, htag, rowRef_grows g row href⟩
  · intro pid aid i hh
    rw [hpa] at hh
    obtain ⟨h1, h2⟩ := hs.assocOK.pa pid aid i hh
    exact ⟨g.papers pid h1, g.authors aid h2⟩
  · intro pid aid iid hh
    rw [hpai] at hh
    obtain ⟨h1, h2, h3⟩ := hs.assocOK.pai pid aid iid hh
    exact ⟨g.papers pid h1, g.authors aid h2, g.institutions iid h3⟩
  · intro pid rid hh
    rw [hpr] at hh
    obtain ⟨h1, h2⟩ := hs.assocOK.pr pid rid hh
    exact ⟨g.papers pid h1, g.releases rid h2⟩
  · intro pid tid hh
    rw [hpt] at hh
    obtain ⟨h1, h2⟩ := hs.assocOK.pt pid tid hh
    exact ⟨g.papers pid h1, g.topics tid h2⟩
  · intro rid d dp vol pub vv hh
    rw [hrel] at hh
    exact g.venues vv (hs.assocOK.rv rid d dp vol pub vv hh)

theorem instBody_ok (i : InstitutionT) (s : St) (hs : Complete s) :
    Complete (instBody i s).s ∧
    ∃ row, (instBody i s).row = some row ∧
      (instHid i).head? = some (kindTag row) ∧
      rowRef (instBody i s).s.db row := by
  refine ⟨complete_of_grows_assoc (instBody_grows i s) rfl rfl rfl rfl rfl
    rfl hs,
    SRow.institution (some (instHid i)) i.name i.category, rfl, rfl, ?_⟩
  show (mupd s.db.institutions (some (instHid i)) (i.name, i.category)
    (some (instHid i))).isSome = true
  rw [mupd_eq]
  rfl

theorem acquireInstitution_ok (i : InstitutionT) (s : St)
    (hs : Complete s) :
    Complete (acquireInstitution i s).s ∧
    ∃ iid a b, (acquireInstitution i s).row
        = some (SRow.institution iid a b) ∧
      ((acquireInstitution i s).s.db.institutions iid).isSome = true := by
  obtain ⟨hC, row, hrow, htag, href⟩ := withCache_ok (instHid i)
    (instBody i) s
    (truthy_entityHid (Entity.institution i) (instHid i) rfl) hs
    (instBody_ok i s hs)
  refine ⟨hC, ?_⟩
  have h3 : (3 : Nat) = kindTag row :=
    Option.some.inj (show some 3 = some (kindTag row) from htag)
  obtain ⟨iid, a, b, hrw⟩ := row_of_tag_three row h3.symm
  rw [hrw] at hrow href
  exact ⟨iid, a, b, hrow, href⟩

theorem vLinkStep_complete (vid : HID) (st : St) (l : LinkT)
    (hst : Complete st) : Complete (vLinkStep vid st l) :=
  @complete_untracked st (vLinkStep vid st l) rfl rfl rfl rfl rfl rfl rfl
    rfl rfl rfl rfl hst

theorem venueBody_ok (v : VenueT) (s : St) (hs : Complete s) :
    Complete (venueBody v s).s ∧
    ∃ row, (venueBody v s).row = some row ∧
      (venueHid v).head? = some (kindTag row) ∧
      rowRef (venueBody v s).s.db row := by
  have gs1 : Grows s (⟨{ s.db with
      venues := mupd s.db.venues (some (venueHid v)) (v.type, v.name) },
      s.cache⟩ : St) :=
    ⟨fun _ _ h => h, fun k h => h, fun k h => h, fun k h => h,
      fun k h => h, fun k h => h,
      fun k h => mupd_isSome_mono _ _ _ _ h⟩
  have h1 : Complete (⟨{ s.db with
      venues := mupd s.db.venues (some (venueHid v)) (v.type, v.name) },
      s.cache⟩ : St) :=
    complete_of_grows_assoc gs1 rfl rfl rfl rfl rfl rfl hs
  have h2 : Complete (v.links.foldl (vLinkStep (some (venueHid v)))
      (⟨{ s.db with
        venues := mupd s.db.venues (some (venueHid v)) (v.type, v.name) },
        s.cache⟩ : St)) :=
    foldl_pres_prop Complete (vLinkStep (some (venueHid v)))
      (fun st l hst => vLinkStep_complete _ st l hst) v.links _ h1
  have gf := foldl_grows id (vLinkStep (some (venueHid v)))
    (fun st l => vLinkStep_grows _ st l) v.links
    (⟨{ s.db with
      venues := mupd s.db.venues (some (venueHid v)) (v.type, v.name) },
      s.cache⟩ : St)
  refine ⟨h2, SRow.venue (some (venueHid v)) v.type v.name, rfl, rfl, ?_⟩
  refine gf.venues (some (venueHid v)) ?_
  show (mupd s.db.venues (some (venueHid v)) (v.type, v.name)
    (some (venueHid v))).isSome = true
  rw [mupd_eq]
  rfl

theorem acquireVenue_ok (v : VenueT) (s : St) (hs : Complete s) :
    Complete (acquireVenue v s).s ∧
    ∃ vid a b, (acquireVenue v s).row = some (SRow.venue vid a b) ∧
      ((acquireVenue v s).s.db.venues vid).isSome = true := by
  obtain ⟨hC, row, hrow, htag, href⟩ := withCache_ok (venueHid v)
    (venueBody v) s
    (truthy_entityHid (Entity.venue v) (venueHid v) rfl) hs
    (venueBody_ok v s hs)
  refine ⟨hC, ?_⟩
  have h4 : (4 : Nat) = kindTag row :=
    Option.some.inj (show some 4 = some (kindTag row) from htag)
  obtain ⟨vid, a, b, hrw⟩ := row_of_tag_four row h4.symm
  rw [hrw] at hrow href
  exact ⟨vid, a, b, hrow, href⟩

theorem releaseBody_ok (r : ReleaseT) (s : St) (hs : Complete s) :
    Complete (releaseBody r s).s ∧
    ∃ row, (releaseBody r s).row = some row ∧
      (releaseHid r).head? = some (kindTag row) ∧
      rowRef (releaseBody r s).s.db row := by
  obtain ⟨hv, vid, a, b, hrow, href⟩ := acquireVenue_ok r.venue s hs
  have hvv : rowVenueId (acquireVenue r.venue s).row = vid := by
    rw [hrow]
    rfl
  have g : Grows (acquireVenue r.venue s).s (releaseBody r s).s :=
    ⟨fun _ _ h => h, fun k h => h, fun k h => h, fun k h => h,
      fun k h => mupd_isSome_mono _ _ _ _ h, fun k h => h, fun k h => h⟩
  refine ⟨⟨?_, ?_, ?_, ?_, ?_, ?_⟩,
    SRow.release (some (releaseHid r)) r.date r.date_precision r.volume
      r.publisher (rowVenueId (acquireVenue r.venue s).row), rfl, rfl, ?_⟩
  · intro h2 r2 hh
    obtain ⟨row, hrw, htag, href2⟩ := hv.cacheOK h2 r2 hh
    exact ⟨row, hrw, htag, rowRef_grows g row href2⟩
  · intro pid aid i hh
    obtain ⟨h1, h2⟩ := hv.assocOK.pa pid aid i hh
    exact ⟨g.papers pid h1, g.authors aid h2⟩
  · intro pid aid iid hh
    obtain ⟨h1, h2, h3⟩ := hv.assocOK.pai pid aid iid hh
    exact ⟨g.papers pid h1, g.authors aid h2, g.institutions iid h3⟩
  · intro pid rid hh
    obtain ⟨h1, h2⟩ := hv.assocOK.pr pid rid hh
    exact ⟨g.papers pid h1, g.releases rid h2⟩
  · intro pid tid hh
    obtain ⟨h1, h2⟩ := hv.assocOK.pt pid tid hh
    exact ⟨g.papers pid h1, g.topics tid h2⟩
  · intro rid d dp vol pub vv hh
    have hh2 : mupd (acquireVenue r.venue s).s.db.releases
        (some (releaseHid r))
        (r.date, r.date_precision, r.volume, r.publisher,
          rowVenueId (acquireVenue r.venue s).row) rid
        = some (d, dp, vol, pub, vv) := hh
    rcases mupd_cases _ _ _ _ _ hh2 with ⟨he, hval⟩ | ⟨hne, hold⟩
    · have hvv2 : vv = rowVenueId (acquireVenue r.venue s).row :=
        congrArg (fun q => q.2.2.2.2) hval
      show ((acquireVenue r.venue s).s.db.venues vv).isSome = true
      rw [hvv2, hvv]
      exact href
    · show ((acquireVenue r.venue s).s.db.venues vv).isSome = true
      exact hv.assocOK.rv rid d dp vol pub vv hold
  · show (mupd (acquireVenue r.venue s).s.db.releases
      (some (releaseHid r)) _ (some (releaseHid r))).isSome = true
    rw [mupd_eq]
    rfl

theorem acquireRelease_ok (r : ReleaseT) (s : St) (hs : Complete s) :
    Complete (acquireRelease r s).s ∧
    ∃ rid a b c d e, (acquireRelease r s).row
        = some (SRow.release rid a b c d e) ∧
      ((acquireRelease r s).s.db.releases rid).isSome = true := by
  obtain ⟨hC, row, hrow, htag, href⟩ := withCache_ok (releaseHid r)
    (releaseBody r) s
    (truthy_entityHid (Entity.release r) (releaseHid r) rfl) hs
    (releaseBody_ok r s hs)
  refine ⟨hC, ?_⟩
  have h5 : (5 : Nat) = kindTag row :=
    Option.some.inj (show some 5 = some (kindTag row) from htag)
  obtain ⟨rid, a, b, c, d, e, hrw⟩ := row_of_tag_five row h5.symm
  rw [hrw] at hrow href
  exact ⟨rid, a, b, c, d, e, hrow, href⟩


theorem aqLinkStep_complete (aid : HID) (st : St) (l : LinkT)
    (hst : Complete st) : Complete (aqLinkStep aid st l) :=
  @complete_untracked st (aqLinkStep aid st l) rfl rfl rfl rfl rfl rfl rfl
    rfl rfl rfl rfl hst

theorem aqAliasStep_complete (aid : HID) (st : St) (al : String)
    (hst : Complete st) : Complete (aqAliasStep aid st al) :=
  @complete_untracked st (aqAliasStep aid st al) rfl rfl rfl rfl rfl rfl
    rfl rfl rfl rfl rfl hst

theorem aqRoleStep_complete (aid : HID) (acc : St × List Ev) (role : RoleT)
    (hst : Complete acc.1) : Complete (aqRoleStep aid acc role).1 :=
  @complete_untracked (acquireInstitution role.institution acc.1).s
    ((aqRoleStep aid acc role).1) rfl rfl rfl rfl rfl rfl rfl rfl rfl rfl
    rfl ((acquireInstitution_ok role.institution acc.1 hst).1)

theorem aqBody_complete (aid : HID) (a : AuthorT) (s : St)
    (hs : Complete s) : Complete (aqBody aid a s).s := by
  rw [aqBody_state]
  have h1 : Complete (a.links.foldl (aqLinkStep aid) s) :=
    foldl_pres_prop Complete (aqLinkStep aid)
      (fun st l h => aqLinkStep_complete aid st l h) a.links s hs
  have h2 : Complete (a.aliases.foldl (aqAliasStep aid)
      (a.links.foldl (aqLinkStep aid) s)) :=
    foldl_pres_prop Complete (aqAliasStep aid)
      (fun st al h => aqAliasStep_complete aid st al h) a.aliases _ h1
  exact foldl_pres_prop (fun acc : St × List Ev => Complete acc.1)
    (aqRoleStep aid) (fun acc role h => aqRoleStep_complete aid acc role h)
    a.roles (a.aliases.foldl (aqAliasStep aid)
      (a.links.foldl (aqLinkStep aid) s), []) h2

theorem acquireAuthorQuery_ok (aid : HID) (a : AuthorT) (s : St)
    (hs : Complete s) : Complete (acquireAuthorQuery aid a s).s := by
  have hb := aqBody_complete aid a s hs
  rw [acquireAQ_state]
  refine ⟨?_, @assocOK_db (aqBody aid a s).s
    (⟨(aqBody aid a s).s.db, mupd (aqBody aid a s).s.cache none none⟩ : St)
    rfl hb.assocOK⟩
  intro h r hh
  have hh2 : mupd (aqBody aid a s).s.cache none none (some h) = some r := hh
  rw [mupd_ne _ _ _ _ (by simp)] at hh2
  exact hb.cacheOK h r hh2

theorem authorBody_ok (a : AuthorT) (s : St) (hs : Complete s) :
    Complete (authorBody a s).s ∧
    ∃ row, (authorBody a s).row = some row ∧
      (authorHid a).head? = some (kindTag row) ∧
      rowRef (authorBody a s).s.db row := by
  have gs1 : Grows s (⟨{ s.db with
      authors := mupd s.db.authors (some (authorHid a)) a.name },
      s.cache⟩ : St) :=
    ⟨fun _ _ h => h, fun k h => h, fun k h => mupd_isSome_mono _ _ _ _ h,
      fun k h => h, fun k h => h, fun k h => h, fun k h => h⟩
  have h1 : Complete (⟨{ s.db with
      authors := mupd s.db.authors (some (authorHid a)) a.name },
      s.cache⟩ : St) :=
    complete_of_grows_assoc gs1 rfl rfl rfl rfl rfl rfl hs
  have h2 := acquireAuthorQuery_ok (some (authorHid a)) a _ h1
  refine ⟨h2, SRow.author (some (authorHid a)) a.name, rfl, rfl, ?_⟩
  refine (acquireAuthorQuery_grows (some (authorHid a)) a _).authors _ ?_
  show (mupd s.db.authors (some (authorHid a)) a.name
    (some (authorHid a))).isSome = true
  rw [mupd_eq]
  rfl

theorem acquireAuthor_ok (a : AuthorT) (s : St) (hs : Complete s) :
    Complete (acquireAuthor a s).s ∧
    ∃ aid nm, (acquireAuthor a s).row = some (SRow.author aid nm) ∧
      ((acquireAuthor a s).s.db.authors aid).isSome = true := by
  obtain ⟨hC, row, hrow, htag, href⟩ := withCache_ok (authorHid a)
    (authorBody a) s
    (truthy_entityHid (Entity.author a) (authorHid a) rfl) hs
    (authorBody_ok a s hs)
  refine ⟨hC, ?_⟩
  have h2 : (2 : Nat) = kindTag row :=
    Option.some.inj (show some 2 = some (kindTag row) from htag)
  obtain ⟨aid, nm, hrw⟩ := row_of_tag_two row h2.symm
  rw [hrw] at hrow href
  exact ⟨aid, nm, hrow, href⟩


theorem pAffStep_ok (pid aaid : HID) (acc2 : St × List Ev)
    (aff : InstitutionT)
    (h : Complete acc2.1 ∧ (acc2.1.db.papers pid).isSome = true ∧
      (acc2.1.db.authors aaid).isSome = true) :
    Complete (pAffStep pid aaid acc2 aff).1 ∧
    ((pAffStep pid aaid acc2 aff).1.db.papers pid).isSome = true ∧
    ((pAffStep pid aaid acc2 aff).1.db.authors aaid).isSome = true := by
  obtain ⟨hC, hpap, haut⟩ := h
  obtain ⟨hCi, iid, a2, b2, hrowI, hrefI⟩ :=
    acquireInstitution_ok aff acc2.1 hC
  have gi := acquireInstitution_grows aff acc2.1
  have hiid : rowInstId (acquireInstitution aff acc2.1).row = iid := by
    rw [hrowI]
    rfl
  have gT : Grows (acquireInstitution aff acc2.1).s
      ((pAffStep pid aaid acc2 aff).1) :=
    ⟨fun _ _ x => x, fun k x => x, fun k x => x, fun k x => x,
      fun k x => x, fun k x => x, fun k x => x⟩
  refine ⟨⟨?_, ?_, ?_, ?_, ?_, ?_⟩, gi.papers pid hpap,
    gi.authors aaid haut⟩
  · intro h2 r2 hh
    obtain ⟨row, hrw, htag, href⟩ := hCi.cacheOK h2 r2 hh
    exact ⟨row, hrw, htag, rowRef_grows gT row href⟩
  · intro pid2 aid2 i hh
    exact hCi.assocOK.pa pid2 aid2 i hh
  · intro pid2 aid2 iid2 hh
    have hh2 : sins
        (acquireInstitution aff acc2.1).s.db.paper_author_institution
        (pid, aaid, rowInstId (acquireInstitution aff acc2.1).row)
        (pid2, aid2, iid2) = true := hh
    rcases sins_cases _ _ _ hh2 with he | hold
    · have e1 : pid2 = pid :=
        congrArg (fun q : HID × HID × HID => q.1) he
      have e2 : aid2 = aaid :=
        congrArg (fun q : HID × HID × HID => q.2.1) he
      have e3 : iid2 = rowInstId (acquireInstitution aff acc2.1).row :=
        congrArg (fun q : HID × HID × HID => q.2.2) he
      refine ⟨?_, ?_, ?_⟩
      · rw [e1]
        exact gi.papers pid hpap
      · rw [e2]
        exact gi.authors aaid haut
      · rw [e3, hiid]
        exact hrefI
    · exact hCi.assocOK.pai pid2 aid2 iid2 hold
  · intro pid2 rid hh
    exact hCi.assocOK.pr pid2 rid hh
  · intro pid2 tid hh
    exact hCi.assocOK.pt pid2 tid hh
  · intro rid d dp vol pub vv hh
    exact hCi.assocOK.rv rid d dp vol pub vv hh

theorem pAuthorStep_ok (pid : HID) (acc : St × List Ev × Nat)
    (author : AuthorT)
    (h : Complete acc.1 ∧ (acc.1.db.papers pid).isSome = true) :
    Complete (pAuthorStep pid acc author).1 ∧
    ((pAuthorStep pid acc author).1.db.papers pid).isSome = true := by
  obtain ⟨hC, hpap⟩ := h
  obtain ⟨hCa, aid, nm, hrowA, hrefA⟩ := acquireAuthor_ok author acc.1 hC
  have ga := acquireAuthor_grows author acc.1
  have haaid : rowAuthorId (acquireAuthor author acc.1).row = aid := by
    rw [hrowA]
    rfl
  have hpap2 : ((acquireAuthor author acc.1).s.db.papers pid).isSome
      = true := ga.papers pid hpap
  have gT : Grows (acquireAuthor author acc.1).s (paSt1 pid acc author) :=
    ⟨fun _ _ x => x, fun k x => x, fun k x => x, fun k x => x,
      fun k x => x, fun k x => x, fun k x => x⟩
  have hst1 : Complete (paSt1 pid acc author) ∧
      ((paSt1 pid acc author).db.papers pid).isSome = true ∧
      ((paSt1 pid acc author).db.authors
        (rowAuthorId (acquireAuthor author acc.1).row)).isSome = true := by
    refine ⟨⟨?_, ?_, ?_, ?_, ?_, ?_⟩, hpap2, ?_⟩
    · intro h2 r2 hh
      obtain ⟨row, hrw, htag, href⟩ := hCa.cacheOK h2 r2 hh
      exact ⟨row, hrw, htag, rowRef_grows gT row href⟩
    · intro pid2 aid2 i hh
      have hh2 : mupd (acquireAuthor author acc.1).s.db.paper_author
          (pid, rowAuthorId (acquireAuthor author acc.1).row) acc.2.2
          (pid2, aid2) = some i := hh
      rcases mupd_cases _ _ _ _ _ hh2 with ⟨he, _⟩ | ⟨hne, hold⟩
      · have e1 : pid2 = pid := congrArg (fun q : HID × HID => q.1) he
        have e2 : aid2 = rowAuthorId (acquireAuthor author acc.1).row :=
          congrArg (fun q : HID × HID => q.2) he
        refine ⟨?_, ?_⟩
        · rw [e1]
          exact hpap2
        · rw [e2, haaid]
          exact hrefA
      · exact hCa.assocOK.pa pid2 aid2 i hold
    · intro pid2 aid2 iid2 hh
      exact hCa.assocOK.pai pid2 aid2 iid2 hh
    · intro pid2 rid hh
      exact hCa.assocOK.pr pid2 rid hh
    · intro pid2 tid hh
      exact hCa.assocOK.pt pid2 tid hh
    · intro rid d dp vol pub vv hh
      exact hCa.assocOK.rv rid d dp vol pub vv hh
    · show ((acquireAuthor author acc.1).s.db.authors
        (rowAuthorId (acquireAuthor author acc.1).row)).isSome = true
      rw [haaid]
      exact hrefA
  have hfold := foldl_pres_prop
    (fun acc2 : St × List Ev => Complete acc2.1 ∧
      (acc2.1.db.papers pid).isSome = true ∧
      (acc2.1.db.authors
        (rowAuthorId (acquireAuthor author acc.1).row)).isSome = true)
    (pAffStep pid (rowAuthorId (acquireAuthor author acc.1).row))
    (fun acc2 aff hq => pAffStep_ok _ _ acc2 aff hq)
    author.affiliations (paSt1 pid acc author, []) hst1
  exact ⟨hfold.1, hfold.2.1⟩

theorem pRelStep_ok (pid : HID) (acc : St × List Ev) (rel : ReleaseT)
    (h : Complete acc.1 ∧ (acc.1.db.papers pid).isSome = true) :
    Complete (pRelStep pid acc rel).1 ∧
    ((pRelStep pid acc rel).1.db.papers pid).isSome = true := by
  obtain ⟨hC, hpap⟩ := h
  obtain ⟨hCr, rid, a, b, c, d, e, hrowR, hrefR⟩ :=
    acquireRelease_ok rel acc.1 hC
  have gr := acquireRelease_grows rel acc.1
  have hrid : rowReleaseId (acquireRelease rel acc.1).row = rid := by
    rw [hrowR]
    rfl
  have gT : Grows (acquireRelease rel acc.1).s ((pRelStep pid acc rel).1) :=
    ⟨fun _ _ x => x, fun k x => x, fun k x => x, fun k x => x,
      fun k x => x, fun k x => x, fun k x => x⟩
  refine ⟨⟨?_, ?_, ?_, ?_, ?_, ?_⟩, gr.papers pid hpap⟩
  · intro h2 r2 hh
    obtain ⟨row, hrw, htag, href⟩ := hCr.cacheOK h2 r2 hh
    exact ⟨row, hrw, htag, rowRef_grows gT row href⟩
  · intro pid2 aid2 i hh
    exact hCr.assocOK.pa pid2 aid2 i hh
  · intro pid2 aid2 iid2 hh
    exact hCr.assocOK.pai pid2 aid2 iid2 hh
  · intro pid2 rid2 hh
    have hh2 : sins (acquireRelease rel acc.1).s.db.paper_release
        (pid, rowReleaseId (acquireRelease rel acc.1).row)
        (pid2, rid2) = true := hh
    rcases sins_cases _ _ _ hh2 with he | hold
    · have e1 : pid2 = pid := congrArg (fun q : HID × HID => q.1) he
      have e2 : rid2 = rowReleaseId (acquireRelease rel acc.1).row :=
        congrArg (fun q : HID × HID => q.2) he
      refine ⟨?_, ?_⟩
      · rw [e1]
        exact gr.papers pid hpap
      · rw [e2, hrid]
        exact hrefR
    · exact hCr.assocOK.pr pid2 rid2 hold
  · intro pid2 tid hh
    exact hCr.assocOK.pt pid2 tid hh
  · intro rid2 d2 dp2 vol2 pub2 vv2 hh
    exact hCr.assocOK.rv rid2 d2 dp2 vol2 pub2 vv2 hh

theorem pTopStep_ok (pid : HID) (acc : St × List Ev) (t : TopicT)
    (h : Complete acc.1 ∧ (acc.1.db.papers pid).isSome = true) :
    Complete (pTopStep pid acc t).1 ∧
    ((pTopStep pid acc t).1.db.papers pid).isSome = true := by
  obtain ⟨hC, hpap⟩ := h
  obtain ⟨hCt, tid, nm, hrowT, hrefT⟩ := acquireTopic_ok t acc.1 hC
  have gt := acquireTopic_grows t acc.1
  have htid : rowTopicId (acquireTopic t acc.1).row = tid := by
    rw [hrowT]
    rfl
  have gT : Grows (acquireTopic t acc.1).s ((pTopStep pid acc t).1) :=
    ⟨fun _ _ x => x, fun k x => x, fun k x => x, fun k x => x,
      fun k x => x, fun k x => x, fun k x => x⟩
  refine ⟨⟨?_, ?_, ?_, ?_, ?_, ?_⟩, gt.papers pid hpap⟩
  · intro h2 r2 hh
    obtain ⟨row, hrw, htag, href⟩ := hCt.cacheOK h2 r2 hh
    exact ⟨row, hrw, htag, rowRef_grows gT row href⟩
  · intro pid2 aid2 i hh
    exact hCt.assocOK.pa pid2 aid2 i hh
  · intro pid2 aid2 iid2 hh
    exact hCt.assocOK.pai pid2 aid2 iid2 hh
  · intro pid2 rid2 hh
    exact hCt.assocOK.pr pid2 rid2 hh
  · intro pid2 tid2 hh
    have hh2 : sins (acquireTopic t acc.1).s.db.paper_topic
        (pid, rowTopicId (acquireTopic t acc.1).row)
        (pid2, tid2) = true := hh
    rcases sins_cases _ _ _ hh2 with he | hold
    · have e1 : pid2 = pid := congrArg (fun q : HID × HID => q.1) he
      have e2 : tid2 = rowTopicId (acquireTopic t acc.1).row :=
        congrArg (fun q : HID × HID => q.2) he
      refine ⟨?_, ?_⟩
      · rw [e1]
        exact gt.papers pid hpap
      · rw [e2, htid]
        exact hrefT
    · exact hCt.assocOK.pt pid2 tid2 hold
  · intro rid2 d2 dp2 vol2 pub2 vv2 hh
    exact hCt.assocOK.rv rid2 d2 dp2 vol2 pub2 vv2 hh

theorem pLinkStep_ok (pid : HID) (st : St) (l : LinkT)
    (h : Complete st ∧ (st.db.papers pid).isSome = true) :
    Complete (pLinkStep pid st l) ∧
    ((pLinkStep pid st l).db.papers pid).isSome = true :=
  ⟨@complete_untracked st (pLinkStep pid st l) rfl rfl rfl rfl rfl rfl rfl
    rfl rfl rfl rfl h.1, h.2⟩

theorem pScrStep_ok (pid : HID) (st : St) (sc : String)
    (h : Complete st ∧ (st.db.papers pid).isSome = true) :
    Complete (pScrStep pid st sc) ∧
    ((pScrStep pid st sc).db.papers pid).isSome = true :=
  ⟨@complete_untracked st (pScrStep pid st sc) rfl rfl rfl rfl rfl rfl rfl
    rfl rfl rfl rfl h.1, h.2⟩

theorem paperBody_ok (p : PaperT) (s : St) (hs : Complete s) :
    Complete (paperBody p s).s ∧
    ∃ row, (paperBody p s).row = some row ∧
      (paperHid p).head? = some (kindTag row) ∧
      rowRef (paperBody p s).s.db row := by
  have gs1 : Grows s (paperS1 p s) :=
    ⟨fun _ _ x => x, fun k x => mupd_isSome_mono _ _ _ _ x, fun k x => x,
      fun k x => x, fun k x => x, fun k x => x, fun k x => x⟩
  have h1 : Complete (paperS1 p s) :=
    complete_of_grows_assoc gs1 rfl rfl rfl rfl rfl rfl hs
  have hp1 : ((paperS1 p s).db.papers (some (paperHid p))).isSome
      = true := by
    show (mupd s.db.papers (some (paperHid p))
      (p.title, p.abstract, p.citation_count)
      (some (paperHid p))).isSome = true
    rw [mupd_eq]
    rfl
  have hA := foldl_pres_prop
    (fun acc : St × List Ev × Nat => Complete acc.1 ∧
      (acc.1.db.papers (some (paperHid p))).isSome = true)
    (pAuthorStep (some (paperHid p)))
    (fun acc author hq => pAuthorStep_ok _ acc author hq)
    p.authors (paperS1 p s, [], 0) ⟨h1, hp1⟩
  have hR := foldl_pres_prop
    (fun acc : St × List Ev => Complete acc.1 ∧
      (acc.1.db.papers (some (paperHid p))).isSome = true)
    (pRelStep (some (paperHid p)))
    (fun acc rel hq => pRelStep_ok _ acc rel hq)
    p.releases ((paperSA p s).1, []) hA
  have hT := foldl_pres_prop
    (fun acc : St × List Ev => Complete acc.1 ∧
      (acc.1.db.papers (some (paperHid p))).isSome = true)
    (pTopStep (some (paperHid p)))
    (fun acc t hq => pTopStep_ok _ acc t hq)
    p.topics ((paperSR p s).1, []) hR
  have hL := foldl_pres_prop
    (fun st : St => Complete st ∧
      (st.db.papers (some (paperHid p))).isSome = true)
    (pLinkStep (some (paperHid p)))
    (fun st l hq => pLinkStep_ok _ st l hq)
    p.links (paperST p s).1 hT
  have hS := foldl_pres_prop
    (fun st : St => Complete st ∧
      (st.db.papers (some (paperHid p))).isSome = true)
    (pScrStep (some (paperHid p)))
    (fun st sc hq => pScrStep_ok _ st sc hq)
    p.scrapers (paperSL p s) hL
  exact ⟨hS.1,
    SRow.paper (some (paperHid p)) p.title p.abstract p.citation_count,
    rfl, rfl, hS.2⟩

theorem acquirePaper_ok (p : PaperT) (s : St) (hs : Complete s) :
    Complete (acquirePaper p s).s ∧
    ∃ pid a b c, (acquirePaper p s).row = some (SRow.paper pid a b c) ∧
      ((acquirePaper p s).s.db.papers pid).isSome = true := by
  obtain ⟨hC, row, hrow, htag, href⟩ := withCache_ok (paperHid p)
    (paperBody p) s
    (truthy_entityHid (Entity.paper p) (paperHid p) rfl) hs
    (paperBody_ok p s hs)
  refine ⟨hC, ?_⟩
  have h1 : (1 : Nat) = kindTag row :=
    Option.some.inj (show some 1 = some (kindTag row) from htag)
  obtain ⟨pid, a, b, c, hrw⟩ := row_of_tag_one row h1.symm
  rw [hrw] at hrow href
  exact ⟨pid, a, b, c, hrow, href⟩

/-- After any `acquire` from a coherent state the store is still
coherent: no association row or release row references a missing row. -/
theorem acquire_complete (x : Entity) (s : St) (hs : Complete s) :
    Complete (acquire x s).s := by
  cases x with
  | paper p => exact (acquirePaper_ok p s hs).1
  | author a => exact (acquireAuthor_ok a s hs).1
  | institution i => exact (acquireInstitution_ok i s hs).1
  | release r => exact (acquireRelease_ok r s hs).1
  | topic t => exact (acquireTopic_ok t s hs).1
  | venue v => exact (acquireVenue_ok v s hs).1
  | authorQuery aid a => exact acquireAuthorQuery_ok aid a s hs

theorem complete_emptySt : Complete emptySt := by
  refine ⟨?_, ?_, ?_, ?_, ?_, ?_⟩
  · intro h r hh
    cases hh
  · intro pid aid i hh
    cases hh
  · intro pid aid iid hh
    cases hh
  · intro pid rid hh
    cases hh
  · intro pid tid hh
    cases hh
  · intro rid d dp vol pub vv hh
    cases hh


theorem paper_row_first (p : PaperT) (s : St)
    (hc : s.cache (some (paperHid p)) = none) :
    ∃ rest, (acquirePaper p s).evs
      = Ev.wPaper (some (paperHid p)) :: rest := by
  show ∃ rest, (withCache (some (paperHid p)) (paperBody p) s).evs
    = Ev.wPaper (some (paperHid p)) :: rest
  rw [withCache_uncached _ _ _
    (truthy_entityHid (Entity.paper p) (paperHid p) rfl) hc,
    runAndCache_evs, paperBody_evs]
  exact ⟨_, rfl⟩

theorem venue_before_release_row (r : ReleaseT) (s : St)
    (hc : s.cache (some (releaseHid r)) = none) :
    (acquireRelease r s).evs
      = (acquireVenue r.venue s).evs ++
        [Ev.wRelease (some (releaseHid r))
          (rowVenueId (acquireVenue r.venue s).row),
        Ev.ret (acquireRelease r s).row] := by
  have ht := truthy_entityHid (Entity.release r) (releaseHid r) rfl
  show (withCache (some (releaseHid r)) (releaseBody r) s).evs
    = (acquireVenue r.venue s).evs ++
      [Ev.wRelease (some (releaseHid r))
        (rowVenueId (acquireVenue r.venue s).row),
      Ev.ret (withCache (some (releaseHid r)) (releaseBody r) s).row]
  rw [withCache_uncached _ _ _ ht hc, runAndCache_evs, runAndCache_row]
  show ((acquireVenue r.venue s).evs ++
      [Ev.wRelease (some (releaseHid r))
        (rowVenueId (acquireVenue r.venue s).row)]) ++
      [Ev.ret (releaseBody r s).row]
    = _
  rw [List.append_assoc]
  rfl

/-- C4 counterexample: acquiring a one-author paper from the empty state
writes the paper row FIRST — the trace starts with `wPaper` and the
author is acquired only afterwards (its `wAuthor` lies in the tail) —
contradicting the claim that every child is acquired before the paper
row is written. -/
theorem paper_row_written_before_children :
    (acquirePaper
        ⟨"P", none, none, [⟨"A", [], [], [], []⟩], [], [], [], []⟩
        emptySt).evs.head?
      = some (Ev.wPaper (some (paperHid
          ⟨"P", none, none, [⟨"A", [], [], [], []⟩], [], [], [], []⟩))) ∧
    Ev.wAuthor (some (authorHid ⟨"A", [], [], [], []⟩))
      ∈ (acquirePaper
          ⟨"P", none, none, [⟨"A", [], [], [], []⟩], [], [], [], []⟩
          emptySt).evs.tail := by decide

/-- C4 (amended): the paper branch merges the paper's own row before any
child is acquired (the one-row-per-entity upsert carries no child
references), a release acquires its venue before the release row
carrying the venue id is written, and every association/foreign-key
reference written by `acquire` points at a row that exists: from a
coherent state, `acquire` preserves the no-dangling-references
invariant. -/
theorem acquire_reference_order :
    (∀ (p : PaperT) (s : St), s.cache (some (paperHid p)) = none →
      ∃ rest, (acquirePaper p s).evs
        = Ev.wPaper (some (paperHid p)) :: rest) ∧
    (∀ (r : ReleaseT) (s : St), s.cache (some (releaseHid r)) = none →
      (acquireRelease r s).evs
        = (acquireVenue r.venue s).evs ++
          [Ev.wRelease (some (releaseHid r))
            (rowVenueId (acquireVenue r.venue s).row),
          Ev.ret (acquireRelease r s).row]) ∧
    (∀ (x : Entity) (s : St), Complete s → Complete (acquire x s).s) :=
  ⟨paper_row_first, venue_before_release_row,
    fun x s hs => acquire_complete x s hs⟩

/-- C4 amended-claim witness at concrete inputs: a concrete paper trace
starts with its `wPaper`, a concrete release trace is venue events then
the release row, and coherence is preserved by a concrete acquire. -/
theorem acquire_reference_order_witness :
    (∃ rest, (acquirePaper ⟨"P2", none, none, [], [], [], [], []⟩
        emptySt).evs
      = Ev.wPaper (some (paperHid ⟨"P2", none, none, [], [], [], [], []⟩))
        :: rest) ∧
    (acquireRelease ⟨⟨"journal", "V", []⟩, "2024", 1, none, none⟩
        emptySt).evs
      = (acquireVenue ⟨"journal", "V", []⟩ emptySt).evs ++
        [Ev.wRelease
          (some (releaseHid ⟨⟨"journal", "V", []⟩, "2024", 1, none, none⟩))
          (rowVenueId (acquireVenue ⟨"journal", "V", []⟩ emptySt).row),
        Ev.ret (acquireRelease ⟨⟨"journal", "V", []⟩, "2024", 1, none,
          none⟩ emptySt).row] ∧
    Complete (acquire (Entity.topic ⟨"T4"⟩) emptySt).s :=
  ⟨acquire_reference_order.1 ⟨"P2", none, none, [], [], [], [], []⟩
      emptySt rfl,
    acquire_reference_order.2.1
      ⟨⟨"journal", "V", []⟩, "2024", 1, none, none⟩ emptySt rfl,
    acquire_reference_order.2.2 (Entity.topic ⟨"T4"⟩) emptySt
      complete_emptySt⟩


/-! ### `Database._accumulate_history_files` / `Database.replay`

A history tree: files carry their parsed lines (`none` = malformed
line), directories their children.  `_accumulate_history_files` sorts
each directory's children and, when `before`/`after` are non-empty
strings, keeps only children — directories included — whose name
truncated to the bound's length compares strictly below/above the bound;
it then recurses.  A bare file (the root itself) is appended with no
filtering.  Recursion is embedded with fuel; fuel 0 returns nothing and
every theorem quantifies over or supplies sufficient fuel. -/

inductive FSTree where
  | file (name : String) (lines : List (Option Entity))
  | dir (name : String) (children : List FSTree)

def fsName : FSTree → String
  | .file n _ => n
  | .dir n _ => n

def insertByName (t : FSTree) : List FSTree → List FSTree
  | [] => [t]
  | u :: us =>
      if fsName t ≤ fsName u then t :: u :: us
      else u :: insertByName t us

/-- `sorted(paths)`: within one directory, `Path` order is name order. -/
def sortByName (ts : List FSTree) : List FSTree :=
  ts.foldr insertByName []

/-- Python string `<`: lexicographic comparison of the code points. -/
def lexLt : List Char → List Char → Bool
  | [], [] => false
  | [], _ :: _ => true
  | _ :: _, [] => false
  | a :: as, b :: bs =>
      if a.toNat < b.toNat then true
      else if b.toNat < a.toNat then false
      else lexLt as bs

/-- `if before: ... x.name[: len(before)] < before` (an empty bound is
falsy: no filtering). -/
def passBefore (before n : String) : Bool :=
  if before = "" then true
  else lexLt (n.data.take before.data.length) before.data

/-- `if after: ... x.name[: len(after)] > after`. -/
def passAfter (after n : String) : Bool :=
  if after = "" then true
  else lexLt after.data (n.data.take after.data.length)

def passName (before after n : String) : Bool :=
  passBefore before n && passAfter after n

/-- `_accumulate_history_files`: a file is appended; a directory's
children are sorted, filtered by name — subdirectories too — and
recursed into in order. -/
def accHist (before after : String) : Nat → FSTree → List FSTree
  | 0, _ => []
  | _ + 1, .file n ls => [.file n ls]
  | fuel + 1, .dir _ children =>
      (((sortByName children).filter
        (fun c => passName before after (fsName c))).map
        (accHist before after fuel)).flatten

/-- All files of the tree in sorted depth-first order, unfiltered. -/
def allFiles : Nat → FSTree → List FSTree
  | 0, _ => []
  | _ + 1, .file n ls => [.file n ls]
  | fuel + 1, .dir _ children =>
      ((sortByName children).map (allFiles fuel)).flatten

/-- Modelled from the spec: "applies exactly those files under root
whose name prefix compares lexicographically below `before` ... and
above `after`" — the name filter applied to the files themselves, not to
the directories above them. -/
def specFiles (before after : String) (fuel : Nat) (t : FSTree) :
    List FSTree :=
  (allFiles fuel t).filter (fun c => passName before after (fsName c))

/-- `Database.replay`, after accumulation: one `with self:` per file, in
order; a raising line aborts the whole run (later files untouched),
though the failing file's partial work is still committed. -/
def replayFiles : List FSTree → St → St × List Ev × Bool
  | [], s => (s, [], true)
  | .file _ ls :: rest, s =>
      let r := replayFile ls s
      if r.2.2 then
        let rr := replayFiles rest r.1
        (rr.1, r.2.1 ++ rr.2.1, rr.2.2)
      else (r.1, r.2.1, false)
  | .dir _ _ :: rest, s => replayFiles rest s

theorem mem_insertByName (t x : FSTree) :
    ∀ l : List FSTree, x ∈ insertByName t l ↔ x = t ∨ x ∈ l := by
  intro l
  induction l with
  | nil => simp [insertByName]
  | cons u us ih =>
      by_cases h : fsName t ≤ fsName u
      · rw [insertByName, if_pos h]
        simp
      · rw [insertByName, if_neg h]
        simp only [List.mem_cons, ih]
        tauto

theorem mem_sortByName (x : FSTree) :
    ∀ l : List FSTree, x ∈ sortByName l ↔ x ∈ l := by
  intro l
  induction l with
  | nil => simp [sortByName]
  | cons u us ih =>
      show x ∈ insertByName u (sortByName us) ↔ _
      rw [mem_insertByName]
      simp only [List.mem_cons, ih]

theorem sorted_insertByName (t : FSTree) :
    ∀ l : List FSTree,
      l.Pairwise (fun a b => fsName a ≤ fsName b) →
      (insertByName t l).Pairwise (fun a b => fsName a ≤ fsName b) := by
  intro l
  induction l with
  | nil =>
      intro _
      simp [insertByName]
  | cons u us ih =>
      intro h
      by_cases hle : fsName t ≤ fsName u
      · rw [insertByName, if_pos hle]
        refine List.Pairwise.cons ?_ h
        intro b hb
        rcases List.mem_cons.mp hb with hb1 | hb2
        · rw [hb1]
          exact hle
        · exact le_trans hle (List.rel_of_pairwise_cons h hb2)
      · rw [insertByName, if_neg hle]
        refine List.Pairwise.cons ?_ (ih (List.Pairwise.of_cons h))
        intro b hb
        rcases (mem_insertByName t b us).mp hb with hb1 | hb2
        · rw [hb1]
          exact le_of_lt (not_le.mp hle)
        · exact List.rel_of_pairwise_cons h hb2

theorem sorted_sortByName :
    ∀ l : List FSTree,
      (sortByName l).Pairwise (fun a b => fsName a ≤ fsName b) := by
  intro l
  induction l with
  | nil => exact List.Pairwise.nil
  | cons u us ih => exact sorted_insertByName u (sortByName us) ih

theorem accHist_file_sub (before after : String) (fuel : Nat)
    (n : String) (ls : List (Option Entity)) :
    ∀ f ∈ accHist before after fuel (.file n ls), f = FSTree.file n ls := by
  cases fuel with
  | zero =>
      intro f hf
      cases hf
  | succ fuel2 =>
      intro f hf
      exact List.mem_singleton.mp hf

/-- Every file the accumulator returns from under a directory root has,
itself, a passing name (the per-level filter saw it). -/
theorem accHist_sound (before after : String) :
    ∀ (fuel : Nat) (n : String) (children : List FSTree) (f : FSTree),
      f ∈ accHist before after fuel (.dir n children) →
      ∃ nm ls, f = FSTree.file nm ls ∧
        passName before after nm = true := by
  intro fuel
  induction fuel with
  | zero =>
      intro n children f hf
      cases hf
  | succ fuel2 ih =>
      intro n children f hf
      rw [show accHist before after (fuel2 + 1) (.dir n children)
          = (((sortByName children).filter
            (fun c => passName before after (fsName c))).map
            (accHist before after fuel2)).flatten from rfl] at hf
      rcases List.mem_flatten.mp hf with ⟨l, hl, hfl⟩
      rcases List.mem_map.mp hl with ⟨c, hc, hcl⟩
      have hcpass := (List.mem_filter.mp hc).2
      cases c with
      | file nm ls =>
          have hfe : f = FSTree.file nm ls :=
            accHist_file_sub before after fuel2 nm ls f (hcl ▸ hfl)
          exact ⟨nm, ls, hfe, by rw [show fsName (FSTree.file nm ls) = nm
            from rfl] at hcpass; exact hcpass⟩
      | dir nm cs =>
          exact ih nm cs f (hcl ▸ hfl)

theorem flatten_map_files (g : FSTree → List FSTree)
    (hg : ∀ nm ls, g (FSTree.file nm ls) = [FSTree.file nm ls]) :
    ∀ l : List FSTree,
      (∀ c ∈ l, ∃ nm ls, c = FSTree.file nm ls) →
      (l.map g).flatten = l := by
  intro l
  induction l with
  | nil => intro _; rfl
  | cons c cs ih =>
      intro h
      obtain ⟨nm, ls, hc⟩ := h c (List.mem_cons_self _ _)
      show (g c ++ (cs.map g).flatten) = c :: cs
      rw [hc, hg nm ls, ih (fun c2 hc2 => h c2 (List.mem_cons_of_mem _ hc2))]
      rfl

/-- On a flat directory (children all files) the code matches the
spec-side reading exactly: the sorted children filtered by name. -/
theorem accHist_flat (before after : String) (fuel : Nat) (n : String)
    (children : List FSTree)
    (hfiles : ∀ c ∈ children, ∃ nm ls, c = FSTree.file nm ls) :
    accHist before after (fuel + 2) (.dir n children)
      = specFiles before after (fuel + 2) (.dir n children) := by
  have hsf : ∀ c ∈ sortByName children, ∃ nm ls, c = FSTree.file nm ls :=
    fun c hc => hfiles c ((mem_sortByName c children).mp hc)
  have h1 : accHist before after (fuel + 2) (.dir n children)
      = (sortByName children).filter
        (fun c => passName before after (fsName c)) := by
    show (((sortByName children).filter
      (fun c => passName before after (fsName c))).map
      (accHist before after (fuel + 1))).flatten = _
    exact flatten_map_files _ (fun nm ls => rfl) _
      (fun c hc => hsf c (List.mem_of_mem_filter hc))
  have h2 : specFiles before after (fuel + 2) (.dir n children)
      = (sortByName children).filter
        (fun c => passName before after (fsName c)) := by
    show (((sortByName children).map (allFiles (fuel + 1))).flatten).filter
      _ = _
    rw [flatten_map_files _ (fun nm ls => rfl) _ hsf]
  rw [h1, h2]


/-- C6 counterexample: the name filter is applied at every directory
level, to directory names too.  With `before = "b"`, a root directory
whose subdirectory is named "b" contributes nothing — even though the
file "a9" inside it passes the filter on its own name and the spec-side
reading selects it. -/
theorem ancestor_name_excludes_passing_file :
    (∀ fuel : Nat, accHist "b" "" (fuel + 3)
      (FSTree.dir "r" [FSTree.dir "b" [FSTree.file "a9" []]]) = []) ∧
    specFiles "b" "" 3
        (FSTree.dir "r" [FSTree.dir "b" [FSTree.file "a9" []]])
      = [FSTree.file "a9" []] ∧
    passName "b" "" "a9" = true := by
  refine ⟨fun fuel => ?_, ?_, by decide⟩
  on_goal 2 =>
    have hp : passName "b" "" (fsName (FSTree.file "a9" [])) = true := by
      decide
    show (allFiles 3 (FSTree.dir "r"
      [FSTree.dir "b" [FSTree.file "a9" []]])).filter
      (fun c => passName "b" "" (fsName c)) = [FSTree.file "a9" []]
    rw [show allFiles 3 (FSTree.dir "r"
      [FSTree.dir "b" [FSTree.file "a9" []]]) = [FSTree.file "a9" []]
      from rfl]
    simp [hp]
  have hb : passName "b" "" (fsName (FSTree.dir "b" [FSTree.file "a9" []]))
      = false := by decide
  have hf : List.filter (fun c => passName "b" "" (fsName c))
      [FSTree.dir "b" [FSTree.file "a9" []]] = [] := by
    simp [hb]
  show ((List.filter (fun c => passName "b" "" (fsName c))
      [FSTree.dir "b" [FSTree.file "a9" []]]).map
      (accHist "b" "" (fuel + 2))).flatten = []
  rw [hf]
  rfl

/-- C6 (amended): `replay(root, before, after)` selects files by walking
the tree with the name-range filter applied at every directory level —
to directory names as well — so every selected file's own name passes
the filter (but a passing file below a non-passing directory is
dropped); each directory's children are visited in sorted name order;
when the root directory holds only files the selection is exactly the
sorted, name-filtered children; and the selected files are replayed in
order, each line acquired within one transaction per file, a raising
line aborting the run. -/
theorem history_file_selection :
    (∀ (before after : String) (fuel : Nat) (n : String)
      (children : List FSTree) (f : FSTree),
      f ∈ accHist before after fuel (.dir n children) →
      ∃ nm ls, f = FSTree.file nm ls ∧
        passName before after nm = true) ∧
    (∀ (before after : String) (fuel : Nat) (n : String)
      (children : List FSTree),
      (∀ c ∈ children, ∃ nm ls, c = FSTree.file nm ls) →
      accHist before after (fuel + 2) (.dir n children)
        = specFiles before after (fuel + 2) (.dir n children)) ∧
    (∀ l : List FSTree,
      (sortByName l).Pairwise (fun a b => fsName a ≤ fsName b)) ∧
    (∀ (ls : List (Option Entity)) (s : St),
      (replayFile ls s).2.1
        = Ev.txBegin :: (acquireSeq ls s).2.1 ++ [Ev.txCommit]) ∧
    (∀ (n : String) (ls : List (Option Entity)) (rest : List FSTree)
      (s : St),
      ((replayFile ls s).2.2 = true →
        replayFiles (FSTree.file n ls :: rest) s
          = ((replayFiles rest (replayFile ls s).1).1,
            (replayFile ls s).2.1 ++
              (replayFiles rest (replayFile ls s).1).2.1,
            (replayFiles rest (replayFile ls s).1).2.2)) ∧
      ((replayFile ls s).2.2 = false →
        replayFiles (FSTree.file n ls :: rest) s
          = ((replayFile ls s).1, (replayFile ls s).2.1, false))) := by
  refine ⟨fun before after => accHist_sound before after,
    fun before after fuel n children h =>
      accHist_flat before after fuel n children h,
    sorted_sortByName, fun ls s => rfl, ?_⟩
  intro n ls rest s
  constructor
  · intro hok
    show (if (replayFile ls s).2.2 then _ else _) = _
    rw [hok, if_pos rfl]
  · intro hfail
    show (if (replayFile ls s).2.2 then _ else _) = _
    rw [hfail, if_neg Bool.false_ne_true]

/-- C6 amended-claim witness at concrete inputs. -/
theorem history_file_selection_witness :
    (∃ nm ls, (FSTree.file "f1" ([] : List (Option Entity)))
        = FSTree.file nm ls ∧ passName "" "" nm = true) ∧
    accHist "" "" 2 (FSTree.dir "r" [FSTree.file "f1" []])
      = specFiles "" "" 2 (FSTree.dir "r" [FSTree.file "f1" []]) ∧
    replayFiles [FSTree.file "g" [some (Entity.topic ⟨"T6"⟩)]] emptySt
      = ((replayFiles [] (replayFile [some (Entity.topic ⟨"T6"⟩)]
            emptySt).1).1,
        (replayFile [some (Entity.topic ⟨"T6"⟩)] emptySt).2.1 ++
          (replayFiles [] (replayFile [some (Entity.topic ⟨"T6"⟩)]
            emptySt).1).2.1,
        (replayFiles [] (replayFile [some (Entity.topic ⟨"T6"⟩)]
          emptySt).1).2.2) ∧
    replayFiles [FSTree.file "h" [none]] emptySt
      = ((replayFile [none] emptySt).1,
        (replayFile [none] emptySt).2.1, false) :=
  ⟨history_file_selection.1 "" "" 2 "r" [FSTree.file "f1" []]
      (FSTree.file "f1" [])
      (by rw [show accHist "" "" 2 (FSTree.dir "r" [FSTree.file "f1" []])
          = [FSTree.file "f1" []] from rfl]
          exact List.mem_singleton.mpr rfl),
    history_file_selection.2.1 "" "" 0 "r" [FSTree.file "f1" []]
      (fun c hc => by
        rw [List.mem_singleton.mp hc]
        exact ⟨"f1", [], rfl⟩),
    (history_file_selection.2.2.2.2 "g" [some (Entity.topic ⟨"T6"⟩)] []
      emptySt).1 (by decide),
    (history_file_selection.2.2.2.2 "h" [none] [] emptySt).2 rfl⟩

end Paperoni
